import Mathlib

/-!
# k-mismatch search through a covering set of forms

A shallow embedding of the C++ sources `type_defs.h`, `mcs.cpp`,
`k_mismatch_search.cpp` and of `safeStoi` in `main.cpp`, followed by theorems about
them.

Conventions of the embedding.

* `kMismatchIntegerType::uint_type` is `uint64_t`.  Its values are natural numbers
  below `2 ^ 64`; every operation that can leave that range is reduced modulo
  `2 ^ 64` explicitly (`shl1`, `subU64`, `bitNot`).
* A `std::string` is the list of its bytes.  Lengths of strings are `size_t`
  values; a `std::string` holds fewer than `2 ^ 63` bytes, which theorems state as a
  hypothesis where a conversion to `int64_t` depends on it.
* `std::map<std::string, ...>` is an association list with pairwise different keys,
  `std::set<size_t>` a duplicate-free list.  The iteration order of the containers
  is not observable in a returned map and is not modelled.
* The `std::execution::par` loops are run in index order.  What they produce are
  sets of positions, which do not depend on the order of the insertions.
* `reserve` calls only set a capacity and are left out.
* A file is given by its contents, a string.  The library functions `strtol`,
  `std::stoi`, `std::getline` and the stream output of integers are rendered by
  their documented behaviour.
-/

namespace KMismatch

/-! ## Machine words -/

/-- A `std::string`, as its bytes. -/
abbrev Str := List UInt8

/-- The byte `'_'` that `Form::getStringFromPosition` writes at unsampled offsets. -/
def placeholder : UInt8 := 95

/-- The constant `kMismatchIntegerType::UINT_TYPE_SIZE`. -/
def UINT_TYPE_SIZE : Nat := 64

/-- The number of values of `uint64_t`. -/
def uintModulus : Nat := 2 ^ 64

/-- The statement `x << 1` on a `uint64_t`. -/
def shl1 (x : Nat) : Nat := (x <<< 1) % uintModulus

/-- The difference `a - b` of two `uint64_t` (or `size_t`) values, which wraps around. -/
def subU64 (a b : Nat) : Nat := (a + uintModulus - b) % uintModulus

/-- The complement `~x` of a `uint64_t`. -/
def bitNot (x : Nat) : Nat := (uintModulus - 1) ^^^ x

/-- The test `(1 << (UINT_TYPE_SIZE - 1)) & x`. -/
def msbSet (x : Nat) : Bool := ((1 <<< (UINT_TYPE_SIZE - 1)) &&& x) != 0

/-- Conversion of a `size_t` to `int64_t` (two's complement). -/
def toInt64 (x : Nat) : Int := if x < 2 ^ 63 then (x : Int) else (x : Int) - 2 ^ 64

/-! ## `BinaryIntBaseSequence`, `Form`, `Combination` -/

/-- The loop of the constructor of `BinaryIntBaseSequence`: counts the shifts that
bring `formIntSeq` to zero.  A `uint64_t` needs at most 64 rounds. -/
def sizeLoop : Nat → Nat → Nat
  | 0, _ => 0
  | fuel + 1, formIntSeq =>
      if formIntSeq = 0 then 0 else sizeLoop fuel (formIntSeq >>> 1) + 1

/-- A `Form`.  The member `size` is always the value its constructor computes from
`sequenceInt`, see `Form.getSize`. -/
structure Form where
  sequenceInt : Nat
deriving DecidableEq, Repr

/-- A `Combination`. -/
structure Combination where
  sequenceInt : Nat
deriving DecidableEq, Repr

/-- The method `getSize` of a form. -/
def Form.getSize (f : Form) : Nat := sizeLoop UINT_TYPE_SIZE f.sequenceInt

/-- The method `getSize` of a combination. -/
def Combination.getSize (c : Combination) : Nat := sizeLoop UINT_TYPE_SIZE c.sequenceInt

/-- The loop of `Form::getStringFromPosition`; the first argument is the number of
rounds left (`getSize() - i`).  A byte read outside `str` is rendered as `0`. -/
def extractLoop (str : Str) : Nat → Nat → Nat → Str
  | 0, _, _ => []
  | n + 1, formIntSeq, pos =>
      (if formIntSeq &&& 1 ≠ 0 then str.getD pos 0 else placeholder)
        :: extractLoop str n (formIntSeq >>> 1) (pos + 1)

/-- The method `Form::getStringFromPosition`. -/
def Form.getStringFromPosition (f : Form) (str : Str) (pos : Nat) : Str :=
  extractLoop str f.getSize f.sequenceInt pos

/-- The test `(combinationInt | ~formInt) == ~0`. -/
def coveredBy (combinationInt formInt : Nat) : Bool :=
  (combinationInt ||| bitNot formInt) == bitNot 0

/-- The shift loop of `Combination::contains` together with its last check.  The
first argument bounds the number of rounds; `none` means the bound was reached. -/
def containsLoop : Nat → Nat → Nat → Option Bool
  | 0, _, _ => none
  | fuel + 1, combinationInt, formInt =>
      if msbSet formInt then some (coveredBy combinationInt formInt)
      else if coveredBy combinationInt formInt then some true
      else containsLoop fuel combinationInt (shl1 formInt)

/-- The method `Combination::contains`.  Its loop ends within 64 rounds on every
pair of `uint64_t` values (`containsLoop_spec`, `containsLoop_zero`). -/
def Combination.contains (c : Combination) (form : Form) : Bool :=
  (containsLoop UINT_TYPE_SIZE c.sequenceInt form.sequenceInt).getD false

/-- The recursive lambda `generateForms` of `Form::generateAllForms`.  The first
argument bounds the recursion depth; a call with
`remainOnes + remainZeros < fuel` never reaches it. -/
def generateForms : Nat → Nat → Nat → Nat → List Form
  | 0, _, _, _ => []
  | fuel + 1, remainOnes, remainZeros, curFormInt =>
      (if remainOnes = 0 then [Form.mk (shl1 curFormInt ||| 1)] else [])
        ++ (if remainOnes ≠ 0 then
              generateForms fuel (remainOnes - 1) remainZeros (shl1 curFormInt ||| 1)
            else [])
        ++ (if remainZeros ≠ 0 then
              generateForms fuel remainOnes (remainZeros - 1) (shl1 curFormInt)
            else [])

/-- The static method `Form::generateAllForms`. -/
def Form.generateAllForms (length mismatchK : Nat) : Except String (List Form) :=
  let ones := if 2 > subU64 length mismatchK then subU64 length mismatchK else 2
  if ones < 2 then
    .error "Matches per form must be equal or greater than 2!"
  else
    let max_zeros := subU64 length ones
    .ok (generateForms (ones - 2 + max_zeros + 1) (ones - 2) max_zeros 1)

/-- The recursive lambda `generateCombinations` of
`Combination::generateAllCombinations`.  The first argument bounds the recursion
depth; a call with `remainOnes + remainZeros < fuel` never reaches it. -/
def generateCombinations : Nat → Nat → Nat → Nat → List Combination
  | 0, _, _, _ => []
  | fuel + 1, remainOnes, remainZeros, curCombinationInt =>
      (if remainOnes = 0 ∧ remainZeros = 0 then [Combination.mk curCombinationInt] else [])
        ++ (if remainOnes ≠ 0 then
              generateCombinations fuel (remainOnes - 1) remainZeros
                (shl1 curCombinationInt ||| 1)
            else [])
        ++ (if remainZeros ≠ 0 then
              generateCombinations fuel remainOnes (remainZeros - 1) (shl1 curCombinationInt)
            else [])

/-- The static method `Combination::generateAllCombinations`. -/
def Combination.generateAllCombinations (length mismatchK : Nat) : List Combination :=
  let zeros := mismatchK
  let ones := subU64 length mismatchK
  generateCombinations (subU64 ones 1 + zeros + 1) (subU64 ones 1) zeros 1

/-! ## `Combination::getAllForms` -/

/-- The loop `while (!(n & 1)) n >>= 1;` of `cutRightZeros`.  The first argument bounds
the number of rounds; `none` means the bound was reached. -/
def cutRightZerosLoop : Nat → Nat → Option Nat
  | 0, _ => none
  | fuel + 1, n => if n &&& 1 = 0 then cutRightZerosLoop fuel (n >>> 1) else some n

/-- The function `cutRightZeros`.  A non-zero `uint64_t` has a one-bit among its 64
bits, so 64 rounds end the loop; for `n = 0` the loop never ends, which is the result
`none`. -/
def cutRightZeros (n : Nat) : Option Nat := cutRightZerosLoop UINT_TYPE_SIZE n

/-- The recursive lambda `generateInnerForms` of `Combination::getAllForms`: the forms
it inserts, or `none` when a call of `cutRightZeros` never returns.  The first argument
bounds the recursion depth (`curPosition` is shifted in every call).  With
`remainOnes ≠ 0`, the rounds of the `while` loop after the first one, which start from
`curPosition << 1` with the same `remainOnes` and `curFormInt`, together with the
statement after the loop are the body of the lambda for these arguments; they are
rendered as the second recursive call. -/
def generateInnerForms (combInt : Nat) : Nat → Nat → Nat → Nat → Option (List Form)
  | 0, _, _, _ => none
  | fuel + 1, remainOnes, curPosition, curFormInt =>
      if remainOnes = 0 then
        (cutRightZeros curFormInt).map (fun n => [Form.mk n])
      else if msbSet curPosition then
        (if combInt &&& curPosition ≠ 0 ∧ remainOnes = 1 then
          (cutRightZeros (curFormInt ||| curPosition)).map (fun n => [Form.mk n])
         else some [])
      else
        (if combInt &&& curPosition ≠ 0 then
          generateInnerForms combInt fuel (remainOnes - 1) (shl1 curPosition)
            (curFormInt ||| curPosition)
         else some []).bind (fun chosen =>
          (generateInnerForms combInt fuel remainOnes (shl1 curPosition) curFormInt).map
            (fun skipped => chosen ++ skipped))

/-- Insertion into a `std::set<Form>`. -/
def formSetInsert (set : List Form) (form : Form) : List Form :=
  if form ∈ set then set else set ++ [form]

/-- The method `Combination::getAllForms`: the set returned, as a duplicate-free
list, or `none` when the call never returns. -/
def Combination.getAllForms (c : Combination) (nMatches : Nat) : Option (List Form) :=
  (generateInnerForms c.sequenceInt UINT_TYPE_SIZE nMatches 1 0).map
    (fun inserted => inserted.foldl formSetInsert [])

/-! ## The greedy cover `MCS::buildMCSNaiveMultithreaded` -/

/-- An `MCS`: the vector `mcsForms`. -/
structure MCS where
  mcsForms : List Form
deriving DecidableEq, Repr

/-- What a call can do: return a value, throw, or do neither (it runs forever or
exhausts the call stack). -/
inductive Outcome (α : Type) where
  | returned : α → Outcome α
  | raised : String → Outcome α
  | diverged : Outcome α
deriving DecidableEq, Repr

/-- The unary operation of the `transform_reduce`: the number of combinations that
contain `form`. -/
def countContaining (combinations : List Combination) (form : Form) : Nat :=
  (combinations.filter (fun combination => combination.contains form)).length

/-- The binary operation of the `transform_reduce`. -/
def betterPair (a b : Form × Nat) : Form × Nat :=
  if a.2 = b.2 then (if a.1.sequenceInt < b.1.sequenceInt then a else b)
  else (if a.2 > b.2 then a else b)

/-- The `transform_reduce` call, started at the pair `{forms.front(), 0}`.  The
forms list is never empty here (`generateForms` pushes in its first call). -/
def bestFormToCombinationNumberPair (forms : List Form)
    (combinations : List Combination) : Form × Nat :=
  forms.foldl (fun acc form => betterPair acc (form, countContaining combinations form))
    (forms.headD (Form.mk 0), 0)

/-- The `while (!combinations.empty())` loop of `buildMCSNaiveMultithreaded`.  The
first argument bounds the number of rounds.  A round that removes no combination
leaves `forms` and `combinations` as they were, so the C++ loop then repeats it
forever; with as many rounds allowed as there are combinations, `none` is reached
exactly in that case. -/
def coverLoop (forms : List Form) : Nat → List Combination → List Form → Option (List Form)
  | _, [], mcsForms => some mcsForms
  | 0, _ :: _, _ => none
  | fuel + 1, c :: cs, mcsForms =>
      let best := (bestFormToCombinationNumberPair forms (c :: cs)).1
      coverLoop forms fuel
        ((c :: cs).filter (fun combination => !combination.contains best))
        (mcsForms ++ [best])

/-- The end of `buildMCSNaiveMultithreaded`: `return resultMCS` once the loop is
left, and no return when it is never left. -/
def coverOutcome : Option (List Form) → Outcome MCS
  | some mcsForms => .returned (MCS.mk mcsForms)
  | none => .diverged

/-- The length computed at the start of `buildMCSNaiveMultithreaded`. -/
def maxQueryLength (queries : List Str) : Nat :=
  queries.foldl (fun length query => if query.length > length then query.length else length) 1

/-- The longest chain of nested calls taken to fit on the call stack: an address space
of `2 ^ 64` bytes cannot hold `2 ^ 63` frames. -/
def maxCallDepth : Nat := 2 ^ 63

/-- The depth that the recursion of `generateCombinations` reaches in
`Combination::generateAllCombinations(length, mismatchK)`: one level for every
remaining one and zero of the first call `generateCombinations(ones - 1, zeros, 1)`. -/
def combinationsCallDepth (length mismatchK : Nat) : Nat :=
  subU64 (subU64 length mismatchK) 1 + mismatchK + 1

/-- The static method `MCS::buildMCSNaiveMultithreaded`.  The call of
`generateAllCombinations` comes first; when its recursion cannot fit on the call
stack (`mismatchK = length` makes `ones - 1` wrap around to `2 ^ 64 - 1`) the process
ends there, before `generateAllForms` is reached. -/
def MCS.buildMCSNaiveMultithreaded (queries : List Str) (mismatchK : Nat) : Outcome MCS :=
  let length := maxQueryLength queries
  if mismatchK > length then
    .raised "Mismatch number can not be greater than query length!"
  else if combinationsCallDepth length mismatchK > maxCallDepth then
    .diverged
  else
    let combinations := Combination.generateAllCombinations length mismatchK
    match Form.generateAllForms length mismatchK with
    | .error msg => .raised msg
    | .ok forms => coverOutcome (coverLoop forms combinations.length combinations [])

/-- Results of calls that can throw are compared constructor by constructor. -/
instance instDecidableEqExcept {ε α : Type} [DecidableEq ε] [DecidableEq α] :
    DecidableEq (Except ε α)
  | .ok a, .ok b =>
      if h : a = b then isTrue (by rw [h]) else isFalse (fun h' => h (Except.ok.inj h'))
  | .error a, .error b =>
      if h : a = b then isTrue (by rw [h]) else isFalse (fun h' => h (Except.error.inj h'))
  | .ok _, .error _ => isFalse (fun h => Except.noConfusion h)
  | .error _, .ok _ => isFalse (fun h => Except.noConfusion h)

/-! ## The verifier `KMismatchSearch::CheckQueryOnPosition` -/

/-- The intrinsic `_mm256_movemask_epi8`: bit `j` of the result is the most
significant bit of byte `j` of the 32-byte vector. -/
def movemask (v : List UInt8) : Nat :=
  (List.range 32).foldl (fun mask j => if (v.getD j 0).toNat ≥ 128 then mask + 2 ^ j else mask) 0

/-- Conversion of the `int` returned by `_mm256_movemask_epi8` (given here by its 32
bits) to `size_t`: the sign bit is extended. -/
def intToSizeT (bits : Nat) : Nat := if bits ≥ 2 ^ 31 then bits + (2 ^ 64 - 2 ^ 32) else bits

/-- The overload `popcount(uint64_t)`. -/
def popcount (x : Nat) : Nat := ((List.range 64).filter (fun j => x.testBit j)).length

/-- The loop `while (AVX2Support && i + 32 <= queryLen)` for `AVX2Support = true`.
The first argument bounds the number of rounds (each consumes 32 bytes).  The
result is `none` when the loop executes `return false`, and otherwise the values of
`i` and `misMatches` when the loop is left. -/
def simdLoop (text query : Str) (position : Nat) : Nat → Nat → Nat → Option (Nat × Nat)
  | 0, i, misMatches => some (i, misMatches)
  | fuel + 1, i, misMatches =>
      if i + 32 ≤ query.length then
        let textChunk := (text.drop (position + i)).take 32
        let queryChunk := (query.drop i).take 32
        let diff := List.zipWith (fun a b => a ^^^ b) textChunk queryChunk
        if diff.any (fun b => b != 0) then
          let mask := intToSizeT (movemask diff)
          let numMismatches := popcount mask
          if numMismatches > misMatches then none
          else simdLoop text query position fuel (i + 32) (misMatches - numMismatches)
        else simdLoop text query position fuel (i + 32) misMatches
      else some (i, misMatches)

/-- The loop `for (; i < queryLen; ++i)` with its `return false`, and the final
`return true`.  The first argument is the number of rounds left (`queryLen - i`). -/
def scalarLoop (text query : Str) (position : Nat) : Nat → Nat → Nat → Bool
  | 0, _, _ => true
  | fuel + 1, i, misMatches =>
      if query.getD i 0 ≠ text.getD (position + i) 0 then
        (if misMatches = 0 then false
         else scalarLoop text query position fuel (i + 1) (misMatches - 1))
      else scalarLoop text query position fuel (i + 1) misMatches

/-- The method `KMismatchSearch::CheckQueryOnPosition`; `avx2` is the global
`AVX2Support`.  The sum `position + queryLen` cannot wrap around for a non-negative
`int64_t` and the size of a string. -/
def CheckQueryOnPosition (avx2 : Bool) (text query : Str) (position : Int)
    (misMatches : Nat) : Except String Bool :=
  if misMatches > query.length then
    .error "Mismatch number can not be greater than query length!"
  else if position < 0 ∨ position.toNat + query.length > text.length then
    .ok false
  else
    match (if avx2 then simdLoop text query position.toNat (query.length / 32) 0 misMatches
           else some (0, misMatches)) with
    | none => .ok false
    | some (i, left) => .ok (scalarLoop text query position.toNat (query.length - i) i left)

/-! ## Maps from strings to positions -/

/-- A `std::map` from strings to collections of positions. -/
abbrev PosMap := List (Str × List Nat)

/-- The collection stored under `key`, empty when the key is absent. -/
def mapFind : PosMap → Str → List Nat
  | [], _ => []
  | (k, v) :: rest, key => if k = key then v else mapFind rest key

/-- The statement `m[key]` followed by the update `f` of the referenced value; an
absent key is first inserted with an empty value. -/
def mapUpdate : PosMap → Str → (List Nat → List Nat) → PosMap
  | [], key, f => [(key, f [])]
  | (k, v) :: rest, key, f =>
      if k = key then (k, f v) :: rest else (k, v) :: mapUpdate rest key f

/-- Insertion into a `std::set<size_t>`. -/
def setInsert (p : Nat) (s : List Nat) : List Nat := if p ∈ s then s else s ++ [p]

/-- The loops `for (auto& [str, value] : localMap) target[str].insert(value.begin(),
value.end())`. -/
def mergeInto (target localMap : PosMap) : PosMap :=
  localMap.foldl
    (fun acc entry => mapUpdate acc entry.1 (fun set => entry.2.foldl (fun st p => setInsert p st) set))
    target

/-- Equality of two `std::map<std::string, std::set<size_t>>`: the same keys, and
under every key the same set of positions. -/
def PosMap.Same (a b : PosMap) : Prop :=
  (∀ key, key ∈ a.map Prod.fst ↔ key ∈ b.map Prod.fst) ∧
    ∀ key p, p ∈ mapFind a key ↔ p ∈ mapFind b key

/-- Every key of the map carries at least one position. -/
def NonEmptyVals (m : PosMap) : Prop := ∀ e ∈ m, e.2 ≠ []

/-- The keys of the map are pairwise different. -/
def KeysNodup (m : PosMap) : Prop := (m.map Prod.fst).Nodup

/-! ## `KMismatchSearch` -/

/-- The members of a `KMismatchSearch`. -/
structure KMismatchSearch where
  text : Str
  queries : List Str
  cache : PosMap
  mcs : MCS
deriving DecidableEq

/-- The constructor `KMismatchSearch(textFile, queriesFile, misMatches)`, applied
to the contents of the two files. -/
def KMismatchSearch.new (text : Str) (queries : List Str) (misMatches : Nat) :
    Outcome KMismatchSearch :=
  match MCS.buildMCSNaiveMultithreaded queries misMatches with
  | .returned mcs => .returned { text := text, queries := queries, cache := [], mcs := mcs }
  | .raised msg => .raised msg
  | .diverged => .diverged

/-- The map `localFormMap` that the index build fills at text position `pos`. -/
def localFormMap (text : Str) (mcs : MCS) (pos : Nat) : PosMap :=
  mcs.mcsForms.foldl
    (fun m form =>
      if pos + form.getSize ≤ text.length then
        mapUpdate m (form.getStringFromPosition text pos) (fun v => v ++ [pos])
      else m)
    []

/-- The index build of `mcsSearch`: the body of `if (this->cache.empty())`. -/
def buildCache (text : Str) (mcs : MCS) (cache : PosMap) : PosMap :=
  (List.range text.length).foldl (fun c pos => mergeInto c (localFormMap text mcs pos)) cache

/-- The cache after the first phase of `mcsSearch`. -/
def KMismatchSearch.cacheAfterBuild (s : KMismatchSearch) : PosMap :=
  if s.cache.isEmpty then buildCache s.text s.mcs s.cache else s.cache

/-- The loop `for (size_t pos : this->cache[...])` of `mcsSearch` over the positions
found under one key. -/
def checkCandidates (avx2 : Bool) (text query : Str) (qPos misMatches : Nat)
    (candidates : List Nat) (localResultMap : PosMap) : Except String PosMap :=
  candidates.foldlM
    (fun m pos => do
      let hit ← CheckQueryOnPosition avx2 text query (toInt64 (subU64 pos qPos)) misMatches
      pure (if hit then mapUpdate m query (fun v => v ++ [subU64 pos qPos]) else m))
    localResultMap

/-- The loop `for (size_t qPos = 0; qPos + formSize <= querySize; qPos++)` of
`mcsSearch` for one form.  The state is the cache, in which `this->cache[...]` creates
an entry for a key that was absent, and `localResultMap`. -/
def searchWithForm (avx2 : Bool) (text query : Str) (misMatches : Nat) (form : Form)
    (state : PosMap × PosMap) : Except String (PosMap × PosMap) :=
  (List.range (query.length + 1 - form.getSize)).foldlM
    (fun st qPos => do
      let key := form.getStringFromPosition query qPos
      let cache := mapUpdate st.1 key id
      let m ← checkCandidates avx2 text query qPos misMatches (mapFind cache key) st.2
      pure (cache, m))
    state

/-- The body of the loop over the queries in `mcsSearch`.  The state is the cache
and `resultMap`. -/
def searchQuery (avx2 : Bool) (text : Str) (mcs : MCS) (misMatches : Nat)
    (state : PosMap × PosMap) (query : Str) : Except String (PosMap × PosMap) := do
  let st ← mcs.mcsForms.foldlM
    (fun st form => searchWithForm avx2 text query misMatches form st) (state.1, [])
  pure (st.1, mergeInto state.2 st.2)

/-- The method `mcsSearch`: the final cache and the returned map. -/
def KMismatchSearch.mcsSearchRun (s : KMismatchSearch) (avx2 : Bool) (misMatches : Nat) :
    Except String (PosMap × PosMap) :=
  s.queries.foldlM (searchQuery avx2 s.text s.mcs misMatches) (s.cacheAfterBuild, [])

/-- The map returned by `KMismatchSearch::mcsSearch`. -/
def KMismatchSearch.mcsSearch (s : KMismatchSearch) (avx2 : Bool) (misMatches : Nat) :
    Except String PosMap :=
  (s.mcsSearchRun avx2 misMatches).map Prod.snd

/-- The method `KMismatchSearch::naiveSearch`. -/
def KMismatchSearch.naiveSearch (s : KMismatchSearch) (avx2 : Bool) (misMatches : Nat) :
    Except String PosMap :=
  (List.range s.text.length).foldlM
    (fun resultMap i =>
      s.queries.foldlM
        (fun m query => do
          let hit ← CheckQueryOnPosition avx2 s.text query (toInt64 i) misMatches
          pure (if hit then mapUpdate m query (setInsert i) else m))
        resultMap)
    []

/-! ## Numerals and text files

The persistence functions are applied to the contents of the files they read or
write; the failure to open a file is not modelled.  `long` has 64 bits and `int` 32
(the LP64 data model). -/

/-- The exceptions thrown by the functions below, with their messages. -/
inductive Exn where
  | runtime_error : String → Exn
  | invalid_argument : String → Exn
  | out_of_range : String → Exn
deriving DecidableEq, Repr

/-- The bytes of a string as a message text. -/
def bytesToString (str : Str) : String := String.mk (str.map (fun c => Char.ofNat c.toNat))

/-- The library function `isspace` in the "C" locale. -/
def isSpace (c : UInt8) : Bool := c == 32 || (9 ≤ c && c ≤ 13)

/-- The library function `isdigit`. -/
def isDigit (c : UInt8) : Bool := 48 ≤ c && c ≤ 57

/-- The value of the digit character `c`. -/
def digitValue (c : UInt8) : Nat := c.toNat - 48

/-- The value of a sequence of decimal digits, most significant first. -/
def decimalValue (digits : Str) : Nat :=
  digits.foldl (fun acc d => acc * 10 + digitValue d) 0

/-- The last stage of `strtol`: the longest run of digits at the start of `str`, after
`consumed` characters of white space and sign, with the sign `negative`.  The result is
the value (brought into the range of a 64-bit `long`) and the offset of `end`; without
a digit no conversion is made and `end` is the start of the whole string. -/
def strtolDigits (negative : Bool) (consumed : Nat) (str : Str) : Int × Nat :=
  if str.takeWhile isDigit = [] then (0, 0)
  else
    (max (-(2 ^ 63))
        (min (if negative then -((decimalValue (str.takeWhile isDigit) : Nat) : Int)
              else ((decimalValue (str.takeWhile isDigit) : Nat) : Int)) (2 ^ 63 - 1)),
      consumed + (str.takeWhile isDigit).length)

/-- The middle stage of `strtol`: an optional sign `-` or `+`. -/
def strtolSign (consumed : Nat) (str : Str) : Int × Nat :=
  match str with
  | [] => strtolDigits false consumed []
  | c :: rest =>
      if c = 45 then strtolDigits true (consumed + 1) rest
      else if c = 43 then strtolDigits false (consumed + 1) rest
      else strtolDigits false consumed (c :: rest)

/-- The library function `strtol(str, &end, 10)`: leading white space, an optional
sign, then the longest run of digits.  The result is the value and the offset of
`end` in `str`.  The argument is the C string without its terminating NUL. -/
def strtol (str : Str) : Int × Nat :=
  strtolSign (str.takeWhile isSpace).length (str.dropWhile isSpace)

/-- The library function `std::stoi` on the characters of a `std::string`: `strtol`
reads them up to the first NUL; characters after the numeral are ignored. -/
def stoi (str : Str) : Except Exn Int :=
  let result := strtol (str.takeWhile (fun c => c != 0))
  if result.2 = 0 then .error (.invalid_argument "stoi")
  else if result.1 < -(2 ^ 31) ∨ result.1 > 2 ^ 31 - 1 then .error (.out_of_range "stoi")
  else .ok result.1

/-- Conversion of an `int` or `long` to `size_t`. -/
def intToU64 (v : Int) : Nat := (v % 2 ^ 64).toNat

/-- The function `safeStoi` of `main.cpp`; `str` is the C string without its
terminating NUL, so `*end != 0` says that `end` is not the end of `str`. -/
def safeStoi (str : Str) (paramName : String) : Except Exn Int :=
  let result := strtol str
  if result.2 = 0 ∨ result.2 ≠ str.length then
    .error (.invalid_argument
      ("Invalid " ++ paramName ++ ": '" ++ bytesToString str ++ "' is not a valid integer."))
  else if result.1 < 0 ∨ result.1 > 2 ^ 31 - 1 then
    .error (.out_of_range (paramName ++ " out of range: " ++ bytesToString str))
  else .ok result.1

/-- The pieces that repeated calls of `std::getline(stream, piece, delim)` extract
until a call fails.  The second argument is the piece read so far.  A call at the end
of the stream fails, so a last piece without delimiter counts only if it is not
empty. -/
def getlineLoop (delim : UInt8) : Str → Str → List Str
  | [], piece => if piece = [] then [] else [piece]
  | c :: rest, piece =>
      if c = delim then piece :: getlineLoop delim rest []
      else getlineLoop delim rest (piece ++ [c])

/-- All pieces of `content` that `std::getline` extracts with the delimiter `delim`. -/
def getlines (delim : UInt8) (content : Str) : List Str := getlineLoop delim content []

/-- The loop `do { oss << (sequenceInt & 1); sequenceInt >>= 1; } while (sequenceInt)`
of `operator<<`: the characters of the bits, lowest bit first.  The first argument
bounds the number of rounds; a `uint64_t` needs at most 64. -/
def printBitsLoop : Nat → Nat → Str
  | 0, _ => []
  | fuel + 1, sequenceInt =>
      (if sequenceInt &&& 1 = 0 then 48 else 49)
        :: (if sequenceInt >>> 1 = 0 then [] else printBitsLoop fuel (sequenceInt >>> 1))

/-- The `operator<<` of `BinaryIntBaseSequence`: the bits from the highest one-bit down
to bit 0. -/
def printSequence (sequenceInt : Nat) : Str :=
  (printBitsLoop UINT_TYPE_SIZE sequenceInt).reverse

/-- The method `MCS::saveToFile`: the contents of the file written. -/
def MCS.saveToFile (mcs : MCS) : Str :=
  (mcs.mcsForms.map (fun form => printSequence form.sequenceInt ++ [10])).flatten

/-- The message of `"Wrong MCS file content. Unexpected character: " + ch`: the `+`
moves the pointer to the literal by `ch` characters.  An offset outside the literal is
rendered as the empty message. -/
def wrongContentMessage (ch : UInt8) : String :=
  String.mk ("Wrong MCS file content. Unexpected character: ".toList.drop ch.toNat)

/-- The loop `for (auto ch : line)` of `MCS::loadFromFile`, from column `column` on.
`std::stoi(&ch)` builds a `std::string` from the address of the single `char`, which
reads `ch` and then the bytes that follow it in memory, up to a NUL; `after column`
stands for these bytes. -/
def parseBits (after : Nat → Str) : Nat → Str → Nat → Except Exn Nat
  | _, [], num => .ok num
  | column, ch :: rest, num =>
      if ch ≠ 48 ∧ ch ≠ 49 then .error (.runtime_error (wrongContentMessage ch))
      else
        match stoi (ch :: after column) with
        | .error e => .error e
        | .ok digit => parseBits after (column + 1) rest (shl1 num ||| intToU64 digit)

/-- The loop `while (std::getline(file, line))` of `MCS::loadFromFile`, from the line
number `row` on. -/
def loadLines (after : Nat → Nat → Str) : Nat → List Str → List Form →
    Except Exn (List Form)
  | _, [], mcsForms => .ok mcsForms
  | row, line :: rest, mcsForms =>
      match parseBits (after row) 0 line 0 with
      | .error e => .error e
      | .ok num => loadLines after (row + 1) rest (mcsForms ++ [Form.mk num])

/-- The static method `MCS::loadFromFile`, applied to the contents of the file;
`after row column` are the bytes that follow the loop variable `ch` in memory when the
character at that row and column is converted (see `parseBits`). -/
def MCS.loadFromFile (after : Nat → Nat → Str) (content : Str) : Except Exn MCS :=
  match loadLines after 0 (getlines 10 content) [] with
  | .error e => .error e
  | .ok mcsForms => .ok (MCS.mk mcsForms)

/-- The digits that `operator<<` writes for a `size_t`, last digit first.  The first
argument bounds the number of digits; a `size_t` has at most 20. -/
def printDecimalLoop : Nat → Nat → Str
  | 0, _ => []
  | fuel + 1, n =>
      UInt8.ofNat (48 + n % 10)
        :: (if n / 10 = 0 then [] else printDecimalLoop fuel (n / 10))

/-- The characters that `file << pos` writes for a `size_t`. -/
def printSizeT (pos : Nat) : Str := (printDecimalLoop 20 pos).reverse

/-- The method `KMismatchSearch::saveCacheToFile`, applied to the cache: the contents
of the file written, one line `KEY;P1;...;Pn;` per key.  The lines and positions are
written in the order of the lists. -/
def saveCacheToFile (cache : PosMap) : Str :=
  (cache.map (fun entry =>
    entry.1 ++ [59] ++ (entry.2.map (fun pos => printSizeT pos ++ [59])).flatten ++ [10])).flatten

/-- The body of the loop `while (std::getline(file, line))` of
`KMismatchSearch::loadCacheFromFile`. -/
def loadCacheLine (cache : PosMap) (line : Str) : Except Exn PosMap :=
  match getlines 59 line with
  | [] => .ok cache
  | key :: values =>
      values.foldlM
        (fun c value =>
          match stoi value with
          | .error e => .error e
          | .ok v => .ok (mapUpdate c key (setInsert (intToU64 v))))
        cache

/-- The method `KMismatchSearch::loadCacheFromFile`, applied to the contents of the
file. -/
def loadCacheFromFile (content : Str) : Except Exn PosMap :=
  (getlines 10 content).foldlM loadCacheLine []

/-! ## Reference notions used in the statements -/

/-- The number of indices `i < |query|` at which `text[pos + i]` and `query[i]`
differ. -/
def mismatchCount (text query : Str) (pos : Nat) : Nat :=
  ((List.range query.length).filter (fun i => query[i]? ≠ text[pos + i]?)).length

/-- The number of one-bits of `w` among its `n` lowest bits. -/
def onesBelow (n w : Nat) : Nat := ((List.range n).filter (fun j => w.testBit j)).length

/-- The Hamming distance of two strings of the same length. -/
def hamming (a b : Str) : Nat :=
  ((List.zip a b).filter (fun p => p.1 ≠ p.2)).length

/-- The window `text[pos .. pos + len]`. -/
def window (text : Str) (pos len : Nat) : Str := (text.drop pos).take len

/-- The string consists of one or more decimal digits. -/
def IsDigits (digits : Str) : Prop := digits ≠ [] ∧ ∀ d ∈ digits, isDigit d = true

/-- The string is white space, then an optional sign, then one or more decimal digits:
the strings that `strtol` converts entirely. -/
def IsNumeral (str : Str) : Prop :=
  ∃ spaces sign digits, str = spaces ++ sign ++ digits ∧ (∀ c ∈ spaces, isSpace c = true) ∧
    (sign = [] ∨ sign = [43] ∨ sign = [45]) ∧ IsDigits digits

/-- The value of a numeral with the sign `sign` (empty, `+` or `-`) and the digits
`digits`. -/
def signedValue (sign digits : Str) : Int :=
  if sign = [45] then -((decimalValue digits : Nat) : Int) else ((decimalValue digits : Nat) : Int)

/-- Two caches hold the same set of positions under every key. -/
def SameLookups (a b : PosMap) : Prop := ∀ key, mapFind a key = mapFind b key

end KMismatch

namespace KMismatch

/-! ## Words and sizes -/

theorem sizeLoop_le (fuel s : Nat) : sizeLoop fuel s ≤ fuel := by
  induction fuel generalizing s with
  | zero => simp [sizeLoop]
  | succ n ih =>
      unfold sizeLoop
      split
      · omega
      · have := ih (s >>> 1); omega

theorem sizeLoop_eq_size (fuel s : Nat) (h : s < 2 ^ fuel) : sizeLoop fuel s = Nat.size s := by
  induction fuel generalizing s with
  | zero =>
      have : s = 0 := by simpa using h
      subst this; simp [sizeLoop]
  | succ n ih =>
      unfold sizeLoop
      by_cases hs : s = 0
      · subst hs; simp
      · rw [if_neg hs]
        have h2 : s >>> 1 < 2 ^ n := by
          rw [Nat.shiftRight_eq_div_pow]
          have : s < 2 ^ n * 2 := by rw [← pow_succ]; exact h
          omega
        rw [ih _ h2]
        have hs1 : s = (s >>> 1) <<< 1 ∨ s = (s >>> 1) <<< 1 + 1 := by
          rw [Nat.shiftRight_eq_div_pow, Nat.shiftLeft_eq]; omega
        apply le_antisymm
        · by_cases h0 : s >>> 1 = 0
          · rw [h0]; simp
            exact Nat.pos_of_ne_zero (by simpa [Nat.size_eq_zero] using hs)
          · have : (s >>> 1).size ≤ s.size - 1 := by
              rw [Nat.size_le]
              have hlt : s < 2 ^ s.size := Nat.lt_size_self s
              have hpos : 0 < s.size := Nat.pos_of_ne_zero (by simpa [Nat.size_eq_zero] using hs)
              rw [Nat.shiftRight_eq_div_pow]
              have : 2 ^ s.size = 2 ^ (s.size - 1) * 2 := by
                rw [← pow_succ]; congr 1; omega
              omega
            have hpos : 0 < s.size := Nat.pos_of_ne_zero (by simpa [Nat.size_eq_zero] using hs)
            omega
        · rw [Nat.size_le]
          have hlt : s >>> 1 < 2 ^ (s >>> 1).size := Nat.lt_size_self _
          rw [Nat.shiftRight_eq_div_pow] at hlt ⊢
          rw [pow_succ]
          omega

theorem form_getSize_eq_size (f : Form) (h : f.sequenceInt < 2 ^ 64) :
    f.getSize = Nat.size f.sequenceInt :=
  sizeLoop_eq_size 64 _ h

theorem combination_getSize_eq_size (c : Combination) (h : c.sequenceInt < 2 ^ 64) :
    c.getSize = Nat.size c.sequenceInt :=
  sizeLoop_eq_size 64 _ h

/-! ## `Form::getStringFromPosition` -/

theorem extractLoop_length (str : Str) (n s pos : Nat) : (extractLoop str n s pos).length = n := by
  induction n generalizing s pos with
  | zero => simp [extractLoop]
  | succ n ih => simp [extractLoop, ih]

theorem and_one_ne_zero_iff (s : Nat) : (s &&& 1 ≠ 0) ↔ s.testBit 0 = true := by
  rw [Nat.and_one_is_mod, Nat.testBit_zero]
  simp

theorem extractLoop_getElem? (str : Str) (n s pos i : Nat) (hi : i < n) :
    (extractLoop str n s pos)[i]? =
      some (if s.testBit i then str.getD (pos + i) 0 else placeholder) := by
  induction n generalizing s pos i with
  | zero => omega
  | succ n ih =>
      cases i with
      | zero =>
          simp only [extractLoop, List.getElem?_cons_zero, Nat.add_zero]
          by_cases hb : s.testBit 0 = true
          · rw [if_pos ((and_one_ne_zero_iff s).2 hb)]; simp [hb]
          · rw [if_neg (fun h => hb ((and_one_ne_zero_iff s).1 h))]; simp [hb]
      | succ i =>
          simp only [extractLoop, List.getElem?_cons_succ]
          rw [ih _ _ _ (by omega), Nat.testBit_succ, Nat.shiftRight_eq_div_pow]
          simp [Nat.add_assoc, Nat.add_comm 1 i]

theorem getStringFromPosition_length (F : Form) (str : Str) (pos : Nat) :
    (F.getStringFromPosition str pos).length = F.getSize :=
  extractLoop_length _ _ _ _

theorem getStringFromPosition_getElem? (F : Form) (str : Str) (pos i : Nat)
    (h : pos + F.getSize ≤ str.length) (hi : i < F.getSize) :
    (F.getStringFromPosition str pos)[i]? =
      if F.sequenceInt.testBit i then str[pos + i]? else some placeholder := by
  unfold Form.getStringFromPosition
  rw [extractLoop_getElem? _ _ _ _ _ hi]
  by_cases hb : F.sequenceInt.testBit i = true
  · simp only [hb, if_true]
    rw [List.getD_eq_getElem?_getD, List.getElem?_eq_getElem (by omega)]
    simp
  · simp [hb]

/-- C10: for a form `F` and a position with `pos + size(F) ≤ |str|`, the string
`F.getStringFromPosition(str, pos)` has length `size(F)`, and for every `i < size(F)`
its byte `i` is `str[pos + i]` when bit `i` of the integer of `F` is 1 and the
placeholder `'_'` otherwise. -/
theorem getStringFromPosition_spec (F : Form) (str : Str) (pos : Nat)
    (h : pos + F.getSize ≤ str.length) :
    (F.getStringFromPosition str pos).length = F.getSize ∧
      ∀ i, i < F.getSize →
        (F.getStringFromPosition str pos)[i]? =
          if F.sequenceInt.testBit i then str[pos + i]? else some placeholder :=
  ⟨getStringFromPosition_length F str pos,
    fun i hi => getStringFromPosition_getElem? F str pos i h hi⟩

theorem getStringFromPosition_spec_witness :
    (0 + (Form.mk 19).getSize ≤ ([65, 67, 71, 84, 65] : Str).length) ∧
    ((Form.mk 19).getStringFromPosition [65, 67, 71, 84, 65] 0).length = (Form.mk 19).getSize ∧
      ∀ i, i < (Form.mk 19).getSize →
        ((Form.mk 19).getStringFromPosition [65, 67, 71, 84, 65] 0)[i]? =
          if (Form.mk 19).sequenceInt.testBit i then ([65, 67, 71, 84, 65] : Str)[0 + i]?
          else some placeholder :=
  ⟨by decide, getStringFromPosition_spec (Form.mk 19) [65, 67, 71, 84, 65] 0 (by decide)⟩

/-! ## The scalar verifier -/

theorem scalarLoop_eq (text query : Str) (position fuel i misMatches : Nat) :
    scalarLoop text query position fuel i misMatches =
      decide (((List.range' i fuel).filter
        (fun j => query.getD j 0 ≠ text.getD (position + j) 0)).length ≤ misMatches) := by
  induction fuel generalizing i misMatches with
  | zero => simp [scalarLoop]
  | succ n ih =>
      rw [scalarLoop, List.range'_succ]
      by_cases hne : query.getD i 0 ≠ text.getD (position + i) 0
      · rw [if_pos hne, List.filter_cons_of_pos (by simpa using hne)]
        by_cases h0 : misMatches = 0
        · subst h0; simp
        · rw [if_neg h0, ih]
          simp only [List.length_cons, decide_eq_decide]
          omega
      · rw [if_neg hne, List.filter_cons_of_neg (by simpa using hne), ih]

theorem mismatchCount_eq (text query : Str) (pos : Nat) (h : pos + query.length ≤ text.length) :
    ((List.range' 0 query.length).filter
        (fun j => query.getD j 0 ≠ text.getD (pos + j) 0)).length =
      mismatchCount text query pos := by
  unfold mismatchCount
  rw [List.range_eq_range']
  congr 1
  apply List.filter_congr
  intro j hj
  have hj' : j < query.length := by simpa using hj
  rw [List.getD_eq_getElem?_getD, List.getD_eq_getElem?_getD,
    List.getElem?_eq_getElem hj', List.getElem?_eq_getElem (show pos + j < text.length by omega)]
  simp

theorem CheckQueryOnPosition_scalar (text query : Str) (pos k : Nat)
    (hpos : pos + query.length ≤ text.length) (hk : k ≤ query.length) :
    CheckQueryOnPosition false text query (pos : Int) k =
      .ok (decide (mismatchCount text query pos ≤ k)) := by
  unfold CheckQueryOnPosition
  rw [if_neg (by omega), if_neg (by simp; omega)]
  simp only [Bool.false_eq_true, if_false, Int.toNat_ofNat, Nat.sub_zero]
  rw [scalarLoop_eq, mismatchCount_eq _ _ _ hpos]

end KMismatch

namespace KMismatch

/-! ## Maps -/

theorem mapFind_mapUpdate (m : PosMap) (key : Str) (f : List Nat → List Nat) (key' : Str) :
    mapFind (mapUpdate m key f) key' = if key' = key then f (mapFind m key) else mapFind m key' := by
  induction m with
  | nil =>
      by_cases h : key' = key
      · subst h; simp [mapUpdate, mapFind]
      · simp [mapUpdate, mapFind, h, Ne.symm h]
  | cons e rest ih =>
      obtain ⟨k, v⟩ := e
      by_cases hk : k = key
      · subst hk
        by_cases h : key' = k
        · subst h; simp [mapUpdate, mapFind]
        · simp [mapUpdate, mapFind, h, Ne.symm h]
      · by_cases h : key' = key
        · subst h; simp [mapUpdate, mapFind, hk, ih]
        · simp only [mapUpdate, if_neg hk, mapFind, ih, if_neg h]

theorem keys_mapUpdate (m : PosMap) (key : Str) (f : List Nat → List Nat) (key' : Str) :
    key' ∈ (mapUpdate m key f).map Prod.fst ↔ key' = key ∨ key' ∈ m.map Prod.fst := by
  induction m with
  | nil => simp [mapUpdate]
  | cons e rest ih =>
      obtain ⟨k, v⟩ := e
      by_cases hk : k = key
      · subst hk; simp [mapUpdate]
      · simp only [mapUpdate, if_neg hk, List.map_cons, List.mem_cons, ih]
        tauto

theorem nonEmptyVals_nil : NonEmptyVals [] := by
  intro e he; cases he

theorem nonEmptyVals_mapUpdate (m : PosMap) (key : Str) (f : List Nat → List Nat)
    (hm : NonEmptyVals m) (hf : ∀ v, f v ≠ []) : NonEmptyVals (mapUpdate m key f) := by
  induction m with
  | nil =>
      intro e he
      simp only [mapUpdate, List.mem_singleton] at he
      subst he; exact hf []
  | cons e rest ih =>
      obtain ⟨k, v⟩ := e
      have hrest : NonEmptyVals rest := fun e he => hm e (List.mem_cons_of_mem _ he)
      by_cases hk : k = key
      · subst hk
        intro e he
        simp only [mapUpdate, if_true, List.mem_cons] at he
        rcases he with rfl | he
        · exact hf v
        · exact hrest e he
      · intro e he
        simp only [mapUpdate, if_neg hk, List.mem_cons] at he
        rcases he with rfl | he
        · exact hm _ (List.mem_cons_self _ _)
        · exact ih hrest e he

theorem key_mem_iff_of_nonEmptyVals (m : PosMap) (hm : NonEmptyVals m) (key : Str) :
    key ∈ m.map Prod.fst ↔ ∃ p, p ∈ mapFind m key := by
  induction m with
  | nil => simp [mapFind]
  | cons e rest ih =>
      obtain ⟨k, v⟩ := e
      have hrest : NonEmptyVals rest := fun e he => hm e (List.mem_cons_of_mem _ he)
      by_cases hk : k = key
      · subst hk
        have hv : v ≠ [] := hm (k, v) (List.mem_cons_self _ _)
        simp only [List.map_cons, List.mem_cons, true_or, mapFind, if_true, true_iff]
        exact List.exists_mem_of_ne_nil v hv
      · simp only [List.map_cons, List.mem_cons, mapFind, if_neg hk, ih hrest]
        constructor
        · rintro (h | h)
          · exact absurd h.symm hk
          · exact h
        · intro h; exact Or.inr h

theorem mem_setInsert (p q : Nat) (s : List Nat) : q ∈ setInsert p s ↔ q = p ∨ q ∈ s := by
  unfold setInsert
  by_cases h : p ∈ s
  · rw [if_pos h]
    constructor
    · intro hq; exact Or.inr hq
    · rintro (rfl | hq)
      · exact h
      · exact hq
  · rw [if_neg h]; simp [or_comm]

theorem mem_foldl_setInsert (l : List Nat) (s : List Nat) (q : Nat) :
    q ∈ l.foldl (fun st p => setInsert p st) s ↔ q ∈ l ∨ q ∈ s := by
  induction l generalizing s with
  | nil => simp
  | cons a l ih =>
      simp only [List.foldl_cons, ih, mem_setInsert, List.mem_cons]
      tauto

theorem foldl_setInsert_ne_nil (l : List Nat) (s : List Nat) (h : l ≠ [] ∨ s ≠ []) :
    l.foldl (fun st p => setInsert p st) s ≠ [] := by
  intro hnil
  have key : ∀ q, ¬ (q ∈ l ∨ q ∈ s) := by
    intro q hq
    have := (mem_foldl_setInsert l s q).2 hq
    rw [hnil] at this
    cases this
  rcases h with h | h
  · obtain ⟨q, hq⟩ := List.exists_mem_of_ne_nil l h
    exact key q (Or.inl hq)
  · obtain ⟨q, hq⟩ := List.exists_mem_of_ne_nil s h
    exact key q (Or.inr hq)

theorem mapFind_mergeInto (target localMap : PosMap) (key : Str) (p : Nat) :
    p ∈ mapFind (mergeInto target localMap) key ↔
      p ∈ mapFind target key ∨ ∃ e ∈ localMap, e.1 = key ∧ p ∈ e.2 := by
  unfold mergeInto
  induction localMap generalizing target with
  | nil => simp
  | cons e rest ih =>
      rw [List.foldl_cons, ih, mapFind_mapUpdate]
      by_cases h : key = e.1
      · subst h
        simp only [if_true, mem_foldl_setInsert, List.mem_cons, exists_eq_or_imp, true_and]
        tauto
      · simp only [if_neg h, List.mem_cons, exists_eq_or_imp]
        have : ¬ (e.1 = key) := fun h' => h h'.symm
        tauto

theorem nonEmptyVals_mergeInto (target localMap : PosMap) (ht : NonEmptyVals target)
    (hl : NonEmptyVals localMap) : NonEmptyVals (mergeInto target localMap) := by
  unfold mergeInto
  induction localMap generalizing target with
  | nil => simpa using ht
  | cons e rest ih =>
      rw [List.foldl_cons]
      apply ih
      · apply nonEmptyVals_mapUpdate _ _ _ ht
        intro v
        exact foldl_setInsert_ne_nil _ _ (Or.inl (hl e (List.mem_cons_self _ _)))
      · exact fun e he => hl e (List.mem_cons_of_mem _ he)

theorem keysNodup_mapUpdate (m : PosMap) (key : Str) (f : List Nat → List Nat)
    (hm : KeysNodup m) : KeysNodup (mapUpdate m key f) := by
  unfold KeysNodup at *
  induction m with
  | nil => simp [mapUpdate]
  | cons e rest ih =>
      obtain ⟨k, v⟩ := e
      rw [List.map_cons, List.nodup_cons] at hm
      by_cases hk : k = key
      · subst hk
        simp only [mapUpdate, if_true, List.map_cons, List.nodup_cons]
        exact hm
      · simp only [mapUpdate, if_neg hk, List.map_cons, List.nodup_cons]
        refine ⟨?_, ih hm.2⟩
        intro hmem
        rcases (keys_mapUpdate rest key f k).1 hmem with h | h
        · exact hk h
        · exact hm.1 h

theorem entry_iff_mapFind (m : PosMap) (hm : KeysNodup m) (key : Str) (p : Nat) :
    (∃ e ∈ m, e.1 = key ∧ p ∈ e.2) ↔ p ∈ mapFind m key := by
  unfold KeysNodup at hm
  induction m with
  | nil => simp [mapFind]
  | cons e rest ih =>
      obtain ⟨k, v⟩ := e
      rw [List.map_cons, List.nodup_cons] at hm
      by_cases hk : k = key
      · subst hk
        simp only [List.mem_cons, exists_eq_or_imp, true_and, mapFind, if_true]
        constructor
        · rintro (h | ⟨e, he, hek, _⟩)
          · exact h
          · exfalso; apply hm.1
            have hmem := List.mem_map_of_mem Prod.fst he
            rw [hek] at hmem; exact hmem
        · intro h; exact Or.inl h
      · simp only [List.mem_cons, exists_eq_or_imp, mapFind, if_neg hk, ← ih hm.2]
        constructor
        · rintro (⟨h, _⟩ | h)
          · exact absurd h hk
          · exact h
        · intro h; exact Or.inr h

end KMismatch

namespace KMismatch

/-! ## The index build -/

theorem localFormMap_fold (text : Str) (pos : Nat) (forms : List Form) (m : PosMap)
    (hm : KeysNodup m) :
    KeysNodup (forms.foldl
        (fun m form =>
          if pos + form.getSize ≤ text.length then
            mapUpdate m (form.getStringFromPosition text pos) (fun v => v ++ [pos])
          else m) m) ∧
      ∀ key p, p ∈ mapFind (forms.foldl
        (fun m form =>
          if pos + form.getSize ≤ text.length then
            mapUpdate m (form.getStringFromPosition text pos) (fun v => v ++ [pos])
          else m) m) key ↔
        p ∈ mapFind m key ∨
          (p = pos ∧ ∃ F ∈ forms, pos + F.getSize ≤ text.length ∧
            F.getStringFromPosition text pos = key) := by
  induction forms generalizing m with
  | nil => exact ⟨hm, by simp⟩
  | cons F rest ih =>
      have hex : ∀ key, (∃ G ∈ F :: rest, pos + G.getSize ≤ text.length ∧
            G.getStringFromPosition text pos = key) ↔
          (pos + F.getSize ≤ text.length ∧ F.getStringFromPosition text pos = key) ∨
            ∃ G ∈ rest, pos + G.getSize ≤ text.length ∧
              G.getStringFromPosition text pos = key := by
        intro key; simp
      rw [List.foldl_cons]
      by_cases hF : pos + F.getSize ≤ text.length
      · rw [if_pos hF]
        obtain ⟨h1, h2⟩ := ih (mapUpdate m (F.getStringFromPosition text pos) (fun v => v ++ [pos]))
          (keysNodup_mapUpdate _ _ _ hm)
        refine ⟨h1, ?_⟩
        intro key p
        rw [h2, mapFind_mapUpdate, hex]
        by_cases hk : key = F.getStringFromPosition text pos
        · subst hk
          rw [if_pos rfl, List.mem_append, List.mem_singleton]
          tauto
        · rw [if_neg hk]
          have hk' : ¬ (F.getStringFromPosition text pos = key) := fun h => hk h.symm
          tauto
      · rw [if_neg hF]
        obtain ⟨h1, h2⟩ := ih m hm
        refine ⟨h1, ?_⟩
        intro key p
        rw [h2, hex]
        tauto

theorem localFormMap_entry (text : Str) (mcs : MCS) (pos : Nat) (key : Str) (p : Nat) :
    (∃ e ∈ localFormMap text mcs pos, e.1 = key ∧ p ∈ e.2) ↔
      (p = pos ∧ ∃ F ∈ mcs.mcsForms, pos + F.getSize ≤ text.length ∧
        F.getStringFromPosition text pos = key) := by
  have hnil : KeysNodup [] := by simp [KeysNodup]
  obtain ⟨h1, h2⟩ := localFormMap_fold text pos mcs.mcsForms [] hnil
  unfold localFormMap
  rw [entry_iff_mapFind _ h1, h2]
  simp [mapFind]

theorem buildCache_fold (text : Str) (mcs : MCS) (l : List Nat) (cache : PosMap)
    (key : Str) (p : Nat) :
    p ∈ mapFind (l.foldl (fun c pos => mergeInto c (localFormMap text mcs pos)) cache) key ↔
      p ∈ mapFind cache key ∨
        (p ∈ l ∧ ∃ F ∈ mcs.mcsForms, p + F.getSize ≤ text.length ∧
          F.getStringFromPosition text p = key) := by
  induction l generalizing cache with
  | nil => simp
  | cons a l ih =>
      rw [List.foldl_cons, ih, mapFind_mergeInto, localFormMap_entry]
      simp only [List.mem_cons]
      constructor
      · rintro ((h | ⟨rfl, h⟩) | h)
        · exact Or.inl h
        · exact Or.inr ⟨Or.inl rfl, h⟩
        · exact Or.inr ⟨Or.inr h.1, h.2⟩
      · rintro (h | ⟨(rfl | h), h'⟩)
        · exact Or.inl (Or.inl h)
        · exact Or.inl (Or.inr ⟨rfl, h'⟩)
        · exact Or.inr ⟨h, h'⟩

theorem mem_buildCache (text : Str) (mcs : MCS) (cache : PosMap) (key : Str) (p : Nat) :
    p ∈ mapFind (buildCache text mcs cache) key ↔
      p ∈ mapFind cache key ∨
        (p < text.length ∧ ∃ F ∈ mcs.mcsForms, p + F.getSize ≤ text.length ∧
          F.getStringFromPosition text p = key) := by
  unfold buildCache
  rw [buildCache_fold]
  simp

/-- C8, as amended: after the index build of `mcsSearch` on an empty cache, `p` is
in `cache[s]` if and only if `p < |T|` and there is a form `F` of the MCS with
`p + size(F) ≤ |T|` and `F.getStringFromPosition(T, p) = s`. -/
theorem index_invariant (text : Str) (queries : List Str) (mcs : MCS) (key : Str) (p : Nat) :
    p ∈ mapFind (KMismatchSearch.cacheAfterBuild
        { text := text, queries := queries, cache := [], mcs := mcs }) key ↔
      p < text.length ∧ ∃ F ∈ mcs.mcsForms, p + F.getSize ≤ text.length ∧
        F.getStringFromPosition text p = key := by
  simp only [KMismatchSearch.cacheAfterBuild, List.isEmpty_nil, if_true]
  rw [mem_buildCache]
  simp [mapFind]

/-- C8, as stated, fails: with the empty text and an MCS holding the form of
integer 0 (size 0), position 0 satisfies `p + size(F) ≤ |T|` and the form extracts
the empty key there, but the index build visits no position and the cache stays
empty. -/
theorem index_invariant_counterexample :
    ¬ (∀ (key : Str) (p : Nat),
        p ∈ mapFind (KMismatchSearch.cacheAfterBuild
            { text := [], queries := [], cache := [], mcs := MCS.mk [Form.mk 0] }) key ↔
          ∃ F ∈ (MCS.mk [Form.mk 0]).mcsForms, p + F.getSize ≤ ([] : Str).length ∧
            F.getStringFromPosition [] p = key) := by
  intro h
  have h0 := (h [] 0).2 ⟨Form.mk 0, by simp, by decide, by decide⟩
  revert h0
  decide

end KMismatch

namespace KMismatch

/-! ## Loops that can throw -/

theorem foldlM_accumulate {α β X : Type} (f : β → α → Except String β) (Inv : β → Prop)
    (mem : β → X → Prop) (φ : α → X → Prop) (l : List α)
    (h : ∀ b, Inv b → ∀ a ∈ l, ∃ b', f b a = .ok b' ∧ Inv b' ∧ ∀ x, mem b' x ↔ mem b x ∨ φ a x)
    (b : β) (hb : Inv b) :
    ∃ r, l.foldlM f b = .ok r ∧ Inv r ∧ ∀ x, mem r x ↔ mem b x ∨ ∃ a ∈ l, φ a x := by
  induction l generalizing b with
  | nil => exact ⟨b, rfl, hb, by simp⟩
  | cons a l ih =>
      obtain ⟨b', hfa, hInv, hmem⟩ := h b hb a (List.mem_cons_self _ _)
      obtain ⟨r, hr, hrInv, hrmem⟩ :=
        ih (fun b hb a ha => h b hb a (List.mem_cons_of_mem _ ha)) b' hInv
      refine ⟨r, ?_, hrInv, ?_⟩
      · rw [List.foldlM_cons, hfa]; exact hr
      · intro x
        rw [hrmem, hmem]
        simp only [List.mem_cons, exists_eq_or_imp]
        tauto

/-! ## The verifier on a `size_t` position -/

theorem CheckQueryOnPosition_short (avx2 : Bool) (text query : Str) (position : Int) (k : Nat)
    (h : avx2 = false ∨ query.length < 32) :
    CheckQueryOnPosition avx2 text query position k =
      CheckQueryOnPosition false text query position k := by
  rcases h with h | h
  · rw [h]
  · cases avx2 with
    | false => rfl
    | true =>
        unfold CheckQueryOnPosition
        have h0 : query.length / 32 = 0 := by omega
        simp [h0, simdLoop]

theorem CheckQueryOnPosition_value (avx2 : Bool) (text query : Str) (v k : Nat)
    (hpath : avx2 = false ∨ query.length < 32)
    (hT : text.length < 2 ^ 63) (hv64 : v < 2 ^ 64) (hk : k ≤ query.length) :
    CheckQueryOnPosition avx2 text query (toInt64 v) k =
      .ok (decide (v + query.length ≤ text.length ∧ mismatchCount text query v ≤ k)) := by
  rw [CheckQueryOnPosition_short _ _ _ _ _ hpath]
  by_cases hv : v < 2 ^ 63
  · have hcast : toInt64 v = (v : Int) := by unfold toInt64; rw [if_pos hv]
    rw [hcast]
    by_cases hb : v + query.length ≤ text.length
    · rw [CheckQueryOnPosition_scalar _ _ _ _ hb hk]
      simp [hb]
    · unfold CheckQueryOnPosition
      rw [if_neg (by omega), if_pos (by right; simp; omega)]
      simp [hb]
  · have hneg : toInt64 v < 0 := by
      unfold toInt64
      rw [if_neg hv]
      have : (v : Int) < 2 ^ 64 := by exact_mod_cast hv64
      omega
    unfold CheckQueryOnPosition
    rw [if_neg (by omega), if_pos (Or.inl hneg)]
    have : ¬ (v + query.length ≤ text.length) := by omega
    simp [this]

end KMismatch

namespace KMismatch

/-! ## `naiveSearch` -/

theorem setInsert_ne_nil (p : Nat) (s : List Nat) : setInsert p s ≠ [] := by
  intro h
  have := (mem_setInsert p p s).2 (Or.inl rfl)
  rw [h] at this
  cases this

theorem naive_inner (avx2 : Bool) (text : Str) (queries : List Str) (k i : Nat)
    (hpath : avx2 = false ∨ ∀ q ∈ queries, q.length < 32)
    (hT : text.length < 2 ^ 63) (hi : i < 2 ^ 64) (hk : ∀ q ∈ queries, k ≤ q.length)
    (m : PosMap) (hm : NonEmptyVals m) :
    ∃ r, queries.foldlM
        (fun m query => do
          let hit ← CheckQueryOnPosition avx2 text query (toInt64 i) k
          pure (if hit then mapUpdate m query (setInsert i) else m)) m = .ok r ∧
      NonEmptyVals r ∧
      ∀ x : Str × Nat, x.2 ∈ mapFind r x.1 ↔ x.2 ∈ mapFind m x.1 ∨
        ∃ q ∈ queries, x.1 = q ∧ x.2 = i ∧ i + q.length ≤ text.length ∧
          mismatchCount text q i ≤ k := by
  apply foldlM_accumulate _ NonEmptyVals (fun m (x : Str × Nat) => x.2 ∈ mapFind m x.1)
    (fun q (x : Str × Nat) => x.1 = q ∧ x.2 = i ∧ i + q.length ≤ text.length ∧
          mismatchCount text q i ≤ k) queries _ m hm
  intro b hb q hq
  rw [CheckQueryOnPosition_value avx2 text q i k (hpath.imp id (fun h => h q hq)) hT hi (hk q hq)]
  by_cases hc : i + q.length ≤ text.length ∧ mismatchCount text q i ≤ k
  · refine ⟨mapUpdate b q (setInsert i), by simp [hc, bind, Except.bind, pure, Except.pure], ?_, ?_⟩
    · exact nonEmptyVals_mapUpdate _ _ _ hb (fun v => setInsert_ne_nil i v)
    · rintro ⟨key, p⟩
      simp only [mapFind_mapUpdate]
      by_cases hkq : key = q
      · subst hkq
        simp only [if_true, mem_setInsert, true_and]
        tauto
      · simp [hkq]
  · refine ⟨b, by simp [hc, bind, Except.bind, pure, Except.pure], hb, ?_⟩
    rintro ⟨key, p⟩
    simp only
    tauto

theorem naiveSearch_spec (s : KMismatchSearch) (avx2 : Bool) (k : Nat)
    (hpath : avx2 = false ∨ ∀ q ∈ s.queries, q.length < 32)
    (hT : s.text.length < 2 ^ 63) (hk : ∀ q ∈ s.queries, k ≤ q.length) :
    ∃ r, s.naiveSearch avx2 k = .ok r ∧ NonEmptyVals r ∧
      ∀ key p, p ∈ mapFind r key ↔
        key ∈ s.queries ∧ p < s.text.length ∧ p + key.length ≤ s.text.length ∧
          mismatchCount s.text key p ≤ k := by
  obtain ⟨r, hr, hne, hmem⟩ := foldlM_accumulate
    (fun resultMap i =>
      s.queries.foldlM
        (fun m query => do
          let hit ← CheckQueryOnPosition avx2 s.text query (toInt64 i) k
          pure (if hit then mapUpdate m query (setInsert i) else m))
        resultMap)
    NonEmptyVals (fun m (x : Str × Nat) => x.2 ∈ mapFind m x.1)
    (fun i (x : Str × Nat) => ∃ q ∈ s.queries, x.1 = q ∧ x.2 = i ∧
        i + q.length ≤ s.text.length ∧ mismatchCount s.text q i ≤ k)
    (List.range s.text.length)
    (by
      intro b hb i hi
      have hi' : i < s.text.length := by simpa using hi
      exact naive_inner avx2 s.text s.queries k i hpath hT (by omega) hk b hb)
    [] nonEmptyVals_nil
  refine ⟨r, hr, hne, ?_⟩
  intro key p
  rw [hmem (key, p)]
  simp only [mapFind, List.not_mem_nil, false_or, List.mem_range]
  constructor
  · rintro ⟨i, hi, q, hq, rfl, rfl, h1, h2⟩
    exact ⟨hq, hi, h1, h2⟩
  · rintro ⟨hq, hi, h1, h2⟩
    exact ⟨p, hi, key, hq, rfl, rfl, h1, h2⟩

/-! ## Hamming distance of a window -/

theorem range_filter_zip (a b : Str) (h : a.length = b.length) :
    ((List.range b.length).filter (fun i => b[i]? ≠ a[i]?)).length = hamming a b := by
  induction a generalizing b with
  | nil =>
      cases b with
      | nil => simp [hamming]
      | cons y b => simp at h
  | cons x a ih =>
      cases b with
      | nil => simp at h
      | cons y b =>
          have h' : a.length = b.length := by simpa using h
          have ih' := ih b h'
          unfold hamming at ih' ⊢
          rw [List.length_cons, List.range_succ_eq_map, List.filter_cons, List.filter_map]
          have hcomp : ((fun i => decide ((y :: b)[i]? ≠ (x :: a)[i]?)) ∘ Nat.succ) =
              (fun i => decide (b[i]? ≠ a[i]?)) := by
            funext i; simp
          rw [hcomp, List.zip_cons_cons, List.filter_cons]
          by_cases hxy : x = y
          · subst hxy
            simpa using ih'
          · have hyx : ¬ (y = x) := fun h => hxy h.symm
            simpa [hxy, hyx] using ih'

theorem window_getElem? (text : Str) (pos len i : Nat) (hi : i < len) :
    (window text pos len)[i]? = text[pos + i]? := by
  unfold window
  rw [List.getElem?_take_of_lt hi, List.getElem?_drop]

theorem window_length (text : Str) (pos len : Nat) (h : pos + len ≤ text.length) :
    (window text pos len).length = len := by
  unfold window
  simp
  omega

theorem mismatchCount_eq_hamming (text query : Str) (pos : Nat)
    (h : pos + query.length ≤ text.length) :
    mismatchCount text query pos = hamming (window text pos query.length) query := by
  rw [← range_filter_zip _ _ (window_length text pos query.length h)]
  unfold mismatchCount
  congr 1
  apply List.filter_congr
  intro i hi
  have hi' : i < query.length := by simpa using hi
  rw [window_getElem? _ _ _ _ hi']

end KMismatch

namespace KMismatch

/-! ## Which verifier path runs -/

/-- C5: on the scalar path (no AVX2, or a query shorter than one 32-byte chunk), for
a position with `pos + |query| ≤ |text|` and `k ≤ |query|`, `CheckQueryOnPosition`
returns, and it returns true if and only if the number of indices `i < |query|` with
`text[pos + i] ≠ query[i]` is at most `k`. -/
theorem scalar_verifier_correct (avx2 : Bool) (text query : Str) (pos k : Nat)
    (hpath : avx2 = false ∨ query.length < 32)
    (hpos : pos + query.length ≤ text.length) (hk : k ≤ query.length) :
    ∃ b, CheckQueryOnPosition avx2 text query (pos : Int) k = .ok b ∧
      (b = true ↔ mismatchCount text query pos ≤ k) := by
  rw [CheckQueryOnPosition_short _ _ _ _ _ hpath, CheckQueryOnPosition_scalar _ _ _ _ hpos hk]
  exact ⟨_, rfl, by simp⟩

theorem scalar_verifier_correct_witness :
    ∃ b, CheckQueryOnPosition false [65, 65, 65, 65, 65] [65, 65, 66] ((2 : Nat) : Int) 1 = .ok b ∧
      (b = true ↔ mismatchCount [65, 65, 65, 65, 65] [65, 65, 66] 2 ≤ 1) :=
  scalar_verifier_correct false [65, 65, 65, 65, 65] [65, 65, 66] 2 1
    (Or.inl rfl) (by decide) (by decide)

/-- C6, as amended: on the scalar path, for `k ≤ min |q|`, `naiveSearch(k)` returns a
map in which, for every query `q` of the list, `p` is in the set of `q` if and only
if `p < |T|`, `p + |q| ≤ |T|` and the Hamming distance between `T[p .. p + |q|]` and
`q` is at most `k`. -/
theorem naiveSearch_invariant (s : KMismatchSearch) (avx2 : Bool) (k : Nat)
    (hpath : avx2 = false ∨ ∀ q ∈ s.queries, q.length < 32)
    (hT : s.text.length < 2 ^ 63) (hk : ∀ q ∈ s.queries, k ≤ q.length) :
    ∃ r, s.naiveSearch avx2 k = .ok r ∧
      ∀ q ∈ s.queries, ∀ p, p ∈ mapFind r q ↔
        p < s.text.length ∧ p + q.length ≤ s.text.length ∧
          hamming (window s.text p q.length) q ≤ k := by
  obtain ⟨r, hr, _, hmem⟩ := naiveSearch_spec s avx2 k hpath hT hk
  refine ⟨r, hr, ?_⟩
  intro q hq p
  rw [hmem]
  constructor
  · rintro ⟨_, h1, h2, h3⟩
    exact ⟨h1, h2, by rw [← mismatchCount_eq_hamming _ _ _ h2]; exact h3⟩
  · rintro ⟨h1, h2, h3⟩
    exact ⟨hq, h1, h2, by rw [mismatchCount_eq_hamming _ _ _ h2]; exact h3⟩

theorem naiveSearch_invariant_witness :
    ∃ r, KMismatchSearch.naiveSearch
        { text := [65, 65, 65, 65, 65], queries := [[65, 65, 66]], cache := [], mcs := MCS.mk [] }
        false 1 = .ok r ∧
      ∀ q ∈ [([65, 65, 66] : Str)], ∀ p, p ∈ mapFind r q ↔
        p < ([65, 65, 65, 65, 65] : Str).length ∧
          p + q.length ≤ ([65, 65, 65, 65, 65] : Str).length ∧
          hamming (window [65, 65, 65, 65, 65] p q.length) q ≤ 1 :=
  naiveSearch_invariant
    { text := [65, 65, 65, 65, 65], queries := [[65, 65, 66]], cache := [], mcs := MCS.mk [] }
    false 1 (Or.inl rfl) (by decide) (by decide)

/-- C6, as stated, fails: for the empty text and the empty query with `k = 0`,
position `p = 0 = |T|` satisfies `p + |q| ≤ |T|` with Hamming distance 0, but
`naiveSearch` visits no position and returns the empty map. -/
theorem naiveSearch_invariant_counterexample :
    KMismatchSearch.naiveSearch
        { text := [], queries := [[]], cache := [], mcs := MCS.mk [] } false 0 = .ok [] ∧
      (0 + ([] : Str).length ≤ ([] : Str).length ∧ hamming (window [] 0 0) [] ≤ 0) ∧
      0 ∉ mapFind [] [] := by
  decide

/-- C7 fails on the code: for a text of 32 bytes `'C'` and a query of 32 bytes `'A'`
at position 0 with `k = 0`, the AVX2 branch returns true (the XOR bytes are `0x02`,
whose top bits give the mask 0) while the scalar loop returns false. -/
theorem simd_scalar_disagree :
    CheckQueryOnPosition true (List.replicate 32 67) (List.replicate 32 65) 0 0 = .ok true ∧
      CheckQueryOnPosition false (List.replicate 32 67) (List.replicate 32 65) 0 0 = .ok false := by
  decide

/-- C1 fails on the code: for the text `"AG"`, the queries `"AC"` and `"ACGT"` and
`k = 1 ≤ min |q|`, the MCS is built for `L = 4` and is the single form `0b11`;
`naiveSearch(1)` reports position 0 for `"AC"` (one mismatch), `mcsSearch(1)` on the
empty index returns the empty map. -/
theorem mcsSearch_misses_short_query :
    ∃ s, KMismatchSearch.new [65, 71] [[65, 67], [65, 67, 71, 84]] 1 = .returned s ∧
      s.mcs = MCS.mk [Form.mk 3] ∧
      s.mcsSearch false 1 = .ok [] ∧
      s.naiveSearch false 1 = .ok [([65, 67], [0])] :=
  ⟨{ text := [65, 71], queries := [[65, 67], [65, 67, 71, 84]], cache := [],
     mcs := MCS.mk [Form.mk 3] }, by decide, rfl, by decide, by decide⟩

end KMismatch

namespace KMismatch

/-! ## `Combination::contains` -/

theorem testBit_false_of_lt (x n i : Nat) (hx : x < 2 ^ n) (hi : n ≤ i) : x.testBit i = false := by
  apply Nat.testBit_lt_two_pow
  exact lt_of_lt_of_le hx (Nat.pow_le_pow_right (by decide) hi)

theorem bitNot_zero : bitNot 0 = 2 ^ 64 - 1 := by decide

theorem testBit_bitNot (g i : Nat) : (bitNot g).testBit i = (decide (i < 64) ^^ g.testBit i) := by
  unfold bitNot uintModulus
  rw [Nat.testBit_xor, Nat.testBit_two_pow_sub_one]

theorem coveredBy_iff (c g : Nat) (hc : c < 2 ^ 64) (hg : g < 2 ^ 64) :
    coveredBy c g = true ↔ ∀ i, g.testBit i = true → c.testBit i = true := by
  unfold coveredBy
  rw [beq_iff_eq, bitNot_zero]
  constructor
  · intro h i hgi
    have hi : i < 64 := by
      by_contra hcon
      rw [testBit_false_of_lt g 64 i hg (by omega)] at hgi
      cases hgi
    have hrhs : (2 ^ 64 - 1).testBit i = true := by
      rw [Nat.testBit_two_pow_sub_one]; simp [hi]
    have hbit : (c ||| bitNot g).testBit i = true := by rw [h]; exact hrhs
    rw [Nat.testBit_or, testBit_bitNot] at hbit
    simpa [hgi, hi] using hbit
  · intro h
    apply Nat.eq_of_testBit_eq
    intro i
    rw [Nat.testBit_or, testBit_bitNot, Nat.testBit_two_pow_sub_one]
    by_cases hi : i < 64
    · by_cases hgi : g.testBit i = true
      · simp [hi, hgi, h i hgi]
      · simp [hi, hgi]
    · rw [testBit_false_of_lt c 64 i hc (by omega), testBit_false_of_lt g 64 i hg (by omega)]
      simp [hi]

theorem two_pow_and_ne_zero (n g : Nat) : ((2 ^ n &&& g) != 0) = g.testBit n := by
  have : 2 ^ n &&& g = if g.testBit n then 2 ^ n else 0 := by
    apply Nat.eq_of_testBit_eq
    intro i
    rw [Nat.testBit_and, Nat.testBit_two_pow]
    by_cases hi : n = i
    · subst hi
      by_cases hb : g.testBit n = true
      · simp [hb]
      · simp [hb]
    · by_cases hb : g.testBit n = true
      · simp [hb, hi, Nat.testBit_two_pow]
      · simp [hb, hi]
  rw [this]
  by_cases hb : g.testBit n = true
  · simp [hb]
  · simp [hb]

theorem msbSet_iff (g : Nat) (hg : g < 2 ^ 64) : msbSet g = true ↔ 2 ^ 63 ≤ g := by
  unfold msbSet UINT_TYPE_SIZE
  have h1 : (1 <<< (64 - 1) : Nat) = 2 ^ 63 := by decide
  rw [h1, two_pow_and_ne_zero]
  constructor
  · intro h; exact Nat.testBit_implies_ge h
  · intro h
    by_contra hcon
    have hlt : g < 2 ^ 63 := by
      apply Nat.lt_pow_two_of_testBit
      intro i hi
      by_cases h63 : i = 63
      · subst h63; simpa using hcon
      · exact testBit_false_of_lt g 64 i hg (by omega)
    omega

theorem testBit_size_pred (x : Nat) (hx : x ≠ 0) : x.testBit (x.size - 1) = true := by
  by_contra hcon
  have hpos : 0 < x.size := Nat.pos_of_ne_zero (by simpa [Nat.size_eq_zero] using hx)
  have hlt : x < 2 ^ (x.size - 1) := by
    apply Nat.lt_pow_two_of_testBit
    intro i hi
    by_cases h : i = x.size - 1
    · subst h; simpa using hcon
    · exact testBit_false_of_lt x x.size i (Nat.lt_size_self x) (by omega)
  have hge : 2 ^ (x.size - 1) ≤ x := Nat.lt_size.1 (by omega)
  omega

theorem shl1_eq (g : Nat) (hg : g < 2 ^ 63) : shl1 g = g <<< 1 := by
  unfold shl1 uintModulus
  apply Nat.mod_eq_of_lt
  rw [Nat.shiftLeft_eq]
  omega

theorem containsLoop_spec (fuel c g : Nat) (hc : c < 2 ^ 64) (hg : g < 2 ^ 64) (hg0 : g ≠ 0)
    (hfuel : 64 - Nat.size g < fuel) :
    ∃ b, containsLoop fuel c g = some b ∧
      (b = true ↔ ∃ d, d + Nat.size g ≤ 64 ∧
        ∀ i, (g <<< d).testBit i = true → c.testBit i = true) := by
  induction fuel generalizing g with
  | zero => omega
  | succ n ih =>
      have hsize : Nat.size g ≤ 64 := Nat.size_le.2 hg
      unfold containsLoop
      by_cases hmsb : msbSet g = true
      · rw [if_pos hmsb]
        have h63 : 2 ^ 63 ≤ g := (msbSet_iff g hg).1 hmsb
        have hs : 63 < Nat.size g := Nat.lt_size.2 h63
        refine ⟨_, rfl, ?_⟩
        rw [coveredBy_iff c g hc hg]
        constructor
        · intro h; exact ⟨0, by omega, by simpa using h⟩
        · rintro ⟨d, hd, h⟩
          have : d = 0 := by omega
          subst this; simpa using h
      · rw [if_neg hmsb]
        have h63 : g < 2 ^ 63 := by
          by_contra hcon
          exact hmsb ((msbSet_iff g hg).2 (by omega))
        have hs : Nat.size g ≤ 63 := Nat.size_le.2 h63
        by_cases hcov : coveredBy c g = true
        · rw [if_pos hcov]
          refine ⟨true, rfl, ?_⟩
          simp only [true_iff]
          exact ⟨0, by omega, by simpa using (coveredBy_iff c g hc hg).1 hcov⟩
        · rw [if_neg hcov, shl1_eq g h63]
          have hg2 : g <<< 1 < 2 ^ 64 := by rw [Nat.shiftLeft_eq]; omega
          have hg20 : g <<< 1 ≠ 0 := by rw [Nat.shiftLeft_eq]; omega
          have hsz : Nat.size (g <<< 1) = Nat.size g + 1 := Nat.size_shiftLeft hg0 1
          obtain ⟨b, hb, hiff⟩ := ih (g <<< 1) hg2 hg20 (by rw [hsz]; omega)
          refine ⟨b, hb, ?_⟩
          rw [hiff, hsz]
          constructor
          · rintro ⟨d, hd, h⟩
            refine ⟨d + 1, by omega, ?_⟩
            intro i hi
            apply h
            rw [← Nat.shiftLeft_add, Nat.add_comm 1 d]
            exact hi
          · rintro ⟨d, hd, h⟩
            cases d with
            | zero =>
                exfalso
                exact hcov ((coveredBy_iff c g hc hg).2 (by simpa using h))
            | succ d =>
                refine ⟨d, by omega, ?_⟩
                intro i hi
                apply h
                rw [← Nat.shiftLeft_add, Nat.add_comm 1 d] at hi
                exact hi

theorem containsLoop_zero (c : Nat) (hc : c < 2 ^ 64) (n : Nat) :
    containsLoop (n + 1) c 0 = some true := by
  unfold containsLoop
  have h1 : msbSet 0 = false := by decide
  have h2 : coveredBy c 0 = true := (coveredBy_iff c 0 hc (by decide)).2 (by simp)
  simp [h1, h2]

theorem contains_iff_shift64 (c : Combination) (f : Form) (hc : c.sequenceInt < 2 ^ 64)
    (hf : f.sequenceInt < 2 ^ 64) (hf0 : f.sequenceInt ≠ 0) :
    c.contains f = true ↔ ∃ d, d + Nat.size f.sequenceInt ≤ 64 ∧
      ∀ i, (f.sequenceInt <<< d).testBit i = true → c.sequenceInt.testBit i = true := by
  have hpos : 0 < Nat.size f.sequenceInt :=
    Nat.pos_of_ne_zero (by simpa [Nat.size_eq_zero] using hf0)
  obtain ⟨b, hb, hiff⟩ := containsLoop_spec 64 c.sequenceInt f.sequenceInt hc hf hf0 (by omega)
  unfold Combination.contains UINT_TYPE_SIZE
  rw [hb]
  simpa using hiff

theorem shift_fits (c f d : Nat) (hf0 : f ≠ 0)
    (h : ∀ i, (f <<< d).testBit i = true → c.testBit i = true) :
    d + Nat.size f ≤ Nat.size c := by
  have hne : f <<< d ≠ 0 := by
    rw [Nat.shiftLeft_eq]
    exact Nat.mul_ne_zero hf0 (by positivity)
  have htop := testBit_size_pred (f <<< d) hne
  rw [Nat.size_shiftLeft hf0] at htop
  have hge := Nat.testBit_implies_ge (h _ htop)
  have hpos : 0 < Nat.size f := Nat.pos_of_ne_zero (by simpa [Nat.size_eq_zero] using hf0)
  have := Nat.lt_size.2 hge
  omega

theorem contains_iff (c : Combination) (f : Form) (hc : c.sequenceInt < 2 ^ 64)
    (hf : f.sequenceInt < 2 ^ 64) (hf0 : f.sequenceInt ≠ 0) :
    c.contains f = true ↔ ∃ d, d + Nat.size f.sequenceInt ≤ Nat.size c.sequenceInt ∧
      ∀ i, (f.sequenceInt <<< d).testBit i = true → c.sequenceInt.testBit i = true := by
  rw [contains_iff_shift64 c f hc hf hf0]
  have hsize : Nat.size c.sequenceInt ≤ 64 := Nat.size_le.2 hc
  constructor
  · rintro ⟨d, _, h⟩
    exact ⟨d, shift_fits _ _ _ hf0 h, h⟩
  · rintro ⟨d, hd, h⟩
    exact ⟨d, by omega, h⟩

/-- C9: for 64-bit values the shift loop of `contains` ends; and for a combination
`c` of bit-length `L` and a non-zero form `f`, `c.contains(f)` is true if and only if
some shift `d` with `d + size(f) ≤ L` makes every 1-bit of `f << d` a 1-bit of `c`; in
particular it is false when `size(f) > L`. -/
theorem contains_spec (c : Combination) (f : Form) (hc : c.sequenceInt < 2 ^ 64)
    (hf : f.sequenceInt < 2 ^ 64) :
    (∃ b, containsLoop UINT_TYPE_SIZE c.sequenceInt f.sequenceInt = some b) ∧
      (f.sequenceInt ≠ 0 →
        (c.contains f = true ↔ ∃ d, d + f.getSize ≤ c.getSize ∧
          ∀ i, (f.sequenceInt <<< d).testBit i = true → c.sequenceInt.testBit i = true) ∧
        (c.getSize < f.getSize → c.contains f = false)) := by
  constructor
  · by_cases hf0 : f.sequenceInt = 0
    · rw [hf0]; exact ⟨true, containsLoop_zero _ hc 63⟩
    · have hpos : 0 < Nat.size f.sequenceInt :=
        Nat.pos_of_ne_zero (by simpa [Nat.size_eq_zero] using hf0)
      obtain ⟨b, hb, _⟩ :=
        containsLoop_spec 64 c.sequenceInt f.sequenceInt hc hf hf0 (by omega)
      exact ⟨b, hb⟩
  · intro hf0
    rw [form_getSize_eq_size f hf, combination_getSize_eq_size c hc]
    have hiff := contains_iff c f hc hf hf0
    refine ⟨hiff, ?_⟩
    intro hlt
    by_contra hcon
    have htrue : c.contains f = true := by simpa using hcon
    obtain ⟨d, hd, _⟩ := hiff.1 htrue
    omega

theorem contains_spec_witness :
    (∃ b, containsLoop UINT_TYPE_SIZE (Combination.mk 13).sequenceInt (Form.mk 5).sequenceInt
        = some b) ∧
      ((Form.mk 5).sequenceInt ≠ 0 →
        ((Combination.mk 13).contains (Form.mk 5) = true ↔
          ∃ d, d + (Form.mk 5).getSize ≤ (Combination.mk 13).getSize ∧
            ∀ i, ((Form.mk 5).sequenceInt <<< d).testBit i = true →
              (Combination.mk 13).sequenceInt.testBit i = true) ∧
        ((Combination.mk 13).getSize < (Form.mk 5).getSize →
          (Combination.mk 13).contains (Form.mk 5) = false)) :=
  contains_spec (Combination.mk 13) (Form.mk 5) (by decide) (by decide)

end KMismatch

namespace KMismatch

/-! ## Words built by shifting -/

theorem shl1_mod (cur : Nat) : shl1 (cur % 2 ^ 64) = (2 * cur) % 2 ^ 64 := by
  unfold shl1 uintModulus
  rw [Nat.shiftLeft_eq]
  omega

theorem even_or_one (x : Nat) (hx : x % 2 = 0) : x ||| 1 = x + 1 := by
  apply Nat.eq_of_testBit_eq
  intro i
  cases i with
  | zero =>
      rw [Nat.testBit_or, Nat.testBit_zero, Nat.testBit_zero, Nat.testBit_zero]
      have : (x + 1) % 2 = 1 := by omega
      simp [this]
  | succ i =>
      rw [Nat.testBit_or, Nat.testBit_succ, Nat.testBit_succ, Nat.testBit_succ]
      have h1 : (1 : Nat) / 2 = 0 := by decide
      have h2 : (x + 1) / 2 = x / 2 := by omega
      rw [h1, h2]
      simp

theorem shl1_or_one_mod (cur : Nat) : shl1 (cur % 2 ^ 64) ||| 1 = (2 * cur + 1) % 2 ^ 64 := by
  rw [shl1_mod, even_or_one _ (by omega)]
  omega

theorem shl1_lt (x : Nat) : shl1 x < 2 ^ 64 := by
  unfold shl1 uintModulus
  exact Nat.mod_lt _ (by decide)

theorem shl1_or_one_lt (x : Nat) : shl1 x ||| 1 < 2 ^ 64 := by
  have h : shl1 x % 2 = 0 := by
    unfold shl1 uintModulus
    rw [Nat.shiftLeft_eq]
    omega
  rw [even_or_one _ h]
  have := shl1_lt x
  omega

theorem shl1_or_one_odd (x : Nat) : (shl1 x ||| 1).testBit 0 = true := by
  rw [Nat.testBit_or]
  simp

/-! ## `generateCombinations` -/

theorem generateCombinations_subcover (bs : List Bool) :
    ∀ (o z cur fuel : Nat), bs.length = o + z → o ≤ bs.count true → o + z < fuel →
      ∃ w, w < 2 ^ (o + z) ∧
        (∀ j, j < o + z → w.testBit j = true → bs[o + z - 1 - j]? = some true) ∧
        Combination.mk ((cur * 2 ^ (o + z) + w) % 2 ^ 64) ∈
          generateCombinations fuel o z (cur % 2 ^ 64) := by
  induction bs with
  | nil =>
      intro o z cur fuel hlen _ hfuel
      have ho : o = 0 := by simp at hlen; omega
      have hz : z = 0 := by simp at hlen; omega
      subst ho; subst hz
      obtain ⟨n, rfl⟩ : ∃ n, fuel = n + 1 := ⟨fuel - 1, by omega⟩
      refine ⟨0, by simp, by intro j hj; omega, ?_⟩
      simp [generateCombinations]
  | cons b bs ih =>
      intro o z cur fuel hlen hcount hfuel
      obtain ⟨n, rfl⟩ : ∃ n, fuel = n + 1 := ⟨fuel - 1, by omega⟩
      have hlen' : bs.length + 1 = o + z := by simpa using hlen
      by_cases hone : b = true ∧ 0 < o
      · obtain ⟨hb, ho⟩ := hone
        subst hb
        have hcount' : o - 1 ≤ bs.count true := by
          rw [List.count_cons] at hcount
          simp at hcount
          omega
        obtain ⟨w, hw, hbits, hmem⟩ :=
          ih (o - 1) z (2 * cur + 1) n (by omega) hcount' (by omega)
        have hoz : o - 1 + z = bs.length := by omega
        rw [hoz] at hw hbits hmem
        have hpow : 2 ^ (o + z) = 2 * 2 ^ bs.length := by
          rw [← hlen', pow_succ]; ring
        refine ⟨2 ^ bs.length + w, by rw [hpow]; omega, ?_, ?_⟩
        · intro j hj hbit
          by_cases hjn : j = bs.length
          · subst hjn
            have : o + z - 1 - bs.length = 0 := by omega
            rw [this]; simp
          · have hjlt : j < bs.length := by omega
            rw [Nat.testBit_two_pow_add_gt hjlt] at hbit
            have h1 := hbits j hjlt hbit
            have : o + z - 1 - j = (bs.length - 1 - j) + 1 := by omega
            rw [this, List.getElem?_cons_succ]
            exact h1
        · unfold generateCombinations
          rw [if_pos (by omega : o ≠ 0)]
          apply List.mem_append_left
          apply List.mem_append_right
          rw [shl1_or_one_mod]
          have : (cur * 2 ^ (o + z) + (2 ^ bs.length + w)) =
              ((2 * cur + 1) * 2 ^ bs.length + w) := by rw [hpow]; ring
          rw [this]
          exact hmem
      · have hz : 0 < z := by
          by_contra hz0
          have hz0' : z = 0 := by omega
          subst hz0'
          have ho : 0 < o := by omega
          have hb : b = false := by
            cases b with
            | false => rfl
            | true => exact absurd ⟨rfl, ho⟩ hone
          subst hb
          rw [List.count_cons] at hcount
          simp at hcount
          have := List.count_le_length true bs
          omega
        have hcount' : o ≤ bs.count true := by
          by_cases ho : 0 < o
          · have hb : b = false := by
              cases b with
              | false => rfl
              | true => exact absurd ⟨rfl, ho⟩ hone
            subst hb
            rw [List.count_cons] at hcount
            simpa using hcount
          · omega
        obtain ⟨w, hw, hbits, hmem⟩ := ih o (z - 1) (2 * cur) n (by omega) hcount' (by omega)
        have hoz : o + (z - 1) = bs.length := by omega
        rw [hoz] at hw hbits hmem
        have hpow : 2 ^ (o + z) = 2 * 2 ^ bs.length := by
          rw [← hlen', pow_succ]; ring
        refine ⟨w, by rw [hpow]; omega, ?_, ?_⟩
        · intro j hj hbit
          have hjlt : j < bs.length := by
            by_contra hcon
            rw [testBit_false_of_lt w bs.length j hw (by omega)] at hbit
            cases hbit
          have h1 := hbits j hjlt hbit
          have : o + z - 1 - j = (bs.length - 1 - j) + 1 := by omega
          rw [this, List.getElem?_cons_succ]
          exact h1
        · unfold generateCombinations
          rw [if_pos (by omega : z ≠ 0)]
          apply List.mem_append_right
          rw [shl1_mod]
          have : (cur * 2 ^ (o + z) + w) = (2 * cur * 2 ^ bs.length + w) := by rw [hpow]; ring
          rw [this]
          exact hmem

end KMismatch

namespace KMismatch

theorem shl1_small (cur : Nat) (h : cur < 2 ^ 63) : shl1 cur = 2 * cur := by
  rw [shl1_eq cur h, Nat.shiftLeft_eq]; omega

theorem shl1_or_one_small (cur : Nat) (h : cur < 2 ^ 63) : shl1 cur ||| 1 = 2 * cur + 1 := by
  rw [shl1_small cur h, even_or_one _ (by omega)]

theorem generateCombinations_sound (fuel : Nat) :
    ∀ (o z cur : Nat), o + z < fuel → (cur + 1) * 2 ^ (o + z) ≤ 2 ^ 64 →
      ∀ c ∈ generateCombinations fuel o z cur,
        ∃ w, w < 2 ^ (o + z) ∧ c.sequenceInt = cur * 2 ^ (o + z) + w ∧ (0 < o → w ≠ 0) := by
  induction fuel with
  | zero => intro o z cur h; omega
  | succ n ih =>
      intro o z cur hfuel hbound c hc
      unfold generateCombinations at hc
      rw [List.mem_append, List.mem_append] at hc
      have hcur : 0 < o + z → cur < 2 ^ 63 := by
        intro hpos
        have h2 : 2 ^ (o + z) = 2 * 2 ^ (o + z - 1) := by
          rw [← pow_succ']; congr 1; omega
        have hp : 0 < 2 ^ (o + z - 1) := by positivity
        rw [h2] at hbound
        by_contra hcon
        have : 2 ^ 63 + 1 ≤ cur + 1 := by omega
        have h3 : (2 ^ 63 + 1) * (2 * 2 ^ (o + z - 1)) ≤ (cur + 1) * (2 * 2 ^ (o + z - 1)) :=
          Nat.mul_le_mul_right _ this
        have h4 : (2 ^ 63 + 1) * (2 * 1) ≤ (2 ^ 63 + 1) * (2 * 2 ^ (o + z - 1)) :=
          Nat.mul_le_mul_left _ (Nat.mul_le_mul_left _ hp)
        omega
      rcases hc with (hc | hc) | hc
      · by_cases h0 : o = 0 ∧ z = 0
        · rw [if_pos h0] at hc
          obtain ⟨ho, hz⟩ := h0
          subst ho; subst hz
          simp only [List.mem_singleton] at hc
          subst hc
          exact ⟨0, by simp, by simp, by omega⟩
        · rw [if_neg h0] at hc; cases hc
      · by_cases ho : o ≠ 0
        · rw [if_pos ho] at hc
          have hpos : 0 < o := Nat.pos_of_ne_zero ho
          rw [shl1_or_one_small cur (hcur (by omega))] at hc
          have hpow : 2 ^ (o + z) = 2 * 2 ^ (o - 1 + z) := by
            rw [← pow_succ']; congr 1; omega
          obtain ⟨w, hw, hcw, _⟩ := ih (o - 1) z (2 * cur + 1) (by omega)
            (by rw [hpow] at hbound; calc (2 * cur + 1 + 1) * 2 ^ (o - 1 + z)
                  = (cur + 1) * (2 * 2 ^ (o - 1 + z)) := by ring
                _ ≤ 2 ^ 64 := hbound) c hc
          refine ⟨2 ^ (o - 1 + z) + w, by rw [hpow]; omega, ?_, ?_⟩
          · rw [hcw, hpow]; ring
          · intro _
            have : 0 < 2 ^ (o - 1 + z) := by positivity
            omega
        · rw [if_neg ho] at hc; cases hc
      · by_cases hz : z ≠ 0
        · rw [if_pos hz] at hc
          rw [shl1_small cur (hcur (by omega))] at hc
          have hpow : 2 ^ (o + z) = 2 * 2 ^ (o + (z - 1)) := by
            rw [← pow_succ']; congr 1; omega
          obtain ⟨w, hw, hcw, hne⟩ := ih o (z - 1) (2 * cur) (by omega)
            (by rw [hpow] at hbound; calc (2 * cur + 1) * 2 ^ (o + (z - 1))
                  ≤ (2 * cur + 2) * 2 ^ (o + (z - 1)) := Nat.mul_le_mul_right _ (by omega)
                _ = (cur + 1) * (2 * 2 ^ (o + (z - 1))) := by ring
                _ ≤ 2 ^ 64 := hbound) c hc
          refine ⟨w, by rw [hpow]; omega, ?_, hne⟩
          rw [hcw, hpow]; ring
        · rw [if_neg hz] at hc; cases hc

/-! ## `generateForms` -/

theorem generateForms_odd (fuel : Nat) :
    ∀ (o z cur : Nat), ∀ f ∈ generateForms fuel o z cur,
      f.sequenceInt.testBit 0 = true ∧ f.sequenceInt < 2 ^ 64 := by
  induction fuel with
  | zero => intro o z cur f hf; simp [generateForms] at hf
  | succ n ih =>
      intro o z cur f hf
      unfold generateForms at hf
      rw [List.mem_append, List.mem_append] at hf
      rcases hf with (hf | hf) | hf
      · by_cases h0 : o = 0
        · rw [if_pos h0] at hf
          simp only [List.mem_singleton] at hf
          subst hf
          exact ⟨shl1_or_one_odd cur, shl1_or_one_lt cur⟩
        · rw [if_neg h0] at hf; cases hf
      · by_cases ho : o ≠ 0
        · rw [if_pos ho] at hf; exact ih _ _ _ f hf
        · rw [if_neg ho] at hf; cases hf
      · by_cases hz : z ≠ 0
        · rw [if_pos hz] at hf; exact ih _ _ _ f hf
        · rw [if_neg hz] at hf; cases hf

theorem generateForms_mem (fuel : Nat) :
    ∀ (z cur t : Nat), z < fuel → t ≤ z → cur * 2 ^ (t + 1) < 2 ^ 64 →
      Form.mk (cur * 2 ^ (t + 1) + 1) ∈ generateForms fuel 0 z cur := by
  induction fuel with
  | zero => intro z cur t h; omega
  | succ n ih =>
      intro z cur t hfuel ht hbound
      have hcur : cur < 2 ^ 63 := by
        have hp : 0 < 2 ^ t := by positivity
        rw [pow_succ] at hbound
        by_contra hcon
        have h1 : 2 ^ 63 * (2 ^ t * 2) ≤ cur * (2 ^ t * 2) := Nat.mul_le_mul_right _ (by omega)
        have h2 : 2 ^ 63 * (1 * 2) ≤ 2 ^ 63 * (2 ^ t * 2) :=
          Nat.mul_le_mul_left _ (Nat.mul_le_mul_right _ hp)
        omega
      unfold generateForms
      rw [if_pos rfl, if_neg (by simp)]
      cases t with
      | zero =>
          apply List.mem_append_left
          apply List.mem_append_left
          rw [shl1_or_one_small cur hcur]
          simp [Nat.mul_comm]
      | succ t =>
          apply List.mem_append_right
          rw [if_pos (by omega : z ≠ 0), shl1_small cur hcur]
          have := ih (z - 1) (2 * cur) t (by omega) (by omega)
            (by rw [pow_succ] at hbound; calc 2 * cur * 2 ^ (t + 1)
                  = cur * (2 ^ (t + 1) * 2) := by ring
                _ < 2 ^ 64 := hbound)
          have heq : 2 * cur * 2 ^ (t + 1) + 1 = cur * 2 ^ (t + 1 + 1) + 1 := by
            rw [pow_succ 2 (t + 1)]; ring
          rw [heq] at this
          exact this

theorem subU64_eq (a b : Nat) (ha : a < 2 ^ 64) (hb : b ≤ a) : subU64 a b = a - b := by
  unfold subU64 uintModulus
  omega

theorem generateAllForms_ok (L k : Nat) (hL : L < 2 ^ 64) (hk : k + 2 ≤ L) :
    Form.generateAllForms L k = .ok (generateForms (L - 1) 0 (L - 2) 1) := by
  unfold Form.generateAllForms
  rw [subU64_eq L k hL (by omega)]
  have h2 : ¬ (2 > L - k) := by omega
  simp only [h2, if_false]
  rw [if_neg (by omega), subU64_eq L 2 hL (by omega)]
  congr 2
  omega

theorem generateAllForms_mem (L k j : Nat) (hL : L ≤ 64) (hk : k + 2 ≤ L) (hj1 : 1 ≤ j)
    (hj : j < L) :
    ∃ forms, Form.generateAllForms L k = .ok forms ∧ Form.mk (2 ^ j + 1) ∈ forms := by
  refine ⟨_, generateAllForms_ok L k (by omega) hk, ?_⟩
  have hpow : (2 : Nat) ^ j < 2 ^ 64 := Nat.pow_lt_pow_right (by decide) (by omega)
  have := generateForms_mem (L - 1) (L - 2) 1 (j - 1) (by omega) (by omega)
    (by rw [show j - 1 + 1 = j by omega]; omega)
  rw [show j - 1 + 1 = j by omega, Nat.one_mul] at this
  exact this

end KMismatch

namespace KMismatch

/-! ## Forms with two one-bits -/

theorem testBit_two_pow_add_one (j m : Nat) (hj : 1 ≤ j) :
    (2 ^ j + 1).testBit m = true ↔ m = 0 ∨ m = j := by
  rcases Nat.lt_trichotomy m j with h | h | h
  · rw [Nat.testBit_two_pow_add_gt h, Nat.testBit_one_eq_true_iff_self_eq_zero]
    constructor
    · intro h0; exact Or.inl h0
    · rintro (h0 | h0)
      · exact h0
      · omega
  · subst h
    rw [Nat.testBit_two_pow_add_eq]
    have : (1 : Nat).testBit m = false := by
      cases hb : (1 : Nat).testBit m with
      | false => rfl
      | true =>
          have := Nat.testBit_one_eq_true_iff_self_eq_zero.1 hb
          omega
    simp [this]
  · have hlt : 2 ^ j + 1 < 2 ^ (j + 1) := by
      have : 2 ≤ 2 ^ j := by
        calc 2 = 2 ^ 1 := by norm_num
          _ ≤ 2 ^ j := Nat.pow_le_pow_right (by decide) hj
      rw [pow_succ]; omega
    rw [testBit_false_of_lt _ (j + 1) m hlt (by omega)]
    constructor
    · intro h0; cases h0
    · rintro (h0 | h0) <;> omega

theorem size_two_pow_add_one (j : Nat) (hj : 1 ≤ j) : Nat.size (2 ^ j + 1) = j + 1 := by
  have h2 : 2 ≤ 2 ^ j := by
    calc 2 = 2 ^ 1 := by norm_num
      _ ≤ 2 ^ j := Nat.pow_le_pow_right (by decide) hj
  apply le_antisymm
  · rw [Nat.size_le, pow_succ]; omega
  · have : j < Nat.size (2 ^ j + 1) := Nat.lt_size.2 (by omega)
    omega

/-- A combination of bit-length `L ≤ 64` with a second one-bit below the top
contains the two-bit form that spans the two. -/
theorem contains_two_bit_form (L w : Nat) (hL : L ≤ 64) (hL1 : 1 ≤ L) (hw : w < 2 ^ (L - 1))
    (hw0 : w ≠ 0) :
    ∃ j, 1 ≤ j ∧ j < L ∧
      (Combination.mk (2 ^ (L - 1) + w)).contains (Form.mk (2 ^ j + 1)) = true := by
  obtain ⟨a, ha⟩ := Nat.ne_zero_implies_bit_true hw0
  have haL : a < L - 1 := by
    by_contra hcon
    rw [testBit_false_of_lt w (L - 1) a hw (by omega)] at ha
    cases ha
  have hj1 : 1 ≤ L - 1 - a := by omega
  have hpL : (2 : Nat) ^ (L - 1) < 2 ^ 64 := Nat.pow_lt_pow_right (by decide) (by omega)
  have hpj : (2 : Nat) ^ (L - 1 - a) ≤ 2 ^ (L - 1) := Nat.pow_le_pow_right (by decide) (by omega)
  have hc : 2 ^ (L - 1) + w < 2 ^ 64 := by
    have h1 : 2 ^ (L - 1) + w < 2 ^ (L - 1) + 2 ^ (L - 1) := by omega
    have h2 : (2 : Nat) ^ (L - 1) + 2 ^ (L - 1) = 2 ^ L := by
      rw [← two_mul, ← pow_succ']; congr 1; omega
    have h3 : (2 : Nat) ^ L ≤ 2 ^ 64 := Nat.pow_le_pow_right (by decide) hL
    omega
  have hf : 2 ^ (L - 1 - a) + 1 < 2 ^ 64 := by omega
  refine ⟨L - 1 - a, hj1, by omega, ?_⟩
  rw [contains_iff_shift64 _ _ hc hf (by simp)]
  refine ⟨a, ?_, ?_⟩
  · show a + Nat.size (2 ^ (L - 1 - a) + 1) ≤ 64
    rw [size_two_pow_add_one _ hj1]; omega
  · intro i hi
    show (2 ^ (L - 1) + w).testBit i = true
    have hi' : ((2 ^ (L - 1 - a) + 1) <<< a).testBit i = true := hi
    rw [Nat.testBit_shiftLeft] at hi'
    simp only [Bool.and_eq_true, decide_eq_true_eq] at hi'
    obtain ⟨hia, hbit⟩ := hi'
    rcases (testBit_two_pow_add_one _ _ hj1).1 hbit with h0 | h1
    · have : i = a := by omega
      subst this
      rw [Nat.testBit_two_pow_add_gt haL]; exact ha
    · have : i = L - 1 := by omega
      subst this
      rw [Nat.testBit_two_pow_add_eq, Nat.testBit_lt_two_pow hw]; rfl

/-! ## The `transform_reduce` -/

theorem betterPair_cases (a b : Form × Nat) :
    (betterPair a b = a ∨ betterPair a b = b) ∧ a.2 ≤ (betterPair a b).2 ∧
      b.2 ≤ (betterPair a b).2 := by
  unfold betterPair
  by_cases h1 : a.2 = b.2
  · rw [if_pos h1]
    by_cases h2 : a.1.sequenceInt < b.1.sequenceInt
    · rw [if_pos h2]; exact ⟨Or.inl rfl, le_refl _, by omega⟩
    · rw [if_neg h2]; exact ⟨Or.inr rfl, by omega, le_refl _⟩
  · rw [if_neg h1]
    by_cases h2 : a.2 > b.2
    · rw [if_pos h2]; exact ⟨Or.inl rfl, le_refl _, by omega⟩
    · rw [if_neg h2]; exact ⟨Or.inr rfl, by omega, le_refl _⟩

theorem best_fold (combinations : List Combination) (l : List Form) (acc : Form × Nat) :
    acc.2 ≤ (l.foldl (fun acc form =>
        betterPair acc (form, countContaining combinations form)) acc).2 ∧
      (∀ g ∈ l, countContaining combinations g ≤
        (l.foldl (fun acc form =>
          betterPair acc (form, countContaining combinations form)) acc).2) ∧
      ((l.foldl (fun acc form =>
          betterPair acc (form, countContaining combinations form)) acc) = acc ∨
        ∃ g ∈ l, (l.foldl (fun acc form =>
          betterPair acc (form, countContaining combinations form)) acc) =
            (g, countContaining combinations g)) := by
  induction l generalizing acc with
  | nil => simp
  | cons f l ih =>
      rw [List.foldl_cons]
      obtain ⟨h1, h2, h3⟩ := ih (betterPair acc (f, countContaining combinations f))
      obtain ⟨hc, hle1, hle2⟩ := betterPair_cases acc (f, countContaining combinations f)
      refine ⟨by omega, ?_, ?_⟩
      · intro g hg
        rcases List.mem_cons.1 hg with rfl | hg
        · exact le_trans hle2 h1
        · exact h2 g hg
      · rcases h3 with h3 | ⟨g, hg, h3⟩
        · rcases hc with hc | hc
          · left; rw [h3, hc]
          · right; exact ⟨f, List.mem_cons_self _ _, by rw [h3, hc]⟩
        · right; exact ⟨g, List.mem_cons_of_mem _ hg, h3⟩

theorem best_mem (forms : List Form) (combinations : List Combination) (hne : forms ≠ []) :
    (bestFormToCombinationNumberPair forms combinations).1 ∈ forms := by
  unfold bestFormToCombinationNumberPair
  obtain ⟨_, _, h3⟩ := best_fold combinations forms (forms.headD (Form.mk 0), 0)
  rcases h3 with h3 | ⟨g, hg, h3⟩
  · rw [h3]
    cases forms with
    | nil => exact absurd rfl hne
    | cons f l => simp
  · rw [h3]; exact hg

theorem best_count_pos (forms : List Form) (combinations : List Combination)
    (h : ∃ g ∈ forms, 0 < countContaining combinations g) :
    0 < countContaining combinations (bestFormToCombinationNumberPair forms combinations).1 := by
  unfold bestFormToCombinationNumberPair
  obtain ⟨_, h2, h3⟩ := best_fold combinations forms (forms.headD (Form.mk 0), 0)
  obtain ⟨g, hg, hpos⟩ := h
  have hle := h2 g hg
  rcases h3 with h3 | ⟨g', _, h3⟩
  · rw [h3] at hle
    simp only at hle
    omega
  · rw [h3] at hle ⊢
    simp only at hle ⊢
    omega

/-! ## The cover loop -/

theorem coverLoop_sound (forms : List Form) (hne : forms ≠ []) (fuel : Nat) :
    ∀ (combinations : List Combination) (acc mcsForms : List Form),
      coverLoop forms fuel combinations acc = some mcsForms →
        (∀ c ∈ combinations, ∃ F ∈ mcsForms, c.contains F = true) ∧
          (∀ F ∈ acc, F ∈ mcsForms) ∧ (∀ F ∈ mcsForms, F ∈ acc ∨ F ∈ forms) := by
  induction fuel with
  | zero =>
      intro combinations acc mcsForms h
      cases combinations with
      | nil =>
          simp only [coverLoop, Option.some.injEq] at h
          subst h
          exact ⟨by simp, fun F hF => hF, fun F hF => Or.inl hF⟩
      | cons c cs => simp [coverLoop] at h
  | succ n ih =>
      intro combinations acc mcsForms h
      cases combinations with
      | nil =>
          simp only [coverLoop, Option.some.injEq] at h
          subst h
          exact ⟨by simp, fun F hF => hF, fun F hF => Or.inl hF⟩
      | cons c cs =>
          simp only [coverLoop] at h
          obtain ⟨h1, h2, h3⟩ := ih _ _ _ h
          have hbest : (bestFormToCombinationNumberPair forms (c :: cs)).1 ∈ mcsForms :=
            h2 _ (by simp)
          refine ⟨?_, ?_, ?_⟩
          · intro c' hc'
            by_cases hcon : c'.contains (bestFormToCombinationNumberPair forms (c :: cs)).1 = true
            · exact ⟨_, hbest, hcon⟩
            · apply h1
              rw [List.mem_filter]
              exact ⟨hc', by simpa using hcon⟩
          · intro F hF; exact h2 F (List.mem_append_left _ hF)
          · intro F hF
            rcases h3 F hF with h | h
            · rcases List.mem_append.1 h with h | h
              · exact Or.inl h
              · simp only [List.mem_singleton] at h
                subst h
                exact Or.inr (best_mem forms _ hne)
            · exact Or.inr h

theorem filter_length_add (l : List Combination) (p : Combination → Bool) :
    (l.filter p).length + (l.filter (fun c => !p c)).length = l.length := by
  induction l with
  | nil => simp
  | cons c l ih =>
      by_cases h : p c = true
      · simp [List.filter_cons, h]; omega
      · simp [List.filter_cons, h]; omega

theorem coverLoop_terminates (forms : List Form) (fuel : Nat) :
    ∀ (combinations : List Combination) (acc : List Form),
      (∀ c ∈ combinations, ∃ F ∈ forms, c.contains F = true) →
        combinations.length ≤ fuel →
          ∃ mcsForms, coverLoop forms fuel combinations acc = some mcsForms := by
  induction fuel with
  | zero =>
      intro combinations acc _ hlen
      cases combinations with
      | nil => exact ⟨acc, by simp [coverLoop]⟩
      | cons c cs => simp at hlen
  | succ n ih =>
      intro combinations acc hcov hlen
      cases combinations with
      | nil => exact ⟨acc, by simp [coverLoop]⟩
      | cons c cs =>
          simp only [coverLoop]
          apply ih
          · intro c' hc'
            exact hcov c' (List.mem_filter.1 hc').1
          · obtain ⟨F, hF, hcF⟩ := hcov c (List.mem_cons_self _ _)
            have hpos : 0 < countContaining (c :: cs)
                (bestFormToCombinationNumberPair forms (c :: cs)).1 := by
              apply best_count_pos
              refine ⟨F, hF, ?_⟩
              unfold countContaining
              apply List.length_pos_of_mem (a := c)
              rw [List.mem_filter]
              exact ⟨List.mem_cons_self _ _, hcF⟩
            unfold countContaining at hpos
            have hsum := filter_length_add (c :: cs)
              (fun combination =>
                combination.contains (bestFormToCombinationNumberPair forms (c :: cs)).1)
            simp only [List.length_cons] at hlen hsum
            omega

theorem coverLoop_diverges (forms : List Form) (c : Combination)
    (hc : ∀ F ∈ forms, c.contains F = false) (hne : forms ≠ []) (fuel : Nat) :
    ∀ (combinations : List Combination) (acc : List Form), c ∈ combinations →
      coverLoop forms fuel combinations acc = none := by
  induction fuel with
  | zero =>
      intro combinations acc hmem
      cases combinations with
      | nil => cases hmem
      | cons c' cs => simp [coverLoop]
  | succ n ih =>
      intro combinations acc hmem
      cases combinations with
      | nil => cases hmem
      | cons c' cs =>
          simp only [coverLoop]
          apply ih
          rw [List.mem_filter]
          refine ⟨hmem, ?_⟩
          rw [hc _ (best_mem forms _ hne)]
          rfl

end KMismatch

namespace KMismatch

/-! ## Outcome of `buildMCSNaiveMultithreaded` -/

theorem generateAllForms_cases (L k : Nat) :
    (subU64 L k < 2 ∧ Form.generateAllForms L k =
        .error "Matches per form must be equal or greater than 2!") ∨
      (2 ≤ subU64 L k ∧ Form.generateAllForms L k =
        .ok (generateForms (subU64 L 2 + 1) 0 (subU64 L 2) 1)) := by
  by_cases h2 : 2 > subU64 L k
  · left
    refine ⟨h2, ?_⟩
    show (if (if 2 > subU64 L k then subU64 L k else 2) < 2 then
        (Except.error "Matches per form must be equal or greater than 2!" :
          Except String (List Form))
      else _) = _
    rw [if_pos h2, if_pos h2]
  · right
    refine ⟨by omega, ?_⟩
    show (if (if 2 > subU64 L k then subU64 L k else 2) < 2 then
        (Except.error "Matches per form must be equal or greater than 2!" :
          Except String (List Form))
      else .ok (generateForms ((if 2 > subU64 L k then subU64 L k else 2) - 2 +
          subU64 L (if 2 > subU64 L k then subU64 L k else 2) + 1)
        ((if 2 > subU64 L k then subU64 L k else 2) - 2)
        (subU64 L (if 2 > subU64 L k then subU64 L k else 2)) 1)) = _
    rw [if_neg h2, if_neg (by decide)]
    have h0 : 2 - 2 + subU64 L 2 + 1 = subU64 L 2 + 1 := by omega
    rw [h0]

theorem generateAllForms_shape (L k : Nat) (forms : List Form)
    (h : Form.generateAllForms L k = .ok forms) :
    forms ≠ [] ∧ ∀ f ∈ forms, f.sequenceInt.testBit 0 = true ∧ f.sequenceInt < 2 ^ 64 := by
  rcases generateAllForms_cases L k with ⟨_, he⟩ | ⟨_, he⟩
  · rw [he] at h; cases h
  · rw [he] at h
    injection h with h
    subst h
    constructor
    · intro hnil
      have hmem : Form.mk (shl1 1 ||| 1) ∈ generateForms (subU64 L 2 + 1) 0 (subU64 L 2) 1 := by
        rw [generateForms, if_pos rfl]
        apply List.mem_append_left
        apply List.mem_append_left
        exact List.mem_singleton.2 rfl
      rw [hnil] at hmem
      cases hmem
    · intro f hf; exact generateForms_odd _ _ _ _ f hf

theorem generateAllCombinations_eq (L k : Nat) (hL : L < 2 ^ 64) (hk : k + 1 ≤ L) :
    Combination.generateAllCombinations L k = generateCombinations L (L - k - 1) k 1 := by
  show generateCombinations (subU64 (subU64 L k) 1 + k + 1) (subU64 (subU64 L k) 1) k 1 = _
  rw [subU64_eq L k hL (by omega), subU64_eq (L - k) 1 (by omega) (by omega)]
  have h0 : L - k - 1 + k + 1 = L := by omega
  rw [h0]

theorem combination_contains_some_form (L k : Nat) (hL : L ≤ 64) (hk : k + 2 ≤ L)
    (forms : List Form) (hforms : Form.generateAllForms L k = .ok forms) :
    ∀ c ∈ Combination.generateAllCombinations L k, ∃ F ∈ forms, c.contains F = true := by
  intro c hc
  rw [generateAllCombinations_eq L k (by omega) (by omega)] at hc
  have hoz : L - k - 1 + k = L - 1 := by omega
  obtain ⟨w, hw, hcw, hw0⟩ := generateCombinations_sound L (L - k - 1) k 1 (by omega)
    (by rw [hoz]
        calc (1 + 1) * 2 ^ (L - 1) = 2 ^ (L - 1 + 1) := by rw [pow_succ]; ring
          _ ≤ 2 ^ 64 := Nat.pow_le_pow_right (by decide) (by omega)) c hc
  rw [hoz] at hw hcw
  obtain ⟨j, hj1, hjL, hcon⟩ := contains_two_bit_form L w hL (by omega) hw (hw0 (by omega))
  obtain ⟨forms', hforms', hmem⟩ := generateAllForms_mem L k j hL hk hj1 hjL
  rw [hforms] at hforms'
  simp only [Except.ok.injEq] at hforms'
  subst hforms'
  refine ⟨_, hmem, ?_⟩
  have hc' : c = Combination.mk (2 ^ (L - 1) + w) := by
    cases c with
    | mk n => simp only at hcw; rw [hcw, Nat.one_mul]
  rw [hc']; exact hcon

theorem combinationsCallDepth_eq (L k : Nat) (hL : L < 2 ^ 64) (hk : k + 1 ≤ L) :
    combinationsCallDepth L k = L := by
  unfold combinationsCallDepth
  rw [subU64_eq L k hL (by omega), subU64_eq (L - k) 1 (by omega) (by omega)]
  omega

theorem build_eq (queries : List Str) (k : Nat) (hk : ¬ k > maxQueryLength queries)
    (hdepth : ¬ combinationsCallDepth (maxQueryLength queries) k > maxCallDepth)
    (forms : List Form)
    (hforms : Form.generateAllForms (maxQueryLength queries) k = .ok forms) :
    MCS.buildMCSNaiveMultithreaded queries k =
      coverOutcome (coverLoop forms
        (Combination.generateAllCombinations (maxQueryLength queries) k).length
        (Combination.generateAllCombinations (maxQueryLength queries) k) []) := by
  unfold MCS.buildMCSNaiveMultithreaded
  rw [if_neg hk, if_neg hdepth, hforms]

theorem build_raises_of_gt (queries : List Str) (k : Nat) (hk : k > maxQueryLength queries) :
    MCS.buildMCSNaiveMultithreaded queries k =
      .raised "Mismatch number can not be greater than query length!" := by
  unfold MCS.buildMCSNaiveMultithreaded
  rw [if_pos hk]

theorem build_stack_exhausted (queries : List Str) (k : Nat)
    (hk : ¬ k > maxQueryLength queries)
    (hdepth : combinationsCallDepth (maxQueryLength queries) k > maxCallDepth) :
    MCS.buildMCSNaiveMultithreaded queries k = .diverged := by
  unfold MCS.buildMCSNaiveMultithreaded
  rw [if_neg hk, if_pos hdepth]

theorem build_raises_of_forms (queries : List Str) (k : Nat)
    (hk : ¬ k > maxQueryLength queries)
    (hdepth : ¬ combinationsCallDepth (maxQueryLength queries) k > maxCallDepth)
    (msg : String)
    (hforms : Form.generateAllForms (maxQueryLength queries) k = .error msg) :
    MCS.buildMCSNaiveMultithreaded queries k = .raised msg := by
  unfold MCS.buildMCSNaiveMultithreaded
  rw [if_neg hk, if_neg hdepth, hforms]

theorem build_returns (queries : List Str) (k : Nat) (hL : maxQueryLength queries ≤ 64)
    (hk : k + 2 ≤ maxQueryLength queries) :
    ∃ mcs, MCS.buildMCSNaiveMultithreaded queries k = .returned mcs := by
  have hforms := generateAllForms_ok (maxQueryLength queries) k
    (lt_of_le_of_lt hL (by decide)) hk
  have hdepth : ¬ combinationsCallDepth (maxQueryLength queries) k > maxCallDepth := by
    rw [combinationsCallDepth_eq _ k (lt_of_le_of_lt hL (by decide)) (by omega)]
    unfold maxCallDepth
    omega
  rw [build_eq queries k (by omega) hdepth _ hforms]
  obtain ⟨mcsForms, hloop⟩ := coverLoop_terminates
    (generateForms (maxQueryLength queries - 1) 0 (maxQueryLength queries - 2) 1)
    (Combination.generateAllCombinations (maxQueryLength queries) k).length
    (Combination.generateAllCombinations (maxQueryLength queries) k) []
    (combination_contains_some_form _ k hL hk _ hforms) (le_refl _)
  rw [hloop]
  exact ⟨_, rfl⟩

theorem build_sound (queries : List Str) (k : Nat) (mcs : MCS)
    (h : MCS.buildMCSNaiveMultithreaded queries k = .returned mcs) :
    k ≤ maxQueryLength queries ∧
      (∀ c ∈ Combination.generateAllCombinations (maxQueryLength queries) k,
        ∃ F ∈ mcs.mcsForms, c.contains F = true) ∧
      (∀ F ∈ mcs.mcsForms, F.sequenceInt.testBit 0 = true ∧ F.sequenceInt < 2 ^ 64) ∧
      ∃ forms, Form.generateAllForms (maxQueryLength queries) k = .ok forms ∧
        ∀ F ∈ mcs.mcsForms, F ∈ forms := by
  by_cases hk : k > maxQueryLength queries
  · rw [build_raises_of_gt queries k hk] at h; cases h
  · by_cases hdepth : combinationsCallDepth (maxQueryLength queries) k > maxCallDepth
    · rw [build_stack_exhausted queries k hk hdepth] at h; cases h
    · cases hforms : Form.generateAllForms (maxQueryLength queries) k with
      | error msg => rw [build_raises_of_forms queries k hk hdepth msg hforms] at h; cases h
      | ok forms =>
          rw [build_eq queries k hk hdepth forms hforms] at h
          cases hloop : coverLoop forms
              (Combination.generateAllCombinations (maxQueryLength queries) k).length
              (Combination.generateAllCombinations (maxQueryLength queries) k) [] with
          | none => rw [hloop] at h; cases h
          | some mcsForms =>
              rw [hloop] at h
              have hm : mcs = MCS.mk mcsForms := by
                have h' : Outcome.returned (MCS.mk mcsForms) = Outcome.returned mcs := h
                exact (Outcome.returned.inj h').symm
              subst hm
              obtain ⟨hne, hodd⟩ := generateAllForms_shape _ _ _ hforms
              obtain ⟨h1, _, h3⟩ := coverLoop_sound forms hne _ _ _ _ hloop
              have hsub : ∀ F ∈ mcsForms, F ∈ forms := by
                intro F hF
                rcases h3 F hF with h | h
                · cases h
                · exact h
              exact ⟨by omega, h1, fun F hF => hodd F (hsub F hF), forms, rfl, hsub⟩

end KMismatch

namespace KMismatch

/-! ## Coverage by the built MCS -/

theorem contains_zero_combination (F : Form) (hF : F.sequenceInt < 2 ^ 64)
    (hF0 : F.sequenceInt ≠ 0) : (Combination.mk 0).contains F = false := by
  by_contra hcon
  have htrue : (Combination.mk 0).contains F = true := by simpa using hcon
  obtain ⟨d, _, h⟩ := (contains_iff_shift64 (Combination.mk 0) F (by decide) hF hF0).1 htrue
  have hne : F.sequenceInt <<< d ≠ 0 := by
    rw [Nat.shiftLeft_eq]
    exact Nat.mul_ne_zero hF0 (by positivity)
  obtain ⟨i, hi⟩ := Nat.ne_zero_implies_bit_true hne
  have := h i hi
  simp at this

theorem build_diverges (queries : List Str) (k : Nat) (hk : k ≤ maxQueryLength queries)
    (hdepth : ¬ combinationsCallDepth (maxQueryLength queries) k > maxCallDepth)
    (forms : List Form)
    (hforms : Form.generateAllForms (maxQueryLength queries) k = .ok forms)
    (h0 : Combination.mk 0 ∈ Combination.generateAllCombinations (maxQueryLength queries) k) :
    MCS.buildMCSNaiveMultithreaded queries k = .diverged := by
  obtain ⟨hne, hodd⟩ := generateAllForms_shape _ _ _ hforms
  rw [build_eq queries k (by omega) hdepth forms hforms]
  have hnot : ∀ F ∈ forms, (Combination.mk 0).contains F = false := by
    intro F hF
    obtain ⟨h1, h2⟩ := hodd F hF
    apply contains_zero_combination F h2
    intro hz
    rw [hz] at h1
    simp at h1
  rw [coverLoop_diverges forms (Combination.mk 0) hnot hne _ _ [] h0]
  rfl

/-- C4, as amended: for queries of maximum length `L` with `2 ≤ L ≤ 64` and
`k ≤ L - 2`, `buildMCSNaiveMultithreaded` returns an MCS, and every combination of
`Combination::generateAllCombinations(L, k)` contains at least one of its forms. -/
theorem containment_coverage (queries : List Str) (k : Nat)
    (hL : maxQueryLength queries ≤ 64) (hk : k + 2 ≤ maxQueryLength queries) :
    ∃ mcs, MCS.buildMCSNaiveMultithreaded queries k = .returned mcs ∧
      ∀ c ∈ Combination.generateAllCombinations (maxQueryLength queries) k,
        ∃ F ∈ mcs.mcsForms, c.contains F = true := by
  obtain ⟨mcs, hmcs⟩ := build_returns queries k hL hk
  exact ⟨mcs, hmcs, (build_sound queries k mcs hmcs).2.1⟩

theorem containment_coverage_witness :
    ∃ mcs, MCS.buildMCSNaiveMultithreaded [[65, 67, 71, 84]] 2 = .returned mcs ∧
      ∀ c ∈ Combination.generateAllCombinations (maxQueryLength [[65, 67, 71, 84]]) 2,
        ∃ F ∈ mcs.mcsForms, c.contains F = true :=
  containment_coverage [[65, 67, 71, 84]] 2 (by decide) (by decide)

/-- C4, as stated, fails: for a query of length `L = 66` and `k = 64 = L - 2`, the
combination `1 1 0 … 0` (64 zeros) is the 64-bit word 0 after its 65 shifts; it
contains none of the generated forms, so the greedy loop never removes it and no
MCS is returned. -/
theorem containment_coverage_counterexample :
    maxQueryLength [List.replicate 66 65] = 66 ∧
      Combination.mk 0 ∈ Combination.generateAllCombinations 66 64 ∧
      (∃ forms, Form.generateAllForms 66 64 = .ok forms ∧
        forms.all (fun F => !(Combination.mk 0).contains F) = true) ∧
      MCS.buildMCSNaiveMultithreaded [List.replicate 66 65] 64 = .diverged := by
  have hlen : maxQueryLength [List.replicate 66 65] = 66 := by decide
  have h0 : Combination.mk 0 ∈ Combination.generateAllCombinations 66 64 := by decide
  have hforms := generateAllForms_ok 66 64 (by decide) (by decide)
  refine ⟨hlen, h0, ⟨_, hforms, ?_⟩, ?_⟩
  · rw [List.all_eq_true]
    intro F hF
    obtain ⟨h1, h2⟩ := generateForms_odd _ _ _ _ F hF
    rw [contains_zero_combination F h2 (by intro hz; rw [hz] at h1; simp at h1)]
    rfl
  · apply build_diverges _ _ (by rw [hlen]; decide) (by rw [hlen]; decide) _
      (by rw [hlen]; exact hforms)
    rw [hlen]; exact h0

end KMismatch

namespace KMismatch

/-! ## The pigeonhole argument -/

theorem filter_length_add_not {α : Type} (l : List α) (p : α → Bool) :
    (l.filter p).length + (l.filter (fun c => !p c)).length = l.length := by
  induction l with
  | nil => simp
  | cons c l ih =>
      by_cases h : p c = true
      · simp [List.filter_cons, h]; omega
      · simp [List.filter_cons, h]; omega

theorem count_matches_split (M : Nat → Bool) (L t : Nat) (ht : t < L) (hMt : M t = true)
    (hgt : ∀ i, t < i → i < L → M i = false) :
    ((List.range L).filter M).length = ((List.range t).filter M).length + 1 := by
  have hsplit : List.range L = List.range t ++ [t] ++ List.range' (t + 1) (L - (t + 1)) := by
    rw [← List.range_succ, List.range_eq_range', List.range_eq_range']
    have := List.range'_append 0 (t + 1) (L - (t + 1)) 1
    simp only [Nat.one_mul, Nat.zero_add] at this
    have hL : L - (t + 1) + (t + 1) = L := by omega
    rw [hL] at this
    exact this.symm
  rw [hsplit, List.filter_append, List.filter_append, List.length_append, List.length_append]
  have h1 : List.filter M [t] = [t] := by simp [hMt]
  have h2 : List.filter M (List.range' (t + 1) (L - (t + 1))) = [] := by
    rw [List.filter_eq_nil_iff]
    intro i hi
    rw [List.mem_range'_1] at hi
    rw [hgt i (by omega) (by omega)]
    simp
  rw [h1, h2]
  simp

theorem count_true_map (M : Nat → Bool) (l : List Nat) :
    (l.map M).count true = (l.filter M).length := by
  induction l with
  | nil => simp
  | cons a l ih =>
      by_cases h : M a = true
      · simp [List.filter_cons, h, ih]
      · have h' : M a = false := by simpa using h
        simp [List.filter_cons, h', ih]

theorem exists_last_match (M : Nat → Bool) (L : Nat)
    (h : 0 < ((List.range L).filter M).length) :
    ∃ t, t < L ∧ M t = true ∧ ∀ i, t < i → i < L → M i = false := by
  obtain ⟨a, ha⟩ := List.exists_mem_of_length_pos h
  rw [List.mem_filter, List.mem_range] at ha
  refine ⟨Nat.findGreatest (fun i => M i = true) (L - 1), ?_, ?_, ?_⟩
  · have := Nat.findGreatest_le (P := fun i => M i = true) (L - 1)
    omega
  · exact Nat.findGreatest_spec (P := fun i => M i = true) (m := a) (by omega) ha.2
  · intro i hi hiL
    have := Nat.findGreatest_is_greatest (P := fun i => M i = true) hi (by omega)
    simpa using this

end KMismatch

namespace KMismatch

theorem extract_eq_of_agree (F : Form) (q w : Str) (d e : Nat)
    (hq : d + F.getSize ≤ q.length) (hw : e + F.getSize ≤ w.length)
    (h : ∀ i, i < F.getSize → F.sequenceInt.testBit i = true → q[d + i]? = w[e + i]?) :
    F.getStringFromPosition q d = F.getStringFromPosition w e := by
  apply List.ext_getElem?
  intro i
  by_cases hi : i < F.getSize
  · rw [getStringFromPosition_getElem? F q d i hq hi, getStringFromPosition_getElem? F w e i hw hi]
    by_cases hb : F.sequenceInt.testBit i = true
    · rw [if_pos hb, if_pos hb]; exact h i hi hb
    · rw [if_neg hb, if_neg hb]
  · rw [List.getElem?_eq_none (by rw [getStringFromPosition_length]; omega),
      List.getElem?_eq_none (by rw [getStringFromPosition_length]; omega)]

theorem pigeonhole_core (L k : Nat) (hL : L < 2 ^ 64) (hk : k + 2 ≤ L) (mcsForms : List Form)
    (hcov : ∀ c ∈ Combination.generateAllCombinations L k, ∃ F ∈ mcsForms, c.contains F = true)
    (hodd : ∀ F ∈ mcsForms, F.sequenceInt.testBit 0 = true ∧ F.sequenceInt < 2 ^ 64)
    (q w : Str) (hq : q.length = L) (hw : w.length = L) (hd : hamming q w ≤ k) :
    ∃ F ∈ mcsForms, ∃ d, d + F.getSize ≤ L ∧
      F.getStringFromPosition q d = F.getStringFromPosition w d := by
  -- the match pattern of the two strings
  have hmis : ((List.range L).filter (fun i => !decide (q[i]? = w[i]?))).length = hamming q w := by
    rw [← range_filter_zip q w (by rw [hq, hw]), hw]
    congr 1
    apply List.filter_congr
    intro i _
    by_cases h : q[i]? = w[i]?
    · simp [h]
    · have h' : ¬ (w[i]? = q[i]?) := fun h'' => h h''.symm
      simp [h, h']
  have hsum := filter_length_add_not (List.range L) (fun i => decide (q[i]? = w[i]?))
  rw [List.length_range] at hsum
  have hmatch : L - k ≤ ((List.range L).filter (fun i => decide (q[i]? = w[i]?))).length := by
    omega
  obtain ⟨t, htL, hMt, hgt⟩ := exists_last_match (fun i => decide (q[i]? = w[i]?)) L (by omega)
  have hsplit := count_matches_split (fun i => decide (q[i]? = w[i]?)) L t htL hMt hgt
  -- a combination below the shifted match pattern
  have hlen : (((List.range t).map (fun i => decide (q[i]? = w[i]?))).reverse ++
      List.replicate (L - 1 - t) false).length = (L - k - 1) + k := by
    simp only [List.length_append, List.length_reverse, List.length_map, List.length_range,
      List.length_replicate]
    omega
  have hcount : L - k - 1 ≤ (((List.range t).map (fun i => decide (q[i]? = w[i]?))).reverse ++
      List.replicate (L - 1 - t) false).count true := by
    rw [List.count_append, List.count_reverse, count_true_map]
    omega
  obtain ⟨x, hx, hbits, hmem⟩ := generateCombinations_subcover _ (L - k - 1) k 1 L hlen hcount
    (by omega)
  have hoz : L - k - 1 + k = L - 1 := by omega
  rw [hoz] at hx hbits hmem
  have h1 : (1 : Nat) % 2 ^ 64 = 1 := by decide
  rw [h1, Nat.one_mul, ← generateAllCombinations_eq L k hL (by omega)] at hmem
  obtain ⟨F, hF, hcon⟩ := hcov _ hmem
  obtain ⟨hF0, hF64⟩ := hodd F hF
  have hFne : F.sequenceInt ≠ 0 := by
    intro hz; rw [hz] at hF0; simp at hF0
  obtain ⟨e, he, hsub⟩ := (contains_iff_shift64 _ F (Nat.mod_lt _ (by decide)) hF64 hFne).1 hcon
  -- every one-bit of the combination sits on a match
  have hbit : ∀ j, (2 ^ (L - 1) + x).testBit j = true →
      L - 1 - t ≤ j ∧ q[j - (L - 1 - t)]? = w[j - (L - 1 - t)]? ∧ j ≤ L - 1 := by
    intro j hj
    rcases Nat.lt_trichotomy j (L - 1) with hlt | heq | hgt'
    · rw [Nat.testBit_two_pow_add_gt hlt] at hj
      have hb := hbits j hlt hj
      by_cases hm : L - 1 - 1 - j < t
      · rw [List.getElem?_append_left (by simp; exact hm), List.getElem?_reverse (by simp; exact hm)]
          at hb
        simp only [List.length_map, List.length_range] at hb
        rw [List.getElem?_map, List.getElem?_range (by omega)] at hb
        simp only [Option.map_some', Option.some.injEq, decide_eq_true_eq] at hb
        have hidx : t - 1 - (L - 1 - 1 - j) = j - (L - 1 - t) := by omega
        rw [hidx] at hb
        exact ⟨by omega, hb, by omega⟩
      · exfalso
        rw [List.getElem?_append_right (by simp; omega)] at hb
        have := List.getElem?_replicate (a := false) (n := L - 1 - t)
          (m := L - 1 - 1 - j -
            ((List.range t).map (fun i => decide (q[i]? = w[i]?))).reverse.length)
        rw [this] at hb
        split at hb
        · cases hb
        · cases hb
    · subst heq
      refine ⟨by omega, ?_, le_refl _⟩
      have : L - 1 - (L - 1 - t) = t := by omega
      rw [this]
      simpa using hMt
    · exfalso
      have hlt : 2 ^ (L - 1) + x < 2 ^ L := by
        have : (2 : Nat) ^ L = 2 ^ (L - 1) * 2 := by
          rw [← pow_succ]; congr 1; omega
        omega
      rw [testBit_false_of_lt _ L j hlt (by omega)] at hj
      cases hj
  have hsub' : ∀ i, F.sequenceInt.testBit i = true →
      L - 1 - t ≤ e + i ∧ q[e + i - (L - 1 - t)]? = w[e + i - (L - 1 - t)]? ∧ e + i ≤ L - 1 := by
    intro i hi
    apply hbit
    have hshift : (F.sequenceInt <<< e).testBit (e + i) = true := by
      rw [Nat.testBit_shiftLeft]
      simp [hi]
    have := hsub _ hshift
    rw [Nat.testBit_mod_two_pow] at this
    simp only [Bool.and_eq_true, decide_eq_true_eq] at this
    exact this.2
  have he0 := (hsub' 0 hF0).1
  have htop := testBit_size_pred F.sequenceInt hFne
  have hsize := form_getSize_eq_size F hF64
  have hpos : 0 < Nat.size F.sequenceInt :=
    Nat.pos_of_ne_zero (by simpa [Nat.size_eq_zero] using hFne)
  have hfit := (hsub' _ htop).2.2
  refine ⟨F, hF, e - (L - 1 - t), by rw [hsize]; omega, ?_⟩
  apply extract_eq_of_agree F q w _ _ (by rw [hq, hsize]; omega) (by rw [hw, hsize]; omega)
  intro i _ hi
  have := (hsub' i hi).2.1
  have hidx : e - (L - 1 - t) + i = e + i - (L - 1 - t) := by omega
  rw [hidx]; exact this

end KMismatch

namespace KMismatch

/-- C3, as amended: for queries of maximum length `L ≤ 64` and `k` with `L - k ≥ 2`,
`buildMCSNaiveMultithreaded` returns an MCS, and for every query `q` and window `w`
of length `L` at Hamming distance at most `k` there are a form `F` of that MCS and an
offset `d` with `d + size(F) ≤ L` at which `F` extracts the same string from `q` and
from `w`. -/
theorem pigeonhole_guarantee (queries : List Str) (k : Nat) (q w : Str)
    (hL : maxQueryLength queries ≤ 64) (hk : k + 2 ≤ maxQueryLength queries)
    (hq : q.length = maxQueryLength queries) (hw : w.length = maxQueryLength queries)
    (hd : hamming q w ≤ k) :
    ∃ mcs, MCS.buildMCSNaiveMultithreaded queries k = .returned mcs ∧
      ∃ F ∈ mcs.mcsForms, ∃ d, d + F.getSize ≤ maxQueryLength queries ∧
        F.getStringFromPosition q d = F.getStringFromPosition w d := by
  obtain ⟨mcs, hmcs⟩ := build_returns queries k hL hk
  obtain ⟨_, hcov, hodd, _⟩ := build_sound queries k mcs hmcs
  exact ⟨mcs, hmcs, pigeonhole_core _ k (lt_of_le_of_lt hL (by decide)) hk mcs.mcsForms
    hcov hodd q w hq hw hd⟩

theorem pigeonhole_guarantee_witness :
    ∃ mcs, MCS.buildMCSNaiveMultithreaded [[65, 67, 71, 84]] 2 = .returned mcs ∧
      ∃ F ∈ mcs.mcsForms, ∃ d, d + F.getSize ≤ maxQueryLength [[65, 67, 71, 84]] ∧
        F.getStringFromPosition [65, 67, 71, 84] d = F.getStringFromPosition [84, 67, 71, 65] d :=
  pigeonhole_guarantee [[65, 67, 71, 84]] 2 [65, 67, 71, 84] [84, 67, 71, 65]
    (by decide) (by decide) (by decide) (by decide) (by decide)

/-- C3, as stated, fails: for `L = 66` and `k = 64` (so `L - k = 2`) and a window
equal to the query, no MCS is built at all, because the greedy loop of
`buildMCSNaiveMultithreaded` never ends. -/
theorem pigeonhole_guarantee_counterexample :
    maxQueryLength [List.replicate 66 65] = 66 ∧
      (List.replicate 66 65 : Str).length = 66 ∧
      hamming (List.replicate 66 65) (List.replicate 66 65) ≤ 64 ∧
      MCS.buildMCSNaiveMultithreaded [List.replicate 66 65] 64 = .diverged := by
  have hlen : maxQueryLength [List.replicate 66 65] = 66 := by decide
  refine ⟨hlen, by decide, by decide, ?_⟩
  apply build_diverges _ _ (by rw [hlen]; decide) (by rw [hlen]; decide) _
    (by rw [hlen]; exact generateAllForms_ok 66 64 (by decide) (by decide))
  rw [hlen]; decide

/-! ## `mcsSearch` -/

theorem subU64_lt (a b : Nat) : subU64 a b < 2 ^ 64 := by
  unfold subU64 uintModulus
  exact Nat.mod_lt _ (by decide)

theorem checkCandidates_spec (avx2 : Bool) (text query : Str) (qPos k : Nat)
    (hpath : avx2 = false ∨ query.length < 32)
    (hT : text.length < 2 ^ 63) (hk : k ≤ query.length) (cands : List Nat) (m : PosMap)
    (hm : NonEmptyVals m ∧ KeysNodup m) :
    ∃ r, checkCandidates avx2 text query qPos k cands m = .ok r ∧
      (NonEmptyVals r ∧ KeysNodup r) ∧
      ∀ x : Str × Nat, x.2 ∈ mapFind r x.1 ↔ x.2 ∈ mapFind m x.1 ∨
        ∃ pos ∈ cands, x.1 = query ∧ x.2 = subU64 pos qPos ∧
          subU64 pos qPos + query.length ≤ text.length ∧
          mismatchCount text query (subU64 pos qPos) ≤ k := by
  unfold checkCandidates
  apply foldlM_accumulate _ (fun m => NonEmptyVals m ∧ KeysNodup m)
    (fun m (x : Str × Nat) => x.2 ∈ mapFind m x.1)
    (fun pos (x : Str × Nat) => x.1 = query ∧ x.2 = subU64 pos qPos ∧
          subU64 pos qPos + query.length ≤ text.length ∧
          mismatchCount text query (subU64 pos qPos) ≤ k) cands _ m hm
  intro b hb pos _
  rw [CheckQueryOnPosition_value avx2 text query (subU64 pos qPos) k hpath hT
    (subU64_lt pos qPos) hk]
  by_cases hc : subU64 pos qPos + query.length ≤ text.length ∧
      mismatchCount text query (subU64 pos qPos) ≤ k
  · refine ⟨mapUpdate b query (fun v => v ++ [subU64 pos qPos]),
      by simp [hc, bind, Except.bind, pure, Except.pure], ⟨?_, ?_⟩, ?_⟩
    · exact nonEmptyVals_mapUpdate _ _ _ hb.1 (fun v => by simp)
    · exact keysNodup_mapUpdate _ _ _ hb.2
    · rintro ⟨key, p⟩
      simp only [mapFind_mapUpdate]
      by_cases hkq : key = query
      · subst hkq
        simp only [if_true, List.mem_append, List.mem_singleton, true_and]
        tauto
      · simp [hkq]
  · refine ⟨b, by simp [hc, bind, Except.bind, pure, Except.pure], hb, ?_⟩
    rintro ⟨key, p⟩
    simp only
    tauto

end KMismatch

namespace KMismatch

theorem searchWithForm_spec (avx2 : Bool) (text query : Str) (k : Nat)
    (hpath : avx2 = false ∨ query.length < 32)
    (hT : text.length < 2 ^ 63) (hk : k ≤ query.length) (form : Form) (cache0 : PosMap)
    (st : PosMap × PosMap)
    (hst : (∀ key, mapFind st.1 key = mapFind cache0 key) ∧ NonEmptyVals st.2 ∧ KeysNodup st.2) :
    ∃ r, searchWithForm avx2 text query k form st = .ok r ∧
      ((∀ key, mapFind r.1 key = mapFind cache0 key) ∧ NonEmptyVals r.2 ∧ KeysNodup r.2) ∧
      ∀ x : Str × Nat, x.2 ∈ mapFind r.2 x.1 ↔ x.2 ∈ mapFind st.2 x.1 ∨
        ∃ qPos ∈ List.range (query.length + 1 - form.getSize),
          ∃ pos ∈ mapFind cache0 (form.getStringFromPosition query qPos),
            x.1 = query ∧ x.2 = subU64 pos qPos ∧
              subU64 pos qPos + query.length ≤ text.length ∧
              mismatchCount text query (subU64 pos qPos) ≤ k := by
  unfold searchWithForm
  apply foldlM_accumulate _
    (fun (s : PosMap × PosMap) =>
      (∀ key, mapFind s.1 key = mapFind cache0 key) ∧ NonEmptyVals s.2 ∧ KeysNodup s.2)
    (fun (s : PosMap × PosMap) (x : Str × Nat) => x.2 ∈ mapFind s.2 x.1)
    (fun qPos (x : Str × Nat) =>
      ∃ pos ∈ mapFind cache0 (form.getStringFromPosition query qPos),
        x.1 = query ∧ x.2 = subU64 pos qPos ∧
          subU64 pos qPos + query.length ≤ text.length ∧
          mismatchCount text query (subU64 pos qPos) ≤ k)
    (List.range (query.length + 1 - form.getSize)) _ st hst
  intro b hb qPos _
  have hfind : ∀ key, mapFind (mapUpdate b.1 (form.getStringFromPosition query qPos) id) key =
      mapFind cache0 key := by
    intro key
    rw [mapFind_mapUpdate]
    by_cases hkey : key = form.getStringFromPosition query qPos
    · rw [if_pos hkey, hkey]; exact hb.1 _
    · rw [if_neg hkey]; exact hb.1 _
  obtain ⟨r, hr, hrInv, hrmem⟩ := checkCandidates_spec avx2 text query qPos k hpath hT hk
    (mapFind (mapUpdate b.1 (form.getStringFromPosition query qPos) id)
      (form.getStringFromPosition query qPos)) b.2 hb.2
  refine ⟨(mapUpdate b.1 (form.getStringFromPosition query qPos) id, r), ?_,
    ⟨hfind, hrInv⟩, ?_⟩
  · simp only [hr, bind, Except.bind, pure, Except.pure]
  · intro x
    have h := hrmem x
    rw [hfind] at h
    exact h

theorem searchForms_spec (avx2 : Bool) (text query : Str) (k : Nat)
    (hpath : avx2 = false ∨ query.length < 32)
    (hT : text.length < 2 ^ 63) (hk : k ≤ query.length) (forms : List Form) (cache0 : PosMap)
    (st : PosMap × PosMap)
    (hst : (∀ key, mapFind st.1 key = mapFind cache0 key) ∧ NonEmptyVals st.2 ∧ KeysNodup st.2) :
    ∃ r, forms.foldlM (fun st form => searchWithForm avx2 text query k form st) st = .ok r ∧
      ((∀ key, mapFind r.1 key = mapFind cache0 key) ∧ NonEmptyVals r.2 ∧ KeysNodup r.2) ∧
      ∀ x : Str × Nat, x.2 ∈ mapFind r.2 x.1 ↔ x.2 ∈ mapFind st.2 x.1 ∨
        ∃ form ∈ forms, ∃ qPos ∈ List.range (query.length + 1 - form.getSize),
          ∃ pos ∈ mapFind cache0 (form.getStringFromPosition query qPos),
            x.1 = query ∧ x.2 = subU64 pos qPos ∧
              subU64 pos qPos + query.length ≤ text.length ∧
              mismatchCount text query (subU64 pos qPos) ≤ k := by
  apply foldlM_accumulate _
    (fun (s : PosMap × PosMap) =>
      (∀ key, mapFind s.1 key = mapFind cache0 key) ∧ NonEmptyVals s.2 ∧ KeysNodup s.2)
    (fun (s : PosMap × PosMap) (x : Str × Nat) => x.2 ∈ mapFind s.2 x.1)
    (fun form (x : Str × Nat) =>
      ∃ qPos ∈ List.range (query.length + 1 - form.getSize),
        ∃ pos ∈ mapFind cache0 (form.getStringFromPosition query qPos),
          x.1 = query ∧ x.2 = subU64 pos qPos ∧
            subU64 pos qPos + query.length ≤ text.length ∧
            mismatchCount text query (subU64 pos qPos) ≤ k)
    forms _ st hst
  intro b hb form _
  exact searchWithForm_spec avx2 text query k hpath hT hk form cache0 b hb

theorem searchQuery_spec (avx2 : Bool) (text : Str) (mcs : MCS) (k : Nat) (query : Str)
    (hpath : avx2 = false ∨ query.length < 32)
    (hT : text.length < 2 ^ 63) (hk : k ≤ query.length) (cache0 : PosMap)
    (st : PosMap × PosMap)
    (hst : (∀ key, mapFind st.1 key = mapFind cache0 key) ∧ NonEmptyVals st.2) :
    ∃ r, searchQuery avx2 text mcs k st query = .ok r ∧
      ((∀ key, mapFind r.1 key = mapFind cache0 key) ∧ NonEmptyVals r.2) ∧
      ∀ x : Str × Nat, x.2 ∈ mapFind r.2 x.1 ↔ x.2 ∈ mapFind st.2 x.1 ∨
        ∃ form ∈ mcs.mcsForms, ∃ qPos ∈ List.range (query.length + 1 - form.getSize),
          ∃ pos ∈ mapFind cache0 (form.getStringFromPosition query qPos),
            x.1 = query ∧ x.2 = subU64 pos qPos ∧
              subU64 pos qPos + query.length ≤ text.length ∧
              mismatchCount text query (subU64 pos qPos) ≤ k := by
  have hnil : KeysNodup [] := by simp [KeysNodup]
  obtain ⟨r, hr, hrInv, hrmem⟩ := searchForms_spec avx2 text query k hpath hT hk mcs.mcsForms
    cache0 (st.1, []) ⟨hst.1, nonEmptyVals_nil, hnil⟩
  refine ⟨(r.1, mergeInto st.2 r.2), ?_, ⟨hrInv.1, ?_⟩, ?_⟩
  · unfold searchQuery
    simp only [hr, bind, Except.bind, pure, Except.pure]
  · exact nonEmptyVals_mergeInto _ _ hst.2 hrInv.2.1
  · intro x
    show x.2 ∈ mapFind (mergeInto st.2 r.2) x.1 ↔ _
    rw [mapFind_mergeInto, entry_iff_mapFind _ hrInv.2.2, hrmem x]
    simp [mapFind]

end KMismatch

namespace KMismatch

theorem mcsSearch_spec (s : KMismatchSearch) (avx2 : Bool) (k : Nat)
    (hpath : avx2 = false ∨ ∀ q ∈ s.queries, q.length < 32)
    (hT : s.text.length < 2 ^ 63) (hk : ∀ q ∈ s.queries, k ≤ q.length) :
    ∃ r, s.mcsSearch avx2 k = .ok r ∧ NonEmptyVals r ∧
      ∀ key p, p ∈ mapFind r key ↔
        key ∈ s.queries ∧ ∃ form ∈ s.mcs.mcsForms,
          ∃ qPos ∈ List.range (key.length + 1 - form.getSize),
            ∃ pos ∈ mapFind s.cacheAfterBuild (form.getStringFromPosition key qPos),
              p = subU64 pos qPos ∧ p + key.length ≤ s.text.length ∧
                mismatchCount s.text key p ≤ k := by
  obtain ⟨r, hr, hrInv, hrmem⟩ := foldlM_accumulate
    (searchQuery avx2 s.text s.mcs k)
    (fun (st : PosMap × PosMap) =>
      (∀ key, mapFind st.1 key = mapFind s.cacheAfterBuild key) ∧ NonEmptyVals st.2)
    (fun (st : PosMap × PosMap) (x : Str × Nat) => x.2 ∈ mapFind st.2 x.1)
    (fun query (x : Str × Nat) =>
      ∃ form ∈ s.mcs.mcsForms, ∃ qPos ∈ List.range (query.length + 1 - form.getSize),
        ∃ pos ∈ mapFind s.cacheAfterBuild (form.getStringFromPosition query qPos),
          x.1 = query ∧ x.2 = subU64 pos qPos ∧
            subU64 pos qPos + query.length ≤ s.text.length ∧
            mismatchCount s.text query (subU64 pos qPos) ≤ k)
    s.queries
    (by
      intro b hb query hq
      exact searchQuery_spec avx2 s.text s.mcs k query (hpath.imp id (fun h => h query hq)) hT
        (hk query hq) s.cacheAfterBuild b hb)
    (s.cacheAfterBuild, []) ⟨fun _ => rfl, nonEmptyVals_nil⟩
  refine ⟨r.2, ?_, hrInv.2, ?_⟩
  · unfold KMismatchSearch.mcsSearch KMismatchSearch.mcsSearchRun
    rw [hr]
    rfl
  · intro key p
    have h := hrmem (key, p)
    simp only [mapFind, List.not_mem_nil, false_or] at h
    rw [h]
    constructor
    · rintro ⟨query, hq, form, hform, qPos, hqPos, pos, hpos, rfl, rfl, h1, h2⟩
      exact ⟨hq, form, hform, qPos, hqPos, pos, hpos, rfl, h1, h2⟩
    · rintro ⟨hq, form, hform, qPos, hqPos, pos, hpos, rfl, h1, h2⟩
      exact ⟨key, hq, form, hform, qPos, hqPos, pos, hpos, rfl, rfl, h1, h2⟩

theorem hamming_comm (a b : Str) : hamming a b = hamming b a := by
  unfold hamming
  induction a generalizing b with
  | nil => cases b <;> simp
  | cons x a ih =>
      cases b with
      | nil => simp
      | cons y b =>
          simp only [List.zip_cons_cons, List.filter_cons]
          by_cases hxy : x = y
          · subst hxy; simpa using ih b
          · have hyx : ¬ (y = x) := fun h => hxy h.symm
            simpa [hxy, hyx] using ih b

theorem maxQueryLength_fold (queries : List Str) (L init : Nat)
    (hlen : ∀ q ∈ queries, q.length = L) (hinit : init ≤ L) (hne : queries ≠ []) :
    queries.foldl (fun length query => if query.length > length then query.length else length)
      init = L := by
  induction queries generalizing init with
  | nil => exact absurd rfl hne
  | cons q rest ih =>
      rw [List.foldl_cons]
      have hq : q.length = L := hlen q (List.mem_cons_self _ _)
      have hstep : (if q.length > init then q.length else init) = L := by
        by_cases h : q.length > init
        · rw [if_pos h]; exact hq
        · rw [if_neg h]; omega
      rw [hstep]
      cases rest with
      | nil => rfl
      | cons q' rest' =>
          exact ih L (fun q hq => hlen q (List.mem_cons_of_mem _ hq)) (le_refl _) (by simp)

theorem maxQueryLength_eq (queries : List Str) (L : Nat)
    (hlen : ∀ q ∈ queries, q.length = L) (hL : 1 ≤ L) (hne : queries ≠ []) :
    maxQueryLength queries = L :=
  maxQueryLength_fold queries L 1 hlen hL hne

theorem new_returned (text : Str) (queries : List Str) (k : Nat) (s : KMismatchSearch)
    (h : KMismatchSearch.new text queries k = .returned s) :
    MCS.buildMCSNaiveMultithreaded queries k = .returned s.mcs ∧ s.text = text ∧
      s.queries = queries ∧ s.cache = [] := by
  unfold KMismatchSearch.new at h
  cases hb : MCS.buildMCSNaiveMultithreaded queries k with
  | returned mcs =>
      rw [hb] at h
      have h' := Outcome.returned.inj h
      subst h'
      exact ⟨rfl, rfl, rfl, rfl⟩
  | raised msg => rw [hb] at h; cases h
  | diverged => rw [hb] at h; cases h

end KMismatch

namespace KMismatch

theorem same_of_mem_iff (a b : PosMap) (ha : NonEmptyVals a) (hb : NonEmptyVals b)
    (h : ∀ key p, p ∈ mapFind a key ↔ p ∈ mapFind b key) : PosMap.Same a b := by
  refine ⟨?_, h⟩
  intro key
  rw [key_mem_iff_of_nonEmptyVals a ha, key_mem_iff_of_nonEmptyVals b hb]
  constructor
  · rintro ⟨p, hp⟩; exact ⟨p, (h key p).1 hp⟩
  · rintro ⟨p, hp⟩; exact ⟨p, (h key p).2 hp⟩

theorem search_equivalence (s : KMismatchSearch) (avx2 : Bool) (k L : Nat)
    (hbuild : MCS.buildMCSNaiveMultithreaded s.queries k = .returned s.mcs)
    (hcache : s.cache = [])
    (hlen : ∀ q ∈ s.queries, q.length = L) (hk : k + 2 ≤ L)
    (hpath : avx2 = false ∨ L < 32) (hT : s.text.length < 2 ^ 63) :
    ∃ a b, s.mcsSearch avx2 k = .ok a ∧ s.naiveSearch avx2 k = .ok b ∧ PosMap.Same a b := by
  have hpath' : avx2 = false ∨ ∀ q ∈ s.queries, q.length < 32 :=
    hpath.imp id (fun h q hq => by rw [hlen q hq]; exact h)
  have hk' : ∀ q ∈ s.queries, k ≤ q.length := fun q hq => by rw [hlen q hq]; omega
  obtain ⟨a, ha, haNe, hamem⟩ := mcsSearch_spec s avx2 k hpath' hT hk'
  obtain ⟨b, hb, hbNe, hbmem⟩ := naiveSearch_spec s avx2 k hpath' hT hk'
  refine ⟨a, b, ha, hb, same_of_mem_iff a b haNe hbNe ?_⟩
  intro key p
  rw [hamem, hbmem]
  constructor
  · rintro ⟨hq, _, _, _, _, _, _, _, h1, h2⟩
    have := hlen key hq
    exact ⟨hq, by omega, h1, h2⟩
  · rintro ⟨hq, hp, h1, h2⟩
    have hkey := hlen key hq
    have hne : s.queries ≠ [] := by
      intro hnil; rw [hnil] at hq; cases hq
    have hmax : maxQueryLength s.queries = L := maxQueryLength_eq s.queries L hlen (by omega) hne
    obtain ⟨_, hcov, hodd, _⟩ := build_sound s.queries k s.mcs hbuild
    rw [hmax] at hcov
    have hham : hamming key (window s.text p key.length) ≤ k := by
      rw [hamming_comm, ← mismatchCount_eq_hamming _ _ _ h1]; exact h2
    obtain ⟨F, hF, d, hd, heq⟩ := pigeonhole_core L k (by omega) hk s.mcs.mcsForms hcov hodd
      key (window s.text p key.length) hkey
      (by rw [window_length _ _ _ h1]; exact hkey) hham
    have hFpos : 0 < F.getSize := by
      obtain ⟨h0, h64⟩ := hodd F hF
      rw [form_getSize_eq_size F h64]
      apply Nat.pos_of_ne_zero
      intro hz
      rw [Nat.size_eq_zero] at hz
      rw [hz] at h0
      simp at h0
    have hwin : F.getStringFromPosition (window s.text p key.length) d =
        F.getStringFromPosition s.text (p + d) := by
      apply extract_eq_of_agree
      · rw [window_length _ _ _ h1]; omega
      · omega
      · intro i hi _
        rw [window_getElem? _ _ _ _ (by omega), Nat.add_assoc]
    refine ⟨hq, F, hF, d, by rw [List.mem_range]; omega, p + d, ?_, ?_, h1, h2⟩
    · unfold KMismatchSearch.cacheAfterBuild
      rw [hcache]
      simp only [List.isEmpty_nil, if_true]
      rw [mem_buildCache]
      right
      exact ⟨by omega, F, hF, by omega, by rw [heq, hwin]⟩
    · unfold subU64 uintModulus
      omega

end KMismatch

namespace KMismatch

/-- C2: when all queries have the same length `L` with `L - k ≥ 2`, the search is
constructed from `(text, queries, k)` (so its MCS is the one built by
`buildMCSNaiveMultithreaded(queries, k)` and its index is empty) and verification
runs on the scalar path, `mcsSearch(k)` and `naiveSearch(k)` both return, and the
two maps have the same keys and the same position sets. -/
theorem mcsSearch_eq_naiveSearch (text : Str) (queries : List Str) (k L : Nat) (avx2 : Bool)
    (s : KMismatchSearch) (hnew : KMismatchSearch.new text queries k = .returned s)
    (hlen : ∀ q ∈ queries, q.length = L) (hk : k + 2 ≤ L)
    (hpath : avx2 = false ∨ L < 32) (hT : text.length < 2 ^ 63) :
    ∃ a b, s.mcsSearch avx2 k = .ok a ∧ s.naiveSearch avx2 k = .ok b ∧ PosMap.Same a b := by
  obtain ⟨hbuild, htext, hqueries, hcache⟩ := new_returned text queries k s hnew
  apply search_equivalence s avx2 k L
  · rw [hqueries]; exact hbuild
  · exact hcache
  · rw [hqueries]; exact hlen
  · exact hk
  · exact hpath
  · rw [htext]; exact hT

theorem mcsSearch_eq_naiveSearch_witness :
    (∃ a b,
      KMismatchSearch.mcsSearch
          { text := [65, 67, 68, 66, 65, 65, 67, 68, 65, 65, 66, 67],
            queries := [[65, 67, 68, 66, 65], [65, 67, 68, 65, 45]], cache := [],
            mcs := MCS.mk [Form.mk 3] } false 1 = .ok a ∧
        KMismatchSearch.naiveSearch
          { text := [65, 67, 68, 66, 65, 65, 67, 68, 65, 65, 66, 67],
            queries := [[65, 67, 68, 66, 65], [65, 67, 68, 65, 45]], cache := [],
            mcs := MCS.mk [Form.mk 3] } false 1 = .ok b ∧
        PosMap.Same a b) ∧
    (∃ a b,
      KMismatchSearch.mcsSearch
          { text := [65, 67, 68, 66, 65, 65, 67, 68, 65, 65, 66, 67],
            queries := [[65, 67, 68, 66, 65, 65, 67, 68, 65, 45]], cache := [],
            mcs := MCS.mk [Form.mk 3] } false 2 = .ok a ∧
        KMismatchSearch.naiveSearch
          { text := [65, 67, 68, 66, 65, 65, 67, 68, 65, 65, 66, 67],
            queries := [[65, 67, 68, 66, 65, 65, 67, 68, 65, 45]], cache := [],
            mcs := MCS.mk [Form.mk 3] } false 2 = .ok b ∧
        PosMap.Same a b) :=
  ⟨mcsSearch_eq_naiveSearch [65, 67, 68, 66, 65, 65, 67, 68, 65, 65, 66, 67]
      [[65, 67, 68, 66, 65], [65, 67, 68, 65, 45]] 1 5 false _
      (by decide) (by decide) (by decide) (Or.inl rfl) (by decide),
    mcsSearch_eq_naiveSearch [65, 67, 68, 66, 65, 65, 67, 68, 65, 65, 66, 67]
      [[65, 67, 68, 66, 65, 65, 67, 68, 65, 45]] 2 10 false _
      (by decide) (by decide) (by decide) (Or.inl rfl) (by decide)⟩

end KMismatch

namespace KMismatch

/-! ## The list of `generateAllForms` -/

theorem generateForms_eq_map (fuel : Nat) :
    ∀ (z cur : Nat), z < fuel → cur * 2 ^ (z + 1) < 2 ^ 64 →
      generateForms fuel 0 z cur =
        (List.range (z + 1)).map (fun t => Form.mk (cur * 2 ^ (t + 1) + 1)) := by
  induction fuel with
  | zero => intro z cur h; omega
  | succ n ih =>
      intro z cur hfuel hbound
      have hcur : cur < 2 ^ 63 := by
        have hp : 0 < 2 ^ z := by positivity
        rw [pow_succ] at hbound
        by_contra hcon
        have h1 : 2 ^ 63 * (2 ^ z * 2) ≤ cur * (2 ^ z * 2) := Nat.mul_le_mul_right _ (by omega)
        have h2 : 2 ^ 63 * (1 * 2) ≤ 2 ^ 63 * (2 ^ z * 2) :=
          Nat.mul_le_mul_left _ (Nat.mul_le_mul_right _ hp)
        omega
      rw [generateForms, if_pos rfl, if_neg (by simp), shl1_or_one_small cur hcur,
        shl1_small cur hcur, List.append_nil, List.range_succ_eq_map, List.map_cons, List.map_map]
      have hhead : Form.mk (2 * cur + 1) = Form.mk (cur * 2 ^ (0 + 1) + 1) := by
        congr 1; ring
      rw [← hhead]
      cases z with
      | zero => simp
      | succ z =>
          rw [if_pos (by omega)]
          have := ih z (2 * cur) (by omega)
            (by rw [pow_succ] at hbound; calc 2 * cur * 2 ^ (z + 1)
                  = cur * (2 ^ (z + 1) * 2) := by ring
                _ < 2 ^ 64 := hbound)
          rw [Nat.add_sub_cancel, this]
          simp only [List.singleton_append, List.cons.injEq, true_and]
          apply List.map_congr_left
          intro t _
          simp only [Function.comp, Nat.succ_eq_add_one]
          congr 1
          rw [pow_succ 2 (t + 1)]; ring

theorem generateAllForms_eq_map (L k : Nat) (hL : L ≤ 64) (hk : k + 2 ≤ L) :
    Form.generateAllForms L k =
      .ok ((List.range (L - 1)).map (fun t => Form.mk (2 ^ (t + 1) + 1))) := by
  rw [generateAllForms_ok L k (lt_of_le_of_lt hL (by decide)) hk]
  have hpow : (2 : Nat) ^ (L - 2 + 1) < 2 ^ 64 := Nat.pow_lt_pow_right (by decide) (by omega)
  rw [generateForms_eq_map (L - 1) (L - 2) 1 (by omega) (by omega)]
  have h : L - 2 + 1 = L - 1 := by omega
  rw [h]
  congr 1
  apply List.map_congr_left
  intro t _
  rw [Nat.one_mul]

/-! ## The number of combinations -/

theorem generateCombinations_length (fuel : Nat) :
    ∀ (o z cur : Nat), o + z < fuel →
      (generateCombinations fuel o z cur).length = Nat.choose (o + z) o := by
  induction fuel with
  | zero => intro o z cur h; omega
  | succ n ih =>
      intro o z cur hfuel
      rw [generateCombinations, List.length_append, List.length_append]
      cases o with
      | zero =>
          cases z with
          | zero => simp
          | succ z =>
              rw [if_neg (by omega), if_neg (by simp), if_pos (by omega),
                ih 0 (z + 1 - 1) _ (by omega)]
              simp
      | succ o =>
          cases z with
          | zero =>
              rw [if_neg (by omega), if_pos (by omega), if_neg (by simp),
                ih (o + 1 - 1) 0 _ (by omega)]
              simp
          | succ z =>
              rw [if_neg (by omega), if_pos (by omega), if_pos (by omega),
                ih (o + 1 - 1) (z + 1) _ (by omega), ih (o + 1) (z + 1 - 1) _ (by omega)]
              simp only [List.length_nil, Nat.add_sub_cancel, Nat.zero_add]
              have h1 : o + (z + 1) = o + z + 1 := by omega
              have h2 : o + 1 + (z + 1) = (o + z + 1) + 1 := by omega
              have h3 : o + 1 + z = o + z + 1 := by omega
              rw [h1, h2, h3, Nat.choose_succ_succ (o + z + 1) o]

end KMismatch

namespace KMismatch

/-! ## Counting one-bits -/

theorem onesBelow_succ (n w : Nat) :
    onesBelow (n + 1) w = onesBelow n w + (if w.testBit n = true then 1 else 0) := by
  unfold onesBelow
  rw [List.range_succ, List.filter_append, List.length_append]
  by_cases h : w.testBit n = true
  · simp [h]
  · simp [h]

theorem onesBelow_congr (n a b : Nat) (h : ∀ j, j < n → a.testBit j = b.testBit j) :
    onesBelow n a = onesBelow n b := by
  unfold onesBelow
  congr 1
  apply List.filter_congr
  intro j hj
  rw [h j (List.mem_range.1 hj)]

theorem onesBelow_le (n w : Nat) : onesBelow n w ≤ n := by
  unfold onesBelow
  have := List.length_filter_le (fun j => w.testBit j) (List.range n)
  rw [List.length_range] at this
  exact this

theorem onesBelow_two_pow_add (m w : Nat) (hw : w < 2 ^ m) :
    onesBelow (m + 1) (2 ^ m + w) = onesBelow m w + 1 := by
  rw [onesBelow_succ, Nat.testBit_two_pow_add_eq, Nat.testBit_lt_two_pow hw]
  rw [onesBelow_congr m (2 ^ m + w) w (fun j hj => Nat.testBit_two_pow_add_gt hj w)]
  simp

theorem onesBelow_of_lt (m w : Nat) (hw : w < 2 ^ m) :
    onesBelow (m + 1) w = onesBelow m w := by
  rw [onesBelow_succ, Nat.testBit_lt_two_pow hw]
  simp

theorem cur_lt_of_bound (cur n : Nat) (hn : 0 < n) (hbound : (cur + 1) * 2 ^ n ≤ 2 ^ 64) :
    cur < 2 ^ 63 := by
  have h2 : 2 ^ n = 2 * 2 ^ (n - 1) := by
    rw [← pow_succ']; congr 1; omega
  have hp : 0 < 2 ^ (n - 1) := by positivity
  rw [h2] at hbound
  by_contra hcon
  have : 2 ^ 63 + 1 ≤ cur + 1 := by omega
  have h3 : (2 ^ 63 + 1) * (2 * 2 ^ (n - 1)) ≤ (cur + 1) * (2 * 2 ^ (n - 1)) :=
    Nat.mul_le_mul_right _ this
  have h4 : (2 ^ 63 + 1) * (2 * 1) ≤ (2 ^ 63 + 1) * (2 * 2 ^ (n - 1)) :=
    Nat.mul_le_mul_left _ (Nat.mul_le_mul_left _ hp)
  omega

/-! ## The members of `generateCombinations` -/

theorem generateCombinations_mem_iff (fuel : Nat) :
    ∀ (o z cur : Nat), o + z < fuel → (cur + 1) * 2 ^ (o + z) ≤ 2 ^ 64 →
      ∀ c : Combination, c ∈ generateCombinations fuel o z cur ↔
        ∃ w, w < 2 ^ (o + z) ∧ c.sequenceInt = cur * 2 ^ (o + z) + w ∧
          onesBelow (o + z) w = o := by
  induction fuel with
  | zero => intro o z cur h; omega
  | succ n ih =>
      intro o z cur hfuel hbound c
      rw [generateCombinations, List.mem_append, List.mem_append]
      by_cases h0 : o = 0 ∧ z = 0
      · obtain ⟨ho, hz⟩ := h0
        subst ho; subst hz
        rw [if_pos ⟨rfl, rfl⟩, if_neg (by simp), if_neg (by simp)]
        simp only [List.mem_singleton, List.not_mem_nil, or_false, Nat.add_zero, pow_zero,
          Nat.lt_one_iff, Nat.mul_one]
        constructor
        · intro hc; subst hc
          exact ⟨0, rfl, rfl, by simp [onesBelow]⟩
        · rintro ⟨w, hw, hcw, _⟩
          subst hw
          cases c with
          | mk x => simp only at hcw; rw [hcw]; rfl
      · rw [if_neg h0]
        have hpos : 0 < o + z := by omega
        obtain ⟨m, hm⟩ : ∃ m, o + z = m + 1 := ⟨o + z - 1, by omega⟩
        have hcur := cur_lt_of_bound cur (o + z) hpos hbound
        rw [shl1_or_one_small cur hcur, shl1_small cur hcur, hm]
        rw [hm] at hbound
        have hpow : 2 ^ (m + 1) = 2 * 2 ^ m := by rw [pow_succ]; ring
        have hb1 : (2 * cur + 1 + 1) * 2 ^ m ≤ 2 ^ 64 := by
          calc (2 * cur + 1 + 1) * 2 ^ m = (cur + 1) * 2 ^ (m + 1) := by rw [hpow]; ring
            _ ≤ 2 ^ 64 := hbound
        have hb0 : (2 * cur + 1) * 2 ^ m ≤ 2 ^ 64 := by
          calc (2 * cur + 1) * 2 ^ m ≤ (2 * cur + 1 + 1) * 2 ^ m :=
                Nat.mul_le_mul_right _ (by omega)
            _ ≤ 2 ^ 64 := hb1
        have e1 : (2 * cur + 1) * 2 ^ m = cur * 2 ^ (m + 1) + 2 ^ m := by rw [hpow]; ring
        have e0 : 2 * cur * 2 ^ m = cur * 2 ^ (m + 1) := by rw [hpow]; ring
        constructor
        · rintro ((hc | hc) | hc)
          · cases hc
          · by_cases ho : o ≠ 0
            · rw [if_pos ho] at hc
              have hom : o - 1 + z = m := by omega
              obtain ⟨w, hw, hcw, hcount⟩ := (ih (o - 1) z (2 * cur + 1) (by omega)
                (by rw [hom]; exact hb1) c).1 hc
              rw [hom] at hw hcw hcount
              refine ⟨2 ^ m + w, by omega, by rw [hcw, e1]; omega, ?_⟩
              rw [onesBelow_two_pow_add m w hw, hcount]; omega
            · rw [if_neg ho] at hc; cases hc
          · by_cases hz : z ≠ 0
            · rw [if_pos hz] at hc
              have hom : o + (z - 1) = m := by omega
              obtain ⟨w, hw, hcw, hcount⟩ := (ih o (z - 1) (2 * cur) (by omega)
                (by rw [hom]; exact hb0) c).1 hc
              rw [hom] at hw hcw hcount
              refine ⟨w, by omega, by rw [hcw, e0], ?_⟩
              rw [onesBelow_of_lt m w hw, hcount]
            · rw [if_neg hz] at hc; cases hc
        · rintro ⟨w, hw, hcw, hcount⟩
          by_cases hbit : w.testBit m = true
          · have hge : 2 ^ m ≤ w := Nat.testBit_implies_ge hbit
            have hw' : w - 2 ^ m < 2 ^ m := by omega
            have hsplit : w = 2 ^ m + (w - 2 ^ m) := by omega
            have hcnt : onesBelow (m + 1) w = onesBelow m (w - 2 ^ m) + 1 := by
              rw [← onesBelow_two_pow_add m _ hw', ← hsplit]
            have ho : o ≠ 0 := by omega
            have hom : o - 1 + z = m := by omega
            left; right
            rw [if_pos ho]
            apply (ih (o - 1) z (2 * cur + 1) (by omega) (by rw [hom]; exact hb1) c).2
            rw [hom]
            exact ⟨w - 2 ^ m, hw', by rw [hcw, e1]; omega, by omega⟩
          · have hbit' : w.testBit m = false := by simpa using hbit
            have hw' : w < 2 ^ m := by
              apply Nat.lt_pow_two_of_testBit
              intro i hi
              by_cases him : i = m
              · subst him; exact hbit'
              · exact testBit_false_of_lt w (m + 1) i hw (by omega)
            have hcnt : onesBelow m w = o := by
              rw [← onesBelow_of_lt m w hw']; exact hcount
            have hle := onesBelow_le m w
            have hz : z ≠ 0 := by omega
            have hom : o + (z - 1) = m := by omega
            right
            rw [if_pos hz]
            apply (ih o (z - 1) (2 * cur) (by omega) (by rw [hom]; exact hb0) c).2
            rw [hom]
            exact ⟨w, hw', by rw [hcw, e0], hcnt⟩

theorem generateCombinations_nodup (fuel : Nat) :
    ∀ (o z cur : Nat), o + z < fuel → (cur + 1) * 2 ^ (o + z) ≤ 2 ^ 64 →
      (generateCombinations fuel o z cur).Nodup := by
  induction fuel with
  | zero => intro o z cur h; omega
  | succ n ih =>
      intro o z cur hfuel hbound
      rw [generateCombinations]
      by_cases h0 : o = 0 ∧ z = 0
      · rw [if_pos h0, if_neg (by omega), if_neg (by omega)]
        simp
      · rw [if_neg h0, List.nil_append]
        have hpos : 0 < o + z := by omega
        obtain ⟨m, hm⟩ : ∃ m, o + z = m + 1 := ⟨o + z - 1, by omega⟩
        have hcur := cur_lt_of_bound cur (o + z) hpos hbound
        rw [shl1_or_one_small cur hcur, shl1_small cur hcur]
        rw [hm] at hbound
        have hpow : 2 ^ (m + 1) = 2 * 2 ^ m := by rw [pow_succ]; ring
        have hb1 : (2 * cur + 1 + 1) * 2 ^ m ≤ 2 ^ 64 := by
          calc (2 * cur + 1 + 1) * 2 ^ m = (cur + 1) * 2 ^ (m + 1) := by rw [hpow]; ring
            _ ≤ 2 ^ 64 := hbound
        have hb0 : (2 * cur + 1) * 2 ^ m ≤ 2 ^ 64 := by
          calc (2 * cur + 1) * 2 ^ m ≤ (2 * cur + 1 + 1) * 2 ^ m :=
                Nat.mul_le_mul_right _ (by omega)
            _ ≤ 2 ^ 64 := hb1
        have e1 : (2 * cur + 1) * 2 ^ m = 2 * cur * 2 ^ m + 2 ^ m := by ring
        apply List.Nodup.append
        · by_cases ho : o ≠ 0
          · rw [if_pos ho]
            exact ih (o - 1) z _ (by omega)
              (by rw [show o - 1 + z = m by omega]; exact hb1)
          · rw [if_neg ho]; exact List.nodup_nil
        · by_cases hz : z ≠ 0
          · rw [if_pos hz]
            exact ih o (z - 1) _ (by omega)
              (by rw [show o + (z - 1) = m by omega]; exact hb0)
          · rw [if_neg hz]; exact List.nodup_nil
        · intro c hc1 hc2
          by_cases ho : o ≠ 0
          · by_cases hz : z ≠ 0
            · rw [if_pos ho] at hc1
              rw [if_pos hz] at hc2
              have hom1 : o - 1 + z = m := by omega
              have hom0 : o + (z - 1) = m := by omega
              obtain ⟨w1, hw1, hcw1, _⟩ := (generateCombinations_mem_iff n (o - 1) z
                (2 * cur + 1) (by omega) (by rw [hom1]; exact hb1) c).1 hc1
              obtain ⟨w2, hw2, hcw2, _⟩ := (generateCombinations_mem_iff n o (z - 1)
                (2 * cur) (by omega) (by rw [hom0]; exact hb0) c).1 hc2
              rw [hom1] at hw1 hcw1
              rw [hom0] at hw2 hcw2
              rw [hcw1, e1] at hcw2
              omega
            · rw [if_neg hz] at hc2; cases hc2
          · rw [if_neg ho] at hc1; cases hc1

end KMismatch

namespace KMismatch

/-! ## The lists of `generateAllForms` and `generateAllCombinations` -/

/-- C11, as amended: for `L ≤ 64` and `L - k ≥ 2`, `Form::generateAllForms(L, k)`
returns exactly the `L - 1` forms with integers `2 ^ j + 1`, `1 ≤ j ≤ L - 1` (bit 0 and
the top bit set and no other one-bit, bit-lengths 2 to `L`), and nothing else. -/
theorem generateAllForms_two_bit (L k : Nat) (hL : L ≤ 64) (hk : k + 2 ≤ L) :
    ∃ forms, Form.generateAllForms L k = .ok forms ∧ forms.length = L - 1 ∧
      ∀ F : Form, F ∈ forms ↔ ∃ j, 1 ≤ j ∧ j < L ∧ F.sequenceInt = 2 ^ j + 1 := by
  refine ⟨_, generateAllForms_eq_map L k hL hk, by simp, ?_⟩
  intro F
  rw [List.mem_map]
  constructor
  · rintro ⟨t, ht, rfl⟩
    rw [List.mem_range] at ht
    exact ⟨t + 1, by omega, by omega, rfl⟩
  · rintro ⟨j, hj1, hjL, hF⟩
    refine ⟨j - 1, by rw [List.mem_range]; omega, ?_⟩
    cases F with
    | mk x =>
        simp only at hF
        rw [hF, show j - 1 + 1 = j by omega]

theorem generateAllForms_two_bit_witness :
    ∃ forms, Form.generateAllForms 4 1 = .ok forms ∧ forms.length = 4 - 1 ∧
      ∀ F : Form, F ∈ forms ↔ ∃ j, 1 ≤ j ∧ j < 4 ∧ F.sequenceInt = 2 ^ j + 1 :=
  generateAllForms_two_bit 4 1 (by decide) (by decide)

/-- C11, as stated, fails: `generateAllForms(4, 1)` returns the three forms `0b11`,
`0b101`, `0b1001`; the form `0b1011` has bit-length 4 with bit 0 and bit 3 set and is
not returned, and the returned form `0b11` has bit-length 2. -/
theorem generateAllForms_two_bit_counterexample :
    Form.generateAllForms 4 1 = .ok [Form.mk 3, Form.mk 5, Form.mk 9] ∧
      (Form.mk 11).getSize = 4 ∧ (Form.mk 11).sequenceInt.testBit 0 = true ∧
      (Form.mk 11).sequenceInt.testBit 3 = true ∧
      Form.mk 11 ∉ [Form.mk 3, Form.mk 5, Form.mk 9] ∧ (Form.mk 3).getSize = 2 := by
  decide

theorem generateAllCombinations_mem_iff (L k : Nat) (hL1 : 1 ≤ L) (hL : L ≤ 64)
    (hk : k ≤ L - 1) (c : Combination) :
    c ∈ Combination.generateAllCombinations L k ↔
      ∃ w, w < 2 ^ (L - 1) ∧ c.sequenceInt = 2 ^ (L - 1) + w ∧
        onesBelow (L - 1) w = L - k - 1 := by
  rw [generateAllCombinations_eq L k (lt_of_le_of_lt hL (by decide)) (by omega)]
  have hoz : L - k - 1 + k = L - 1 := by omega
  have hbound : (1 + 1) * 2 ^ (L - k - 1 + k) ≤ 2 ^ 64 := by
    rw [hoz]
    calc (1 + 1) * 2 ^ (L - 1) = 2 ^ (L - 1 + 1) := by rw [pow_succ]; ring
      _ ≤ 2 ^ 64 := Nat.pow_le_pow_right (by decide) (by omega)
  rw [generateCombinations_mem_iff L (L - k - 1) k 1 (by omega) hbound c, hoz, Nat.one_mul]

theorem popcount_two_pow_add (L w : Nat) (hL1 : 1 ≤ L) (hL : L ≤ 64) (hw : w < 2 ^ (L - 1)) :
    popcount (2 ^ (L - 1) + w) = onesBelow (L - 1) w + 1 := by
  have hlt : 2 ^ (L - 1) + w < 2 ^ L := by
    have : (2 : Nat) ^ L = 2 ^ (L - 1) * 2 := by
      rw [← pow_succ]; congr 1; omega
    omega
  have h := count_matches_split (fun j => (2 ^ (L - 1) + w).testBit j) 64 (L - 1) (by omega)
    (by
      show (2 ^ (L - 1) + w).testBit (L - 1) = true
      rw [Nat.testBit_two_pow_add_eq, Nat.testBit_lt_two_pow hw]; rfl)
    (by
      intro i hi _
      exact testBit_false_of_lt _ L i hlt (by omega))
  unfold popcount
  rw [h]
  have hc := onesBelow_congr (L - 1) (2 ^ (L - 1) + w) w
    (fun j hj => Nat.testBit_two_pow_add_gt hj w)
  unfold onesBelow at hc ⊢
  rw [hc]

theorem size_two_pow_add (L w : Nat) (hL1 : 1 ≤ L) (hw : w < 2 ^ (L - 1)) :
    Nat.size (2 ^ (L - 1) + w) = L := by
  have hlt : 2 ^ (L - 1) + w < 2 ^ L := by
    have : (2 : Nat) ^ L = 2 ^ (L - 1) * 2 := by
      rw [← pow_succ]; congr 1; omega
    omega
  apply le_antisymm
  · exact Nat.size_le.2 hlt
  · have : L - 1 < Nat.size (2 ^ (L - 1) + w) := Nat.lt_size.2 (by omega)
    omega

/-- C12: for `1 ≤ L ≤ 63` and `k ≤ L - 1`, `Combination::generateAllCombinations(L, k)`
has no duplicates, and its elements are exactly the 64-bit words of bit-length `L`
with popcount `L - k` (exactly `k` zero bits among their `L` bits). -/
theorem generateAllCombinations_spec (L k : Nat) (hL1 : 1 ≤ L) (hL : L ≤ 63) (hk : k ≤ L - 1) :
    (Combination.generateAllCombinations L k).Nodup ∧
      ∀ c : Combination, c ∈ Combination.generateAllCombinations L k ↔
        c.sequenceInt < 2 ^ 64 ∧ c.getSize = L ∧ popcount c.sequenceInt = L - k := by
  have hp64 : (2 : Nat) ^ L ≤ 2 ^ 64 := Nat.pow_le_pow_right (by decide) (by omega)
  have hpL : (2 : Nat) ^ L = 2 ^ (L - 1) * 2 := by
    rw [← pow_succ]; congr 1; omega
  constructor
  · rw [generateAllCombinations_eq L k (by omega) (by omega)]
    apply generateCombinations_nodup L (L - k - 1) k 1 (by omega)
    rw [show L - k - 1 + k = L - 1 by omega]
    calc (1 + 1) * 2 ^ (L - 1) = 2 ^ (L - 1) * 2 := by ring
      _ ≤ 2 ^ 64 := by rw [← hpL]; exact hp64
  · intro c
    rw [generateAllCombinations_mem_iff L k hL1 (by omega) hk c]
    constructor
    · rintro ⟨w, hw, hcw, hcount⟩
      have hc64 : c.sequenceInt < 2 ^ 64 := by rw [hcw]; omega
      refine ⟨hc64, ?_, ?_⟩
      · rw [combination_getSize_eq_size c hc64, hcw]
        exact size_two_pow_add L w hL1 hw
      · rw [hcw, popcount_two_pow_add L w hL1 (by omega) hw, hcount]
        omega
    · rintro ⟨hc64, hsize, hpop⟩
      rw [combination_getSize_eq_size c hc64] at hsize
      have hge : 2 ^ (L - 1) ≤ c.sequenceInt := Nat.lt_size.1 (by omega)
      have hlt : c.sequenceInt < 2 ^ L := Nat.size_le.1 (by omega)
      have hw : c.sequenceInt - 2 ^ (L - 1) < 2 ^ (L - 1) := by omega
      have hsplit : c.sequenceInt = 2 ^ (L - 1) + (c.sequenceInt - 2 ^ (L - 1)) := by omega
      refine ⟨c.sequenceInt - 2 ^ (L - 1), hw, hsplit, ?_⟩
      have := popcount_two_pow_add L _ hL1 (by omega) hw
      rw [← hsplit, hpop] at this
      omega

theorem generateAllCombinations_spec_witness :
    (Combination.generateAllCombinations 4 1).Nodup ∧
      ∀ c : Combination, c ∈ Combination.generateAllCombinations 4 1 ↔
        c.sequenceInt < 2 ^ 64 ∧ c.getSize = 4 ∧ popcount c.sequenceInt = 4 - 1 :=
  generateAllCombinations_spec 4 1 (by decide) (by decide) (by decide)

/-- C13: for `1 ≤ L ≤ 63` and `k ≤ L - 1`, the list returned by
`Combination::generateAllCombinations(L, k)` has `C(L - 1, k)` elements. -/
theorem generateAllCombinations_length (L k : Nat) (hL1 : 1 ≤ L) (hL : L ≤ 63)
    (hk : k ≤ L - 1) :
    (Combination.generateAllCombinations L k).length = Nat.choose (L - 1) k := by
  rw [generateAllCombinations_eq L k (by omega) (by omega),
    generateCombinations_length L (L - k - 1) k 1 (by omega)]
  rw [show L - k - 1 + k = L - 1 by omega, show L - k - 1 = L - 1 - k by omega]
  exact Nat.choose_symm hk

theorem generateAllCombinations_length_witness :
    (Combination.generateAllCombinations 10 4).length = Nat.choose (10 - 1) 4 :=
  generateAllCombinations_length 10 4 (by decide) (by decide) (by decide)

/-- C14, as amended: for `1 ≤ L ≤ 64` and `k ≤ L - 1`, every combination returned by
`Combination::generateAllCombinations(L, k)` has its highest bit, bit `L - 1`, equal
to 1. -/
theorem generateAllCombinations_top_bit (L k : Nat) (hL1 : 1 ≤ L) (hL : L ≤ 64)
    (hk : k ≤ L - 1) :
    ∀ c ∈ Combination.generateAllCombinations L k, c.sequenceInt.testBit (L - 1) = true := by
  intro c hc
  obtain ⟨w, hw, hcw, _⟩ := (generateAllCombinations_mem_iff L k hL1 hL hk c).1 hc
  rw [hcw, Nat.testBit_two_pow_add_eq, Nat.testBit_lt_two_pow hw]
  rfl

theorem generateAllCombinations_top_bit_witness :
    Combination.mk 13 ∈ Combination.generateAllCombinations 4 1 ∧
      (Combination.mk 13).sequenceInt.testBit (4 - 1) = true :=
  ⟨by decide,
    generateAllCombinations_top_bit 4 1 (by decide) (by decide) (by decide) (Combination.mk 13)
      (by decide)⟩

/-- C14, as stated, fails: `generateAllCombinations(4, 1)` contains the combination
`0b1110`, whose bit 0 is 0. -/
theorem generateAllCombinations_top_bit_counterexample :
    Combination.mk 14 ∈ Combination.generateAllCombinations 4 1 ∧
      (Combination.mk 14).sequenceInt.testBit 0 = false := by
  decide

end KMismatch

namespace KMismatch

/-! ## Rejected arguments -/

/-- C15 fails on the code: `generateAllForms(4, 5)` has `L - k = -1 < 2`, but the
unsigned difference `length - mismatchK` wraps around to `2 ^ 64 - 1`, the test
`ones < 2` does not fire, and the call returns the three forms of length up to 4. -/
theorem generateAllForms_wraps :
    subU64 4 5 = 2 ^ 64 - 1 ∧
      Form.generateAllForms 4 5 = .ok [Form.mk 3, Form.mk 5, Form.mk 9] := by
  decide

/-- C16 fails on the code: for the query `"ACGT"` and `k = 4 = L`, the call of
`generateAllCombinations(4, 4)` comes before `generateAllForms`; there `ones = 0`,
`ones - 1` wraps around to `2 ^ 64 - 1`, and `generateCombinations` recurses
`2 ^ 64 + 4` levels deep, which no call stack holds: nothing is thrown. -/
theorem build_equal_budget_exhausts_stack :
    maxQueryLength [[65, 67, 71, 84]] = 4 ∧
      subU64 (subU64 4 4) 1 = 2 ^ 64 - 1 ∧
      combinationsCallDepth 4 4 = 2 ^ 64 + 4 ∧
      MCS.buildMCSNaiveMultithreaded [[65, 67, 71, 84]] 4 = .diverged := by
  decide

/-- C17, as amended: when the mismatch budget `k` exceeds `L = max(1, longest query
length)`, constructing the search from `(text, queries, k)` throws "Mismatch number
can not be greater than query length!", so no search exists on which `mcsSearch`
could be called. -/
theorem new_raises_of_budget_gt (text : Str) (queries : List Str) (k : Nat)
    (hk : k > maxQueryLength queries) :
    KMismatchSearch.new text queries k =
      .raised "Mismatch number can not be greater than query length!" := by
  unfold KMismatchSearch.new
  rw [build_raises_of_gt queries k hk]

theorem new_raises_of_budget_gt_witness :
    KMismatchSearch.new [65, 67, 71, 84, 65, 67, 71, 84, 65, 67, 71, 84] [[65, 67, 71, 84]] 5 =
      .raised "Mismatch number can not be greater than query length!" :=
  new_raises_of_budget_gt [65, 67, 71, 84, 65, 67, 71, 84, 65, 67, 71, 84] [[65, 67, 71, 84]] 5
    (by decide)

/-- C17, as stated, fails: for the text `"ACGTACGTACGT"`, the query `"ACGT"` and
`k = 5`, the constructor returns no search. -/
theorem new_raises_of_budget_gt_counterexample :
    ¬ ∃ s, KMismatchSearch.new [65, 67, 71, 84, 65, 67, 71, 84, 65, 67, 71, 84]
        [[65, 67, 71, 84]] 5 = .returned s := by
  rintro ⟨s, hs⟩
  have h : KMismatchSearch.new [65, 67, 71, 84, 65, 67, 71, 84, 65, 67, 71, 84]
      [[65, 67, 71, 84]] 5 =
        .raised "Mismatch number can not be greater than query length!" := by decide
  rw [h] at hs
  cases hs

/-- C19 fails on the code: for an empty query list and `k = 0` the length is `L = 1`,
`generateAllForms(1, 0)` computes `ones = 1 < 2` and throws, so the constructor
throws "Matches per form must be equal or greater than 2!" for every text. -/
theorem new_empty_queries_raises (text : Str) :
    KMismatchSearch.new text [] 0 =
      .raised "Matches per form must be equal or greater than 2!" := by
  have h : MCS.buildMCSNaiveMultithreaded [] 0 =
      .raised "Matches per form must be equal or greater than 2!" := by decide
  unfold KMismatchSearch.new
  rw [h]

/-! ## Searching an empty text -/

theorem foldlM_invariant {α β : Type} (f : β → α → Except String β) (Inv : β → Prop)
    (l : List α) (h : ∀ b, Inv b → ∀ a ∈ l, ∃ b', f b a = .ok b' ∧ Inv b')
    (b : β) (hb : Inv b) : ∃ r, l.foldlM f b = .ok r ∧ Inv r := by
  induction l generalizing b with
  | nil => exact ⟨b, rfl, hb⟩
  | cons a l ih =>
      obtain ⟨b', hfa, hInv⟩ := h b hb a (List.mem_cons_self _ _)
      obtain ⟨r, hr, hrInv⟩ := ih (fun b hb a ha => h b hb a (List.mem_cons_of_mem _ ha)) b' hInv
      exact ⟨r, by rw [List.foldlM_cons, hfa]; exact hr, hrInv⟩

theorem searchQuery_empty_cache (avx2 : Bool) (text : Str) (mcs : MCS) (k : Nat)
    (query : Str) (st : PosMap × PosMap)
    (hst : (∀ key, mapFind st.1 key = []) ∧ st.2 = []) :
    ∃ r, searchQuery avx2 text mcs k st query = .ok r ∧
      ((∀ key, mapFind r.1 key = []) ∧ r.2 = []) := by
  have hforms : ∃ r, mcs.mcsForms.foldlM
      (fun st form => searchWithForm avx2 text query k form st) (st.1, []) = .ok r ∧
      ((∀ key, mapFind r.1 key = []) ∧ r.2 = []) := by
    apply foldlM_invariant _ (fun (s : PosMap × PosMap) => (∀ key, mapFind s.1 key = []) ∧ s.2 = [])
      mcs.mcsForms _ (st.1, []) ⟨hst.1, rfl⟩
    intro b hb form _
    unfold searchWithForm
    apply foldlM_invariant _
      (fun (s : PosMap × PosMap) => (∀ key, mapFind s.1 key = []) ∧ s.2 = [])
      (List.range (query.length + 1 - form.getSize)) _ b hb
    intro b' hb' qPos _
    have hfind : ∀ key, mapFind (mapUpdate b'.1 (form.getStringFromPosition query qPos) id) key
        = [] := by
      intro key
      rw [mapFind_mapUpdate]
      by_cases hkey : key = form.getStringFromPosition query qPos
      · rw [if_pos hkey]; exact hb'.1 _
      · rw [if_neg hkey]; exact hb'.1 _
    refine ⟨(mapUpdate b'.1 (form.getStringFromPosition query qPos) id, b'.2), ?_, hfind, hb'.2⟩
    simp only [hfind, checkCandidates, List.foldlM_nil, bind, Except.bind, pure, Except.pure]
  obtain ⟨r, hr, hrInv⟩ := hforms
  refine ⟨(r.1, mergeInto st.2 r.2), ?_, hrInv.1, ?_⟩
  · unfold searchQuery
    simp only [hr, bind, Except.bind, pure, Except.pure]
  · show mergeInto st.2 r.2 = []
    rw [hst.2, hrInv.2]
    rfl

/-- C18: for an empty text and a search whose index holds no position (as after
construction, or after earlier searches of the empty text), for any query list, any
MCS and any `k`, `mcsSearch(k)` and `naiveSearch(k)` both return the empty map. -/
theorem search_empty_text (s : KMismatchSearch) (avx2 : Bool) (k : Nat)
    (htext : s.text = []) (hcache : ∀ key, mapFind s.cache key = []) :
    s.mcsSearch avx2 k = .ok [] ∧ s.naiveSearch avx2 k = .ok [] := by
  constructor
  · have hbuild : s.cacheAfterBuild = s.cache := by
      unfold KMismatchSearch.cacheAfterBuild buildCache
      rw [htext]
      by_cases he : s.cache.isEmpty = true
      · rw [if_pos he]; rfl
      · rw [if_neg he]
    obtain ⟨r, hr, _, hr2⟩ := foldlM_invariant (searchQuery avx2 s.text s.mcs k)
      (fun (st : PosMap × PosMap) => (∀ key, mapFind st.1 key = []) ∧ st.2 = [])
      s.queries
      (fun b hb query _ => searchQuery_empty_cache avx2 s.text s.mcs k query b hb)
      (s.cacheAfterBuild, []) ⟨by intro key; rw [hbuild]; exact hcache key, rfl⟩
    unfold KMismatchSearch.mcsSearch KMismatchSearch.mcsSearchRun
    rw [hr]
    show Except.ok r.2 = Except.ok []
    rw [hr2]
  · unfold KMismatchSearch.naiveSearch
    rw [htext]
    rfl

theorem search_empty_text_witness :
    ∃ s, KMismatchSearch.new [] [[65, 67, 71, 84]] 0 = .returned s ∧
      s.mcsSearch false 0 = .ok [] ∧ s.naiveSearch false 0 = .ok [] :=
  ⟨{ text := [], queries := [[65, 67, 71, 84]], cache := [], mcs := MCS.mk [Form.mk 3] },
    by decide,
    search_empty_text
      { text := [], queries := [[65, 67, 71, 84]], cache := [], mcs := MCS.mk [Form.mk 3] }
      false 0 rfl (fun _ => rfl)⟩

/-! ## Scenario S1 -/

/-- C20, as amended: for the text `"ACGTACGTACGT"`, the queries `"ACGT"`, `"CGTA"`,
`"TACG"` and `k = 1`, the map returned by `mcsSearch(1)` has exactly three keys;
`"ACGT"` maps to `{0, 4, 8}`, `"CGTA"` to `{1, 5}` and `"TACG"` to `{3, 7}`; and
`naiveSearch(1)` returns the same map. -/
theorem scenario_S1 (avx2 : Bool) :
    ∃ s, KMismatchSearch.new [65, 67, 71, 84, 65, 67, 71, 84, 65, 67, 71, 84]
        [[65, 67, 71, 84], [67, 71, 84, 65], [84, 65, 67, 71]] 1 = .returned s ∧
      s.mcsSearch avx2 1 =
        .ok [([65, 67, 71, 84], [0, 4, 8]), ([67, 71, 84, 65], [1, 5]),
          ([84, 65, 67, 71], [3, 7])] ∧
      s.naiveSearch avx2 1 =
        .ok [([65, 67, 71, 84], [0, 4, 8]), ([67, 71, 84, 65], [1, 5]),
          ([84, 65, 67, 71], [3, 7])] := by
  refine ⟨{ text := [65, 67, 71, 84, 65, 67, 71, 84, 65, 67, 71, 84],
            queries := [[65, 67, 71, 84], [67, 71, 84, 65], [84, 65, 67, 71]],
            cache := [], mcs := MCS.mk [Form.mk 3] }, by decide, ?_, ?_⟩
  · cases avx2 <;> decide
  · cases avx2 <;> decide

/-- C20, as stated, fails: in the map returned by `mcsSearch(1)` the queries `"CGTA"`
and `"TACG"` have two positions each, not three (a window at position 9 or 11 would
end after the text). -/
theorem scenario_S1_counterexample :
    ∃ s r, KMismatchSearch.new [65, 67, 71, 84, 65, 67, 71, 84, 65, 67, 71, 84]
        [[65, 67, 71, 84], [67, 71, 84, 65], [84, 65, 67, 71]] 1 = .returned s ∧
      s.mcsSearch false 1 = .ok r ∧
      (mapFind r [67, 71, 84, 65]).length = 2 ∧ (mapFind r [84, 65, 67, 71]).length = 2 :=
  ⟨{ text := [65, 67, 71, 84, 65, 67, 71, 84, 65, 67, 71, 84],
     queries := [[65, 67, 71, 84], [67, 71, 84, 65], [84, 65, 67, 71]],
     cache := [], mcs := MCS.mk [Form.mk 3] },
    [([65, 67, 71, 84], [0, 4, 8]), ([67, 71, 84, 65], [1, 5]), ([84, 65, 67, 71], [3, 7])],
    by decide, by decide, by decide, by decide⟩

end KMismatch

namespace KMismatch

/-! ## The verifier at the full budget, out of bounds, and under a larger budget -/

theorem mismatchCount_le (text query : Str) (pos : Nat) :
    mismatchCount text query pos ≤ query.length := by
  unfold mismatchCount
  have h := List.length_filter_le (fun i => decide (query[i]? ≠ text[pos + i]?))
    (List.range query.length)
  rw [List.length_range] at h
  exact h

/-- C21, as amended: on the scalar verification path, for a text of fewer than `2 ^ 63`
bytes, queries that all have length `k` and the budget `k`, the verifier accepts every
position `p` with `p + |q| ≤ |T|`, and `naiveSearch(k)` returns a map in which every
query holds exactly the positions `p < |T|` with `p + |q| ≤ |T|`. -/
theorem full_budget_accepts (s : KMismatchSearch) (avx2 : Bool) (k : Nat)
    (hlen : ∀ q ∈ s.queries, q.length = k) (hpath : avx2 = false ∨ k < 32)
    (hT : s.text.length < 2 ^ 63) :
    (∀ q ∈ s.queries, ∀ p : Nat, p + q.length ≤ s.text.length →
        CheckQueryOnPosition avx2 s.text q (p : Int) k = .ok true) ∧
      ∃ r, s.naiveSearch avx2 k = .ok r ∧
        ∀ q ∈ s.queries, ∀ p, p ∈ mapFind r q ↔
          p < s.text.length ∧ p + q.length ≤ s.text.length := by
  constructor
  · intro q hq p hp
    have hqk := hlen q hq
    rw [CheckQueryOnPosition_short avx2 s.text q p k (by rw [hqk]; exact hpath),
      CheckQueryOnPosition_scalar s.text q p k hp (by omega)]
    have hle := mismatchCount_le s.text q p
    rw [decide_eq_true (by omega)]
  · obtain ⟨r, hr, _, hmem⟩ := naiveSearch_spec s avx2 k
      (by
        rcases hpath with h | h
        · exact Or.inl h
        · right; intro q hq; rw [hlen q hq]; exact h)
      hT (fun q hq => by rw [hlen q hq])
    refine ⟨r, hr, ?_⟩
    intro q hq p
    rw [hmem q p]
    have hle := mismatchCount_le s.text q p
    have hqk := hlen q hq
    constructor
    · rintro ⟨_, h1, h2, _⟩; exact ⟨h1, h2⟩
    · rintro ⟨h1, h2⟩; exact ⟨hq, h1, h2, by omega⟩

theorem full_budget_accepts_witness :
    (∀ q ∈ [[65, 67, 71, 84]], ∀ p : Nat, p + q.length ≤ 5 →
        CheckQueryOnPosition false [84, 84, 84, 84, 84] q (p : Int) 4 = .ok true) ∧
      ∃ r, KMismatchSearch.naiveSearch
          { text := [84, 84, 84, 84, 84], queries := [[65, 67, 71, 84]], cache := [],
            mcs := MCS.mk [] } false 4 = .ok r ∧
        ∀ q ∈ [[65, 67, 71, 84]], ∀ p, p ∈ mapFind r q ↔ p < 5 ∧ p + q.length ≤ 5 :=
  full_budget_accepts
    { text := [84, 84, 84, 84, 84], queries := [[65, 67, 71, 84]], cache := [],
      mcs := MCS.mk [] } false 4
    (by intro q hq; simp only [List.mem_singleton] at hq; rw [hq]; rfl)
    (Or.inl rfl) (by decide)

/-- C21, as stated, fails in two ways.  For the empty query, the text `"A"` and
`k = 0`, position 1 is in bounds and accepted by the verifier, but `naiveSearch(0)`
reports position 0 only.  With the AVX2 branch, the query of 32 zero bytes and the
text of 31 zero bytes and one byte `0x80`, the verifier rejects position 0 under the
budget `k = 32 = |q|`. -/
theorem full_budget_accepts_counterexample :
    (1 + ([] : Str).length ≤ ([65] : Str).length ∧
      CheckQueryOnPosition false [65] [] (1 : Int) 0 = .ok true ∧
      KMismatchSearch.naiveSearch
        { text := [65], queries := [[]], cache := [], mcs := MCS.mk [] } false 0 =
          .ok [([], [0])]) ∧
      (0 + (List.replicate 32 (0 : UInt8)).length ≤
          (List.replicate 31 (0 : UInt8) ++ [128]).length ∧
        CheckQueryOnPosition true (List.replicate 31 0 ++ [128]) (List.replicate 32 0)
          (0 : Int) 32 = .ok false) := by
  decide

/-! ## Out-of-bounds positions -/

/-- C23, as amended: at a position that is out of bounds (`pos < 0` or
`pos + |query| > |text|`), `CheckQueryOnPosition` returns false without an error for
every `k ≤ |query|`, and for every `k > |query|` it throws "Mismatch number can not be
greater than query length!". -/
theorem CheckQueryOnPosition_out_of_bounds (avx2 : Bool) (text query : Str) (position : Int)
    (k : Nat) (hout : position < 0 ∨ position + query.length > text.length) :
    (k ≤ query.length → CheckQueryOnPosition avx2 text query position k = .ok false) ∧
      (query.length < k → CheckQueryOnPosition avx2 text query position k =
        .error "Mismatch number can not be greater than query length!") := by
  constructor
  · intro hk
    unfold CheckQueryOnPosition
    rw [if_neg (by omega), if_pos]
    rcases hout with h | h
    · exact Or.inl h
    · by_cases hneg : position < 0
      · exact Or.inl hneg
      · right
        have : ((position.toNat : Nat) : Int) = position := Int.toNat_of_nonneg (by omega)
        omega
  · intro hk
    unfold CheckQueryOnPosition
    rw [if_pos hk]

theorem CheckQueryOnPosition_out_of_bounds_witness :
    CheckQueryOnPosition false [65, 67, 71, 84] [65, 67] (-1) 1 = .ok false ∧
      CheckQueryOnPosition false [65, 67, 71, 84] [65, 67] 3 2 = .ok false :=
  ⟨(CheckQueryOnPosition_out_of_bounds false [65, 67, 71, 84] [65, 67] (-1) 1
      (Or.inl (by decide))).1 (by decide),
    (CheckQueryOnPosition_out_of_bounds false [65, 67, 71, 84] [65, 67] 3 2
      (Or.inr (by decide))).1 (by decide)⟩

/-- C23, as stated, fails: at the out-of-bounds position `-1` of the text `"ACGT"`,
the query `"AC"` and `k = 3 > |query|` make `CheckQueryOnPosition` throw. -/
theorem CheckQueryOnPosition_out_of_bounds_counterexample :
    CheckQueryOnPosition false [65, 67, 71, 84] [65, 67] (-1) 3 =
      .error "Mismatch number can not be greater than query length!" := by
  decide

/-! ## Monotonicity in the budget -/

theorem simdLoop_mono (text query : Str) (position : Nat) (fuel : Nat) :
    ∀ (i m1 m2 : Nat) (r : Nat × Nat), m1 ≤ m2 →
      simdLoop text query position fuel i m1 = some r →
        simdLoop text query position fuel i m2 = some (r.1, r.2 + (m2 - m1)) := by
  induction fuel with
  | zero =>
      intro i m1 m2 r h12 h
      simp only [simdLoop, Option.some.injEq] at h ⊢
      rw [← h]
      simp only [Prod.mk.injEq, true_and]
      omega
  | succ fuel ih =>
      intro i m1 m2 r h12 h
      unfold simdLoop at h ⊢
      by_cases hi : i + 32 ≤ query.length
      · rw [if_pos hi] at h ⊢
        simp only at h ⊢
        split at h
        · rename_i hany
          rw [if_pos hany]
          split at h
          · cases h
          · rename_i hnum
            rw [if_neg (by omega)]
            have := ih _ _ (m2 - popcount (intToSizeT (movemask (List.zipWith (fun a b => a ^^^ b)
              (List.take 32 (List.drop (position + i) text))
              (List.take 32 (List.drop i query)))))) r (by omega) h
            rw [this]
            congr 2
            omega
        · rename_i hany
          rw [if_neg hany]
          exact ih _ _ _ r h12 h
      · rw [if_neg hi] at h ⊢
        simp only [Option.some.injEq] at h ⊢
        rw [← h]
        simp only [Prod.mk.injEq, true_and]
        omega

theorem scalarLoop_mono (text query : Str) (position fuel i m1 m2 : Nat) (h12 : m1 ≤ m2)
    (h : scalarLoop text query position fuel i m1 = true) :
    scalarLoop text query position fuel i m2 = true := by
  rw [scalarLoop_eq] at h ⊢
  rw [decide_eq_true_eq] at h ⊢
  omega

theorem CheckQueryOnPosition_returns (avx2 : Bool) (text query : Str) (position : Int)
    (k : Nat) (hk : k ≤ query.length) :
    ∃ b, CheckQueryOnPosition avx2 text query position k = .ok b := by
  unfold CheckQueryOnPosition
  rw [if_neg (by omega)]
  split
  · exact ⟨_, rfl⟩
  · split
    · exact ⟨_, rfl⟩
    · exact ⟨_, rfl⟩

theorem CheckQueryOnPosition_mono (avx2 : Bool) (text query : Str) (position : Int)
    (k1 k2 : Nat) (h12 : k1 ≤ k2) (hk : k2 ≤ query.length)
    (h : CheckQueryOnPosition avx2 text query position k1 = .ok true) :
    CheckQueryOnPosition avx2 text query position k2 = .ok true := by
  unfold CheckQueryOnPosition at h ⊢
  rw [if_neg (by omega)] at h ⊢
  by_cases hout : position < 0 ∨ position.toNat + query.length > text.length
  · rw [if_pos hout] at h
    cases h
  · rw [if_neg hout] at h ⊢
    cases avx2 with
    | false =>
        simp only [Bool.false_eq_true, if_false] at h ⊢
        rw [Except.ok.injEq] at h ⊢
        exact scalarLoop_mono _ _ _ _ _ _ _ h12 h
    | true =>
        simp only [if_true] at h ⊢
        cases hs : simdLoop text query position.toNat (query.length / 32) 0 k1 with
        | none =>
            rw [hs] at h
            cases h
        | some r =>
            rw [hs] at h
            rw [simdLoop_mono text query position.toNat _ 0 k1 k2 r h12 hs]
            simp only at h ⊢
            rw [Except.ok.injEq] at h ⊢
            exact scalarLoop_mono _ _ _ _ _ _ _ (by omega) h

theorem foldlM_related {α β ε : Type} (f g : β → α → Except ε β) (R : β → β → Prop)
    (l : List α)
    (h : ∀ b1 b2, R b1 b2 → ∀ a ∈ l,
      ∃ r1 r2, f b1 a = .ok r1 ∧ g b2 a = .ok r2 ∧ R r1 r2)
    (b1 b2 : β) (hb : R b1 b2) :
    ∃ r1 r2, l.foldlM f b1 = .ok r1 ∧ l.foldlM g b2 = .ok r2 ∧ R r1 r2 := by
  induction l generalizing b1 b2 with
  | nil => exact ⟨b1, b2, rfl, rfl, hb⟩
  | cons a l ih =>
      obtain ⟨r1, r2, h1, h2, hR⟩ := h b1 b2 hb a (List.mem_cons_self _ _)
      obtain ⟨s1, s2, hs1, hs2, hS⟩ :=
        ih (fun b1 b2 hb a ha => h b1 b2 hb a (List.mem_cons_of_mem _ ha)) r1 r2 hR
      refine ⟨s1, s2, ?_, ?_, hS⟩
      · rw [List.foldlM_cons, h1]; exact hs1
      · rw [List.foldlM_cons, h2]; exact hs2

/-- C22: for budgets `k1 ≤ k2 ≤ min |q|`, on either verification path, `naiveSearch(k1)`
and `naiveSearch(k2)` both return, every position reported for a query by the first is
reported for it by the second, and a position that `CheckQueryOnPosition` accepts under
`k1` is accepted under `k2`. -/
theorem naiveSearch_monotone (s : KMismatchSearch) (avx2 : Bool) (k1 k2 : Nat)
    (h12 : k1 ≤ k2) (hk : ∀ q ∈ s.queries, k2 ≤ q.length) :
    (∃ r1 r2, s.naiveSearch avx2 k1 = .ok r1 ∧ s.naiveSearch avx2 k2 = .ok r2 ∧
        ∀ q p, p ∈ mapFind r1 q → p ∈ mapFind r2 q) ∧
      ∀ q ∈ s.queries, ∀ position : Int,
        CheckQueryOnPosition avx2 s.text q position k1 = .ok true →
          CheckQueryOnPosition avx2 s.text q position k2 = .ok true := by
  constructor
  · unfold KMismatchSearch.naiveSearch
    apply foldlM_related _ _ (fun (m1 m2 : PosMap) => ∀ q p, p ∈ mapFind m1 q → p ∈ mapFind m2 q)
    · intro b1 b2 hb i _
      apply foldlM_related _ _
        (fun (m1 m2 : PosMap) => ∀ q p, p ∈ mapFind m1 q → p ∈ mapFind m2 q)
      · intro m1 m2 hm query hquery
        obtain ⟨hit1, h1⟩ := CheckQueryOnPosition_returns avx2 s.text query (toInt64 i) k1
          (le_trans h12 (hk query hquery))
        obtain ⟨hit2, h2⟩ := CheckQueryOnPosition_returns avx2 s.text query (toInt64 i) k2
          (hk query hquery)
        refine ⟨_, _, by rw [h1]; rfl, by rw [h2]; rfl, ?_⟩
        intro q p hp
        cases hit1 with
        | false =>
            simp only [Bool.false_eq_true, if_false] at hp
            have hp2 := hm q p hp
            cases hit2 with
            | false => simpa using hp2
            | true =>
                simp only [if_true]
                rw [mapFind_mapUpdate]
                by_cases hq : q = query
                · rw [if_pos hq, mem_setInsert]; right; rw [← hq]; exact hp2
                · rw [if_neg hq]; exact hp2
        | true =>
            have h2t := CheckQueryOnPosition_mono avx2 s.text query (toInt64 i) k1 k2 h12
              (hk query hquery) h1
            rw [h2] at h2t
            have : hit2 = true := Except.ok.inj h2t
            subst this
            simp only [if_true] at hp ⊢
            rw [mapFind_mapUpdate] at hp ⊢
            by_cases hq : q = query
            · rw [if_pos hq, mem_setInsert] at hp ⊢
              rcases hp with hp | hp
              · exact Or.inl hp
              · exact Or.inr (hm _ _ hp)
            · rw [if_neg hq] at hp ⊢
              exact hm _ _ hp
      · exact hb
    · intro q p hp; exact hp
  · intro q hq position h
    exact CheckQueryOnPosition_mono avx2 s.text q position k1 k2 h12 (hk q hq) h

theorem naiveSearch_monotone_witness :
    (∃ r1 r2,
        KMismatchSearch.naiveSearch
          { text := [65, 65, 65, 65, 65], queries := [[65, 65, 66]], cache := [],
            mcs := MCS.mk [] } false 0 = .ok r1 ∧
        KMismatchSearch.naiveSearch
          { text := [65, 65, 65, 65, 65], queries := [[65, 65, 66]], cache := [],
            mcs := MCS.mk [] } false 1 = .ok r2 ∧
        ∀ q p, p ∈ mapFind r1 q → p ∈ mapFind r2 q) ∧
      ∀ q ∈ [[65, 65, 66]], ∀ position : Int,
        CheckQueryOnPosition false [65, 65, 65, 65, 65] q position 0 = .ok true →
          CheckQueryOnPosition false [65, 65, 65, 65, 65] q position 1 = .ok true :=
  naiveSearch_monotone
    { text := [65, 65, 65, 65, 65], queries := [[65, 65, 66]], cache := [],
      mcs := MCS.mk [] } false 0 1 (by decide)
    (by intro q hq; simp only [List.mem_singleton] at hq; rw [hq]; decide)

end KMismatch

namespace KMismatch

/-! ## The greedy choice -/

theorem betterPair_dominates (a b : Form × Nat) :
    (a.2 < (betterPair a b).2 ∨
        (a.2 = (betterPair a b).2 ∧ (betterPair a b).1.sequenceInt ≤ a.1.sequenceInt)) ∧
      (b.2 < (betterPair a b).2 ∨
        (b.2 = (betterPair a b).2 ∧ (betterPair a b).1.sequenceInt ≤ b.1.sequenceInt)) := by
  unfold betterPair
  by_cases h : a.2 = b.2
  · rw [if_pos h]
    by_cases h2 : a.1.sequenceInt < b.1.sequenceInt
    · rw [if_pos h2]
      exact ⟨Or.inr ⟨rfl, le_refl _⟩, Or.inr ⟨h.symm, le_of_lt h2⟩⟩
    · rw [if_neg h2]
      exact ⟨Or.inr ⟨h, by omega⟩, Or.inr ⟨rfl, le_refl _⟩⟩
  · rw [if_neg h]
    by_cases h2 : a.2 > b.2
    · rw [if_pos h2]
      exact ⟨Or.inr ⟨rfl, le_refl _⟩, Or.inl h2⟩
    · rw [if_neg h2]
      exact ⟨Or.inl (by omega), Or.inr ⟨rfl, le_refl _⟩⟩

theorem best_fold_dominates (combinations : List Combination) (l : List Form) :
    ∀ acc : Form × Nat,
      (acc.2 < (l.foldl (fun acc form =>
            betterPair acc (form, countContaining combinations form)) acc).2 ∨
        (acc.2 = (l.foldl (fun acc form =>
            betterPair acc (form, countContaining combinations form)) acc).2 ∧
          (l.foldl (fun acc form =>
            betterPair acc (form, countContaining combinations form)) acc).1.sequenceInt ≤
              acc.1.sequenceInt)) ∧
      ∀ g ∈ l,
        countContaining combinations g < (l.foldl (fun acc form =>
            betterPair acc (form, countContaining combinations form)) acc).2 ∨
        (countContaining combinations g = (l.foldl (fun acc form =>
            betterPair acc (form, countContaining combinations form)) acc).2 ∧
          (l.foldl (fun acc form =>
            betterPair acc (form, countContaining combinations form)) acc).1.sequenceInt ≤
              g.sequenceInt) := by
  induction l with
  | nil =>
      intro acc
      refine ⟨Or.inr ⟨rfl, le_refl _⟩, ?_⟩
      intro g hg; cases hg
  | cons f l ih =>
      intro acc
      rw [List.foldl_cons]
      obtain ⟨hacc, hl⟩ := ih (betterPair acc (f, countContaining combinations f))
      obtain ⟨ha, hf⟩ := betterPair_dominates acc (f, countContaining combinations f)
      simp only at hf
      refine ⟨?_, ?_⟩
      · rcases ha with ha | ⟨ha1, ha2⟩ <;> rcases hacc with hacc | ⟨hacc1, hacc2⟩
        · left; omega
        · left; omega
        · left; omega
        · right; exact ⟨by omega, by omega⟩
      · intro g hg
        rcases List.mem_cons.1 hg with rfl | hg
        · rcases hf with hf | ⟨hf1, hf2⟩ <;> rcases hacc with hacc | ⟨hacc1, hacc2⟩
          · left; omega
          · left; omega
          · left; omega
          · right; exact ⟨by omega, by omega⟩
        · exact hl g hg

theorem best_is_greedy (forms : List Form) (hne : forms ≠ []) (combinations : List Combination) :
    (bestFormToCombinationNumberPair forms combinations).1 ∈ forms ∧
      (∀ g ∈ forms, countContaining combinations g ≤
        countContaining combinations (bestFormToCombinationNumberPair forms combinations).1) ∧
      ∀ g ∈ forms, countContaining combinations g =
          countContaining combinations (bestFormToCombinationNumberPair forms combinations).1 →
        (bestFormToCombinationNumberPair forms combinations).1.sequenceInt ≤ g.sequenceInt := by
  have hmem := best_mem forms combinations hne
  obtain ⟨_, hdom⟩ := best_fold_dominates combinations forms (forms.headD (Form.mk 0), 0)
  have hsnd : (bestFormToCombinationNumberPair forms combinations).2 =
      countContaining combinations (bestFormToCombinationNumberPair forms combinations).1 := by
    obtain ⟨_, _, h3⟩ := best_fold combinations forms (forms.headD (Form.mk 0), 0)
    rcases h3 with h3 | ⟨g, _, h3⟩
    · have hhead : forms.headD (Form.mk 0) ∈ forms := by
        cases forms with
        | nil => exact absurd rfl hne
        | cons a rest => exact List.mem_cons_self _ _
      have hd := hdom _ hhead
      unfold bestFormToCombinationNumberPair
      rw [h3] at hd ⊢
      simp only at hd ⊢
      omega
    · unfold bestFormToCombinationNumberPair
      rw [h3]
  refine ⟨hmem, ?_, ?_⟩
  · intro g hg
    have hd := hdom g hg
    unfold bestFormToCombinationNumberPair at hsnd ⊢
    omega
  · intro g hg heq
    have hd := hdom g hg
    unfold bestFormToCombinationNumberPair at hsnd heq ⊢
    omega

/-- C27: in a round of the loop of `buildMCSNaiveMultithreaded` (candidate forms
`forms`, remaining combinations `c :: cs`), the form `best` that is appended to the
MCS is a candidate with the largest number of remaining combinations containing it,
no candidate with the same number has a smaller integer, and the loop goes on with
exactly the combinations that do not contain `best`. -/
theorem greedy_choice (forms : List Form) (hne : forms ≠ []) (fuel : Nat) (c : Combination)
    (cs : List Combination) (mcsForms : List Form) :
    ∃ best, best = (bestFormToCombinationNumberPair forms (c :: cs)).1 ∧ best ∈ forms ∧
      (∀ g ∈ forms, countContaining (c :: cs) g ≤ countContaining (c :: cs) best) ∧
      (∀ g ∈ forms, countContaining (c :: cs) g = countContaining (c :: cs) best →
        best.sequenceInt ≤ g.sequenceInt) ∧
      coverLoop forms (fuel + 1) (c :: cs) mcsForms =
        coverLoop forms fuel ((c :: cs).filter (fun x => !x.contains best))
          (mcsForms ++ [best]) ∧
      ∀ x, x ∈ (c :: cs).filter (fun x => !x.contains best) ↔
        x ∈ c :: cs ∧ x.contains best = false := by
  obtain ⟨h1, h2, h3⟩ := best_is_greedy forms hne (c :: cs)
  refine ⟨_, rfl, h1, h2, h3, rfl, ?_⟩
  intro x
  rw [List.mem_filter]
  simp only [Bool.not_eq_true', List.mem_cons]

theorem greedy_choice_witness :
    ∃ best, best = (bestFormToCombinationNumberPair [Form.mk 3, Form.mk 5, Form.mk 9]
        (Combination.mk 12 :: [Combination.mk 10, Combination.mk 9])).1 ∧
      best ∈ [Form.mk 3, Form.mk 5, Form.mk 9] ∧
      (∀ g ∈ [Form.mk 3, Form.mk 5, Form.mk 9],
        countContaining (Combination.mk 12 :: [Combination.mk 10, Combination.mk 9]) g ≤
          countContaining (Combination.mk 12 :: [Combination.mk 10, Combination.mk 9]) best) ∧
      (∀ g ∈ [Form.mk 3, Form.mk 5, Form.mk 9],
        countContaining (Combination.mk 12 :: [Combination.mk 10, Combination.mk 9]) g =
            countContaining (Combination.mk 12 :: [Combination.mk 10, Combination.mk 9]) best →
          best.sequenceInt ≤ g.sequenceInt) ∧
      coverLoop [Form.mk 3, Form.mk 5, Form.mk 9] (2 + 1)
          (Combination.mk 12 :: [Combination.mk 10, Combination.mk 9]) [] =
        coverLoop [Form.mk 3, Form.mk 5, Form.mk 9] 2
          ((Combination.mk 12 :: [Combination.mk 10, Combination.mk 9]).filter
            (fun x => !x.contains best))
          ([] ++ [best]) ∧
      ∀ x, x ∈ (Combination.mk 12 :: [Combination.mk 10, Combination.mk 9]).filter
          (fun x => !x.contains best) ↔
        x ∈ Combination.mk 12 :: [Combination.mk 10, Combination.mk 9] ∧
          x.contains best = false :=
  greedy_choice [Form.mk 3, Form.mk 5, Form.mk 9] (by decide) 2 (Combination.mk 12)
    [Combination.mk 10, Combination.mk 9] []

/-! ## The sampling convention -/

/-- C28, as amended: the form with integer value `0b10011` has size 5, and for every
string `str` and `pos` with `pos + 5 ≤ |str|`, `getStringFromPosition(str, pos)` samples
the characters at the offsets of its one-bits counted from bit 0, that is `+0`, `+1`
and `+4`: it returns `str[pos]`, `str[pos+1]`, `'_'`, `'_'`, `str[pos+4]`. -/
theorem getStringFromPosition_0b10011 (str : Str) (pos : Nat) (h : pos + 5 ≤ str.length) :
    (Form.mk 0b10011).getSize = 5 ∧
      (Form.mk 0b10011).getStringFromPosition str pos =
        [str[pos], str[pos + 1], placeholder, placeholder, str[pos + 4]] := by
  have hsize : (Form.mk 0b10011).getSize = 5 := by decide
  refine ⟨hsize, ?_⟩
  unfold Form.getStringFromPosition
  rw [hsize]
  have h0 : str.getD pos 0 = str[pos] := by
    rw [List.getD_eq_getElem?_getD, List.getElem?_eq_getElem (by omega)]; rfl
  have h1 : str.getD (pos + 1) 0 = str[pos + 1] := by
    rw [List.getD_eq_getElem?_getD, List.getElem?_eq_getElem (by omega)]; rfl
  have h4 : str.getD (pos + 4) 0 = str[pos + 4] := by
    rw [List.getD_eq_getElem?_getD, List.getElem?_eq_getElem (by omega)]; rfl
  simp only [extractLoop]
  rw [← h0, ← h1, ← h4]
  simp

theorem getStringFromPosition_0b10011_witness :
    (Form.mk 0b10011).getSize = 5 ∧
      (Form.mk 0b10011).getStringFromPosition [65, 66, 67, 68, 69] 0 =
        [65, 66, placeholder, placeholder, 69] :=
  getStringFromPosition_0b10011 [65, 66, 67, 68, 69] 0 (by decide)

/-- C28, as stated, fails: on the string `"ABCDE"` at position 0 the form `0b10011`
returns `"AB__E"`, not `"A__DE"`. -/
theorem getStringFromPosition_0b10011_counterexample :
    (Form.mk 0b10011).getStringFromPosition [65, 66, 67, 68, 69] 0 = [65, 66, 95, 95, 69] ∧
      (Form.mk 0b10011).getStringFromPosition [65, 66, 67, 68, 69] 0 ≠ [65, 95, 95, 68, 69] := by
  decide

end KMismatch

namespace KMismatch

/-! ## Reuse of the index by a second search -/

theorem foldlM_preserves {α β ε : Type} (f : β → α → Except ε β) (Inv : β → Prop)
    (l : List α) (h : ∀ b a b', Inv b → a ∈ l → f b a = .ok b' → Inv b')
    (b r : β) (hb : Inv b) (hr : l.foldlM f b = .ok r) : Inv r := by
  induction l generalizing b with
  | nil =>
      have : b = r := Except.ok.inj hr
      rw [← this]; exact hb
  | cons a l ih =>
      rw [List.foldlM_cons] at hr
      cases hfa : f b a with
      | error e => rw [hfa] at hr; cases hr
      | ok b' =>
          rw [hfa] at hr
          exact ih (fun b a b' hb ha => h b a b' hb (List.mem_cons_of_mem _ ha)) b'
            (h b a b' hb (List.mem_cons_self _ _) hfa) hr

theorem foldlM_transfer {α β ε : Type} (f : β → α → Except ε β) (R : β → β → Prop)
    (l : List α)
    (h : ∀ b1 b2 r1, R b1 b2 → ∀ a ∈ l, f b1 a = .ok r1 → ∃ r2, f b2 a = .ok r2 ∧ R r1 r2)
    (b1 b2 r1 : β) (hb : R b1 b2) (hr : l.foldlM f b1 = .ok r1) :
    ∃ r2, l.foldlM f b2 = .ok r2 ∧ R r1 r2 := by
  induction l generalizing b1 b2 with
  | nil =>
      have : b1 = r1 := Except.ok.inj hr
      exact ⟨b2, rfl, by rw [← this]; exact hb⟩
  | cons a l ih =>
      rw [List.foldlM_cons] at hr
      cases hfa : f b1 a with
      | error e => rw [hfa] at hr; cases hr
      | ok b1' =>
          rw [hfa] at hr
          obtain ⟨b2', h2, hR⟩ := h b1 b2 b1' hb a (List.mem_cons_self _ _) hfa
          obtain ⟨r2, hr2, hR2⟩ :=
            ih (fun b1 b2 r1 hb a ha => h b1 b2 r1 hb a (List.mem_cons_of_mem _ ha)) b1' b2' hR hr
          exact ⟨r2, by rw [List.foldlM_cons, h2]; exact hr2, hR2⟩

theorem mapUpdate_ne_nil (m : PosMap) (key : Str) (f : List Nat → List Nat) :
    mapUpdate m key f ≠ [] := by
  cases m with
  | nil => simp [mapUpdate]
  | cons e rest =>
      obtain ⟨k, v⟩ := e
      unfold mapUpdate
      split <;> simp

theorem sameLookups_mapUpdate_id (m : PosMap) (key : Str) :
    SameLookups (mapUpdate m key id) m := by
  intro key'
  rw [mapFind_mapUpdate]
  by_cases h : key' = key
  · rw [if_pos h, h]; rfl
  · rw [if_neg h]

theorem searchWithForm_step (avx2 : Bool) (text query : Str) (k : Nat) (form : Form)
    (st : PosMap × PosMap) (qPos : Nat) :
    (do
      let key := form.getStringFromPosition query qPos
      let cache := mapUpdate st.1 key id
      let m ← checkCandidates avx2 text query qPos k (mapFind cache key) st.2
      pure (cache, m) : Except String (PosMap × PosMap)) =
    match checkCandidates avx2 text query qPos k
        (mapFind st.1 (form.getStringFromPosition query qPos)) st.2 with
    | .error e => .error e
    | .ok m => .ok (mapUpdate st.1 (form.getStringFromPosition query qPos) id, m) := by
  have hfind := sameLookups_mapUpdate_id st.1 (form.getStringFromPosition query qPos)
    (form.getStringFromPosition query qPos)
  simp only [hfind, bind, Except.bind, pure, Except.pure]
  cases checkCandidates avx2 text query qPos k
    (mapFind st.1 (form.getStringFromPosition query qPos)) st.2 <;> rfl

theorem searchWithForm_preserves (avx2 : Bool) (text query : Str) (k : Nat) (form : Form)
    (cache0 : PosMap) (st r : PosMap × PosMap)
    (hst : SameLookups st.1 cache0 ∧ (st.1 = cache0 ∨ st.1 ≠ []))
    (hr : searchWithForm avx2 text query k form st = .ok r) :
    SameLookups r.1 cache0 ∧ (r.1 = cache0 ∨ r.1 ≠ []) := by
  unfold searchWithForm at hr
  refine foldlM_preserves _
    (fun (s : PosMap × PosMap) => SameLookups s.1 cache0 ∧ (s.1 = cache0 ∨ s.1 ≠ []))
    _ ?_ st r hst hr
  intro b qPos b' hb _ hstep
  rw [searchWithForm_step] at hstep
  cases hc : checkCandidates avx2 text query qPos k
      (mapFind b.1 (form.getStringFromPosition query qPos)) b.2 with
  | error e => rw [hc] at hstep; cases hstep
  | ok m =>
      rw [hc] at hstep
      have hb' := Except.ok.inj hstep
      rw [← hb']
      refine ⟨?_, Or.inr (mapUpdate_ne_nil _ _ _)⟩
      intro key
      rw [sameLookups_mapUpdate_id b.1 _ key]
      exact hb.1 key

theorem searchQuery_preserves (avx2 : Bool) (text : Str) (mcs : MCS) (k : Nat) (query : Str)
    (cache0 : PosMap) (st r : PosMap × PosMap)
    (hst : SameLookups st.1 cache0 ∧ (st.1 = cache0 ∨ st.1 ≠ []))
    (hr : searchQuery avx2 text mcs k st query = .ok r) :
    SameLookups r.1 cache0 ∧ (r.1 = cache0 ∨ r.1 ≠ []) := by
  unfold searchQuery at hr
  cases hf : mcs.mcsForms.foldlM
      (fun st form => searchWithForm avx2 text query k form st) (st.1, []) with
  | error e =>
      rw [hf] at hr
      cases hr
  | ok x =>
      rw [hf] at hr
      have hx := foldlM_preserves _
        (fun (s : PosMap × PosMap) => SameLookups s.1 cache0 ∧ (s.1 = cache0 ∨ s.1 ≠ []))
        _ (fun b form b' hb _ hstep =>
            searchWithForm_preserves avx2 text query k form cache0 b b' hb hstep)
        (st.1, []) x hst hf
      have hr' : (x.1, mergeInto st.2 x.2) = r := Except.ok.inj hr
      rw [← hr']
      exact hx

theorem searchWithForm_transfer (avx2 : Bool) (text query : Str) (k : Nat) (form : Form)
    (st1 st2 r1 : PosMap × PosMap) (hst : SameLookups st1.1 st2.1 ∧ st1.2 = st2.2)
    (hr : searchWithForm avx2 text query k form st1 = .ok r1) :
    ∃ r2, searchWithForm avx2 text query k form st2 = .ok r2 ∧
      (SameLookups r1.1 r2.1 ∧ r1.2 = r2.2) := by
  unfold searchWithForm at hr ⊢
  refine foldlM_transfer _
    (fun (s1 s2 : PosMap × PosMap) => SameLookups s1.1 s2.1 ∧ s1.2 = s2.2)
    _ ?_ st1 st2 r1 hst hr
  intro b1 b2 x hb qPos _ hstep
  rw [searchWithForm_step] at hstep ⊢
  rw [← hb.1 (form.getStringFromPosition query qPos), ← hb.2]
  cases hc : checkCandidates avx2 text query qPos k
      (mapFind b1.1 (form.getStringFromPosition query qPos)) b1.2 with
  | error e => rw [hc] at hstep; cases hstep
  | ok m =>
      rw [hc] at hstep
      have hx := Except.ok.inj hstep
      refine ⟨_, rfl, ?_⟩
      rw [← hx]
      refine ⟨?_, rfl⟩
      intro key
      rw [sameLookups_mapUpdate_id b1.1 _ key, sameLookups_mapUpdate_id b2.1 _ key]
      exact hb.1 key

theorem searchQuery_transfer (avx2 : Bool) (text : Str) (mcs : MCS) (k : Nat) (query : Str)
    (st1 st2 r1 : PosMap × PosMap) (hst : SameLookups st1.1 st2.1 ∧ st1.2 = st2.2)
    (hr : searchQuery avx2 text mcs k st1 query = .ok r1) :
    ∃ r2, searchQuery avx2 text mcs k st2 query = .ok r2 ∧
      (SameLookups r1.1 r2.1 ∧ r1.2 = r2.2) := by
  unfold searchQuery at hr ⊢
  cases hf : mcs.mcsForms.foldlM
      (fun st form => searchWithForm avx2 text query k form st) (st1.1, []) with
  | error e =>
      rw [hf] at hr
      cases hr
  | ok x =>
      rw [hf] at hr
      obtain ⟨y, hy, hxy⟩ := foldlM_transfer _
        (fun (s1 s2 : PosMap × PosMap) => SameLookups s1.1 s2.1 ∧ s1.2 = s2.2)
        _ (fun b1 b2 z hb form _ hstep =>
            searchWithForm_transfer avx2 text query k form b1 b2 z hb hstep)
        (st1.1, []) (st2.1, []) x ⟨hst.1, rfl⟩ hf
      rw [hy]
      have hr' : (x.1, mergeInto st1.2 x.2) = r1 := Except.ok.inj hr
      refine ⟨(y.1, mergeInto st2.2 y.2), rfl, ?_⟩
      rw [← hr']
      refine ⟨hxy.1, ?_⟩
      show mergeInto st1.2 x.2 = mergeInto st2.2 y.2
      rw [hst.2, hxy.2]

theorem checkCandidates_returns (avx2 : Bool) (text query : Str) (qPos k : Nat)
    (hk : k ≤ query.length) (candidates : List Nat) (m : PosMap) :
    ∃ r, checkCandidates avx2 text query qPos k candidates m = .ok r := by
  unfold checkCandidates
  obtain ⟨r, hr, _⟩ := foldlM_invariant
    (fun m pos => do
      let hit ← CheckQueryOnPosition avx2 text query (toInt64 (subU64 pos qPos)) k
      pure (if hit then mapUpdate m query (fun v => v ++ [subU64 pos qPos]) else m))
    (fun _ => True) candidates
    (fun b _ pos _ => by
      obtain ⟨hit, hhit⟩ := CheckQueryOnPosition_returns avx2 text query
        (toInt64 (subU64 pos qPos)) k hk
      refine ⟨if hit then mapUpdate b query (fun v => v ++ [subU64 pos qPos]) else b, ?_,
        trivial⟩
      beta_reduce
      rw [hhit]
      rfl)
    m trivial
  exact ⟨r, hr⟩

theorem mcsSearchRun_returns (s : KMismatchSearch) (avx2 : Bool) (k : Nat)
    (hk : ∀ q ∈ s.queries, k ≤ q.length) :
    ∃ c r, s.mcsSearchRun avx2 k = .ok (c, r) := by
  unfold KMismatchSearch.mcsSearchRun
  obtain ⟨r, hr, _⟩ := foldlM_invariant (searchQuery avx2 s.text s.mcs k) (fun _ => True)
    s.queries
    (fun b _ query hquery => by
      unfold searchQuery
      obtain ⟨x, hx, _⟩ := foldlM_invariant
        (fun st form => searchWithForm avx2 s.text query k form st) (fun _ => True)
        s.mcs.mcsForms
        (fun b2 _ form _ => by
          unfold searchWithForm
          obtain ⟨y, hy, _⟩ := foldlM_invariant
            (fun (st : PosMap × PosMap) qPos => do
              let key := form.getStringFromPosition query qPos
              let cache := mapUpdate st.1 key id
              let m ← checkCandidates avx2 s.text query qPos k (mapFind cache key) st.2
              pure (cache, m))
            (fun _ => True) (List.range (query.length + 1 - form.getSize))
            (fun b3 _ qPos _ => by
              beta_reduce
              rw [searchWithForm_step]
              obtain ⟨m, hm⟩ := checkCandidates_returns avx2 s.text query qPos k
                (hk query hquery) (mapFind b3.1 (form.getStringFromPosition query qPos)) b3.2
              rw [hm]
              exact ⟨_, rfl, trivial⟩)
            b2 trivial
          exact ⟨y, hy, trivial⟩)
        (b.1, []) trivial
      rw [hx]
      exact ⟨_, rfl, trivial⟩)
    (s.cacheAfterBuild, []) trivial
  exact ⟨r.1, r.2, hr⟩

/-- C30: when `mcsSearch(k)` is called twice on the same object, for every state of
the search, every `k` and either verification path: if `k ≤ min |q|` the first call
returns; and whenever the first call returns a map `r` and leaves the cache `c`, the
second call, started with the cache `c`, returns the same map `r`, and after each of
the two calls every key holds the same set of positions as after the index build of
the first call. -/
theorem index_reuse (s : KMismatchSearch) (avx2 : Bool) (k : Nat) :
    ((∀ q ∈ s.queries, k ≤ q.length) → ∃ c r, s.mcsSearchRun avx2 k = .ok (c, r)) ∧
      ∀ c r, s.mcsSearchRun avx2 k = .ok (c, r) →
        s.mcsSearch avx2 k = .ok r ∧
        ∃ c2, KMismatchSearch.mcsSearchRun { s with cache := c } avx2 k = .ok (c2, r) ∧
          KMismatchSearch.mcsSearch { s with cache := c } avx2 k = .ok r ∧
          SameLookups c s.cacheAfterBuild ∧ SameLookups c2 s.cacheAfterBuild := by
  refine ⟨mcsSearchRun_returns s avx2 k, ?_⟩
  intro c r h
  have hfirst : s.mcsSearch avx2 k = .ok r := by
    unfold KMismatchSearch.mcsSearch
    rw [h]; rfl
  refine ⟨hfirst, ?_⟩
  have hinv : SameLookups c s.cacheAfterBuild ∧ (c = s.cacheAfterBuild ∨ c ≠ []) := by
    unfold KMismatchSearch.mcsSearchRun at h
    exact foldlM_preserves (searchQuery avx2 s.text s.mcs k)
      (fun (st : PosMap × PosMap) =>
        SameLookups st.1 s.cacheAfterBuild ∧ (st.1 = s.cacheAfterBuild ∨ st.1 ≠ []))
      s.queries
      (fun b query b' hb _ hstep =>
        searchQuery_preserves avx2 s.text s.mcs k query s.cacheAfterBuild b b' hb hstep)
      (s.cacheAfterBuild, []) (c, r) ⟨fun _ => rfl, Or.inl rfl⟩ h
  have hstart : SameLookups s.cacheAfterBuild
      (KMismatchSearch.cacheAfterBuild { s with cache := c }) := by
    show SameLookups s.cacheAfterBuild (if c.isEmpty then buildCache s.text s.mcs c else c)
    cases c with
    | nil =>
        rw [if_pos (show ([] : PosMap).isEmpty = true from rfl)]
        rcases hinv.2 with h0 | h0
        · have hs : s.cache = [] := by
            unfold KMismatchSearch.cacheAfterBuild at h0
            by_cases he : s.cache.isEmpty = true
            · exact List.isEmpty_iff.1 he
            · rw [if_neg he] at h0; exact h0.symm
          unfold KMismatchSearch.cacheAfterBuild
          rw [hs, if_pos (show ([] : PosMap).isEmpty = true from rfl)]
          intro key; rfl
        · exact absurd rfl h0
    | cons e rest =>
        rw [if_neg (by simp)]
        intro key
        exact (hinv.1 key).symm
  unfold KMismatchSearch.mcsSearchRun at h
  obtain ⟨r2, hr2, hR⟩ := foldlM_transfer (searchQuery avx2 s.text s.mcs k)
    (fun (s1 s2 : PosMap × PosMap) => SameLookups s1.1 s2.1 ∧ s1.2 = s2.2)
    s.queries
    (fun b1 b2 x hb query _ hstep =>
      searchQuery_transfer avx2 s.text s.mcs k query b1 b2 x hb hstep)
    (s.cacheAfterBuild, []) (KMismatchSearch.cacheAfterBuild { s with cache := c }, [])
    (c, r) ⟨hstart, rfl⟩ h
  have hrun : KMismatchSearch.mcsSearchRun { s with cache := c } avx2 k = .ok (r2.1, r) := by
    show s.queries.foldlM (searchQuery avx2 s.text s.mcs k)
      (KMismatchSearch.cacheAfterBuild { s with cache := c }, []) = .ok (r2.1, r)
    rw [hr2]
    have : r = r2.2 := hR.2
    rw [this]
  refine ⟨r2.1, hrun, ?_, hinv.1, ?_⟩
  · unfold KMismatchSearch.mcsSearch
    rw [hrun]; rfl
  · intro key
    rw [← hR.1 key]
    exact hinv.1 key

theorem index_reuse_witness :
    ∃ c r,
      KMismatchSearch.mcsSearchRun
          { text := [65, 67, 71, 84], queries := [[65, 65, 71, 84]], cache := [],
            mcs := MCS.mk [Form.mk 3] } false 1 = .ok (c, r) ∧
        KMismatchSearch.mcsSearch
          { text := [65, 67, 71, 84], queries := [[65, 65, 71, 84]], cache := c,
            mcs := MCS.mk [Form.mk 3] } false 1 = .ok r := by
  obtain ⟨c, r, h⟩ := (index_reuse
    { text := [65, 67, 71, 84], queries := [[65, 65, 71, 84]], cache := [],
      mcs := MCS.mk [Form.mk 3] } false 1).1 (by decide)
  obtain ⟨_, c2, _, h2, _⟩ := (index_reuse
    { text := [65, 67, 71, 84], queries := [[65, 65, 71, 84]], cache := [],
      mcs := MCS.mk [Form.mk 3] } false 1).2 c r h
  exact ⟨c, r, h, h2⟩

end KMismatch

namespace KMismatch

/-! ## Numerals -/

theorem takeWhile_append_stop (p : UInt8 → Bool) (xs ys : Str)
    (hx : ∀ c ∈ xs, p c = true) (hy : ∀ c ∈ ys.head?, p c = false) :
    (xs ++ ys).takeWhile p = xs := by
  induction xs with
  | nil =>
      cases ys with
      | nil => rfl
      | cons y ys =>
          have := hy y (by simp)
          simp [List.takeWhile_cons, this]
  | cons x xs ih =>
      have hxp := hx x (List.mem_cons_self _ _)
      rw [List.cons_append, List.takeWhile_cons, if_pos hxp,
        ih (fun c hc => hx c (List.mem_cons_of_mem _ hc))]

theorem dropWhile_append_stop (p : UInt8 → Bool) (xs ys : Str)
    (hx : ∀ c ∈ xs, p c = true) (hy : ∀ c ∈ ys.head?, p c = false) :
    (xs ++ ys).dropWhile p = ys := by
  induction xs with
  | nil =>
      cases ys with
      | nil => rfl
      | cons y ys =>
          have := hy y (by simp)
          simp [List.dropWhile_cons, this]
  | cons x xs ih =>
      have hxp := hx x (List.mem_cons_self _ _)
      rw [List.cons_append, List.dropWhile_cons, if_pos hxp,
        ih (fun c hc => hx c (List.mem_cons_of_mem _ hc))]

theorem takeWhile_eq_self_of_length (p : UInt8 → Bool) (xs : Str)
    (h : (xs.takeWhile p).length = xs.length) : xs.takeWhile p = xs := by
  induction xs with
  | nil => rfl
  | cons x xs ih =>
      rw [List.takeWhile_cons] at h ⊢
      by_cases hx : p x = true
      · rw [if_pos hx] at h ⊢
        simp only [List.length_cons, Nat.add_right_cancel_iff] at h
        rw [ih h]
      · rw [if_neg hx] at h
        simp at h

theorem isDigit_not_isSpace (c : UInt8) (h : isDigit c = true) : isSpace c = false := by
  unfold isDigit at h
  unfold isSpace
  simp only [Bool.and_eq_true, decide_eq_true_eq] at h
  obtain ⟨h1, h2⟩ := h
  have h1' : (48 : UInt8).toNat ≤ c.toNat := h1
  have h2' : c.toNat ≤ (57 : UInt8).toNat := h2
  have e48 : (48 : UInt8).toNat = 48 := rfl
  have e57 : (57 : UInt8).toNat = 57 := rfl
  rw [e48] at h1'
  rw [e57] at h2'
  have hne : (c == 32) = false := by
    rw [beq_eq_false_iff_ne]
    intro hc
    rw [hc] at h1'
    have : (32 : UInt8).toNat = 32 := rfl
    omega
  have hle : decide (c ≤ 13) = false := by
    rw [decide_eq_false_iff_not]
    intro hc
    have hc' : c.toNat ≤ (13 : UInt8).toNat := hc
    have : (13 : UInt8).toNat = 13 := rfl
    omega
  rw [hne, hle]
  simp

theorem isDigit_ne_sign (c : UInt8) (h : isDigit c = true) : c ≠ 45 ∧ c ≠ 43 := by
  constructor
  · intro hc
    rw [hc] at h
    exact absurd h (by decide)
  · intro hc
    rw [hc] at h
    exact absurd h (by decide)

theorem clamp_long (v : Int) :
    (max (-(2 ^ 63)) (min v (2 ^ 63 - 1)) < 0 ↔ v < 0) ∧
      (max (-(2 ^ 63)) (min v (2 ^ 63 - 1)) > 2 ^ 31 - 1 ↔ v > 2 ^ 31 - 1) ∧
      (max (-(2 ^ 63)) (min v (2 ^ 63 - 1)) < -(2 ^ 31) ↔ v < -(2 ^ 31)) ∧
      (0 ≤ v → v ≤ 2 ^ 31 - 1 → max (-(2 ^ 63)) (min v (2 ^ 63 - 1)) = v) := by
  have h63 : (2 : Int) ^ 63 = 9223372036854775808 := by norm_num
  have h31 : (2 : Int) ^ 31 = 2147483648 := by norm_num
  rw [h63, h31]
  refine ⟨?_, ?_, ?_, ?_⟩ <;> omega

theorem strtolDigits_digits (negative : Bool) (consumed : Nat) (digits rest : Str)
    (hdigits : IsDigits digits) (hrest : ∀ c ∈ rest.head?, isDigit c = false) :
    strtolDigits negative consumed (digits ++ rest) =
      (max (-(2 ^ 63))
          (min (if negative then -((decimalValue digits : Nat) : Int)
                else ((decimalValue digits : Nat) : Int)) (2 ^ 63 - 1)),
        consumed + digits.length) := by
  unfold strtolDigits
  rw [takeWhile_append_stop isDigit digits rest hdigits.2 hrest, if_neg hdigits.1]

/-- What `strtol` does on white space, an optional sign, one or more digits and a rest
that does not go on with a digit. -/
theorem strtol_numeral (spaces sign digits rest : Str)
    (hspaces : ∀ c ∈ spaces, isSpace c = true)
    (hsign : sign = [] ∨ sign = [43] ∨ sign = [45]) (hdigits : IsDigits digits)
    (hrest : ∀ c ∈ rest.head?, isDigit c = false) :
    strtol (spaces ++ sign ++ digits ++ rest) =
      (max (-(2 ^ 63)) (min (signedValue sign digits) (2 ^ 63 - 1)),
        spaces.length + sign.length + digits.length) := by
  obtain ⟨d, ds, hd⟩ := List.exists_cons_of_ne_nil hdigits.1
  have hdd : isDigit d = true := hdigits.2 d (by rw [hd]; exact List.mem_cons_self _ _)
  have hdsp := isDigit_not_isSpace d hdd
  obtain ⟨hd45, hd43⟩ := isDigit_ne_sign d hdd
  have hhead : ∀ c ∈ (sign ++ (digits ++ rest)).head?, isSpace c = false := by
    intro c hc
    rcases hsign with h | h | h <;> subst h <;> rw [hd] at hc <;>
      simp only [List.nil_append, List.cons_append, List.head?_cons, Option.mem_def,
        Option.some.injEq] at hc <;> subst hc
    · exact hdsp
    · decide
    · decide
  unfold strtol
  rw [List.append_assoc, List.append_assoc,
    takeWhile_append_stop isSpace spaces _ hspaces hhead,
    dropWhile_append_stop isSpace spaces _ hspaces hhead]
  rcases hsign with h | h | h <;> subst h
  · rw [List.nil_append]
    have hunf : strtolSign spaces.length (digits ++ rest) =
        strtolDigits false spaces.length (digits ++ rest) := by
      rw [hd, List.cons_append]
      show (if d = 45 then _ else if d = 43 then _ else _) = _
      rw [if_neg hd45, if_neg hd43]
    rw [hunf, strtolDigits_digits false _ digits rest hdigits hrest]
    simp [signedValue]
  · have hunf : strtolSign spaces.length ([43] ++ (digits ++ rest)) =
        strtolDigits false (spaces.length + 1) (digits ++ rest) := rfl
    rw [hunf, strtolDigits_digits false _ digits rest hdigits hrest]
    simp [signedValue]
  · have hunf : strtolSign spaces.length ([45] ++ (digits ++ rest)) =
        strtolDigits true (spaces.length + 1) (digits ++ rest) := rfl
    rw [hunf, strtolDigits_digits true _ digits rest hdigits hrest]
    simp [signedValue]

theorem isDigits_of_strtolDigits (negative : Bool) (consumed : Nat) (str : Str)
    (h0 : (strtolDigits negative consumed str).2 ≠ 0)
    (hend : (strtolDigits negative consumed str).2 = consumed + str.length) :
    IsDigits str := by
  unfold strtolDigits at h0 hend
  by_cases hdig : str.takeWhile isDigit = []
  · rw [if_pos hdig] at h0
    exact absurd rfl h0
  · rw [if_neg hdig] at hend
    simp only [Nat.add_left_cancel_iff] at hend
    have hall := takeWhile_eq_self_of_length isDigit str hend
    rw [hall] at hdig
    refine ⟨hdig, ?_⟩
    intro c hc
    rw [← hall] at hc
    exact List.mem_takeWhile_imp hc

/-- A string that `strtol` converts up to its end is a numeral. -/
theorem isNumeral_of_strtol (str : Str) (h0 : (strtol str).2 ≠ 0)
    (hend : (strtol str).2 = str.length) : IsNumeral str := by
  unfold strtol at h0 hend
  have hsplit := List.takeWhile_append_dropWhile isSpace str
  have hlen : str.length = (str.takeWhile isSpace).length + (str.dropWhile isSpace).length := by
    conv_lhs => rw [← hsplit]
    rw [List.length_append]
  have hsp : ∀ c ∈ str.takeWhile isSpace, isSpace c = true := fun c hc =>
    List.mem_takeWhile_imp hc
  generalize str.takeWhile isSpace = A at *
  generalize str.dropWhile isSpace = B at *
  cases B with
  | nil =>
      exfalso
      apply h0
      rfl
  | cons c rest =>
      unfold strtolSign at h0 hend
      simp only at h0 hend
      by_cases h45 : c = 45
      · rw [if_pos h45] at h0 hend
        have hd := isDigits_of_strtolDigits true (A.length + 1) rest h0
          (by rw [hend, hlen]; simp only [List.length_cons]; omega)
        exact ⟨A, [45], rest, by rw [← hsplit, h45]; simp, hsp, Or.inr (Or.inr rfl), hd⟩
      · rw [if_neg h45] at h0 hend
        by_cases h43 : c = 43
        · rw [if_pos h43] at h0 hend
          have hd := isDigits_of_strtolDigits false (A.length + 1) rest h0
            (by rw [hend, hlen]; simp only [List.length_cons]; omega)
          exact ⟨A, [43], rest, by rw [← hsplit, h43]; simp, hsp, Or.inr (Or.inl rfl), hd⟩
        · rw [if_neg h43] at h0 hend
          have hd := isDigits_of_strtolDigits false A.length (c :: rest) h0
            (by rw [hend, hlen])
          exact ⟨A, [], c :: rest, by rw [← hsplit]; simp, hsp, Or.inl rfl, hd⟩

/-! ## `safeStoi` -/

/-- C29, as amended: `safeStoi(str, name)` accepts white space before the numeral.
For a string made of white space, an optional sign `+` or `-` and one or more decimal
digits, with the value `n`, it returns `n` if `0 ≤ n ≤ 2 ^ 31 - 1` and throws
`out_of_range` if `n` is negative or exceeds `2 ^ 31 - 1`; for every other string it
throws `invalid_argument`. -/
theorem safeStoi_spec (str : Str) (paramName : String) :
    (∀ spaces sign digits, str = spaces ++ sign ++ digits →
        (∀ c ∈ spaces, isSpace c = true) → (sign = [] ∨ sign = [43] ∨ sign = [45]) →
        IsDigits digits →
        safeStoi str paramName =
          if signedValue sign digits < 0 ∨ signedValue sign digits > 2 ^ 31 - 1 then
            .error (.out_of_range (paramName ++ " out of range: " ++ bytesToString str))
          else .ok (signedValue sign digits)) ∧
      (¬ IsNumeral str →
        safeStoi str paramName = .error (.invalid_argument
          ("Invalid " ++ paramName ++ ": '" ++ bytesToString str ++ "' is not a valid integer."))) := by
  constructor
  · intro spaces sign digits hstr hspaces hsign hdigits
    have hst := strtol_numeral spaces sign digits [] hspaces hsign hdigits
      (by intro c hc; cases hc)
    rw [List.append_nil, ← hstr] at hst
    have hlen : spaces.length + sign.length + digits.length = str.length := by
      rw [hstr, List.length_append, List.length_append]
    have hpos : 0 < digits.length := List.length_pos.2 hdigits.1
    obtain ⟨hc1, hc2, _, _⟩ := clamp_long (signedValue sign digits)
    unfold safeStoi
    simp only [hst]
    rw [if_neg (by rw [hlen]; omega)]
    by_cases hrange : signedValue sign digits < 0 ∨ signedValue sign digits > 2 ^ 31 - 1
    · rw [if_pos hrange, if_pos (by rw [hc1, hc2]; exact hrange)]
    · rw [if_neg hrange, if_neg (by rw [hc1, hc2]; exact hrange)]
      have h63 : (2 : Int) ^ 63 = 9223372036854775808 := by norm_num
      have h31 : (2 : Int) ^ 31 = 2147483648 := by norm_num
      rw [h31] at hrange
      congr 1
      rw [h63]
      omega
  · intro hnot
    unfold safeStoi
    rw [if_pos]
    by_contra hcon
    apply hnot
    have h1 : (strtol str).2 ≠ 0 := fun h => hcon (Or.inl h)
    have h2 : (strtol str).2 = str.length := by
      by_contra h
      exact hcon (Or.inr h)
    exact isNumeral_of_strtol str h1 h2

theorem safeStoi_spec_witness :
    safeStoi [49, 50, 51] "test" = .ok 123 ∧
      safeStoi [50, 49, 52, 55, 52, 56, 51, 54, 52, 56] "test" =
        .error (.out_of_range ("test" ++ " out of range: " ++
          bytesToString [50, 49, 52, 55, 52, 56, 51, 54, 52, 56])) ∧
      safeStoi [97, 98, 99] "test" = .error (.invalid_argument
        ("Invalid " ++ "test" ++ ": '" ++ bytesToString [97, 98, 99] ++
          "' is not a valid integer.")) :=
  ⟨((safeStoi_spec [49, 50, 51] "test").1 [] [] [49, 50, 51] rfl (by simp) (Or.inl rfl)
      ⟨by decide, by decide⟩).trans (by decide),
    ((safeStoi_spec [50, 49, 52, 55, 52, 56, 51, 54, 52, 56] "test").1 [] []
      [50, 49, 52, 55, 52, 56, 51, 54, 52, 56] rfl (by simp) (Or.inl rfl)
      ⟨by decide, by decide⟩).trans (by decide),
    (safeStoi_spec [97, 98, 99] "test").2 (by
      rintro ⟨spaces, sign, digits, hstr, hspaces, hsign, hdigits⟩
      have hst := strtol_numeral spaces sign digits [] hspaces hsign hdigits
        (by intro c hc; cases hc)
      rw [List.append_nil, ← hstr] at hst
      have hpos : 0 < digits.length := List.length_pos.2 hdigits.1
      have h0 : (strtol [97, 98, 99]).2 = 0 := by decide
      rw [hst] at h0
      simp only at h0
      omega)⟩

/-- C29, as stated, fails: the string `" 123"` does not consist entirely of one
numeral (it starts with a blank), and `safeStoi` returns 123 for it. -/
theorem safeStoi_spec_counterexample :
    safeStoi [32, 49, 50, 51] "test" = .ok 123 ∧
      ¬ ∃ sign digits, [32, 49, 50, 51] = sign ++ digits ∧
        (sign = [] ∨ sign = [43] ∨ sign = [45]) ∧ IsDigits digits := by
  refine ⟨by decide, ?_⟩
  rintro ⟨sign, digits, hstr, hsign, hne, hall⟩
  rcases hsign with h | h | h <;> subst h
  · rw [List.nil_append] at hstr
    have := hall 32 (by rw [← hstr]; exact List.mem_cons_self _ _)
    exact absurd this (by decide)
  · simp at hstr
  · simp at hstr

end KMismatch

namespace KMismatch

/-! ## `std::stoi` on digits -/

theorem takeWhile_append_all (p : UInt8 → Bool) (xs ys : Str) (hx : ∀ c ∈ xs, p c = true) :
    (xs ++ ys).takeWhile p = xs ++ ys.takeWhile p := by
  induction xs with
  | nil => rfl
  | cons x xs ih =>
      rw [List.cons_append, List.takeWhile_cons, if_pos (hx x (List.mem_cons_self _ _)),
        ih (fun c hc => hx c (List.mem_cons_of_mem _ hc)), List.cons_append]

theorem isDigit_ne_zero (c : UInt8) (h : isDigit c = true) : (c != 0) = true := by
  rw [bne_iff_ne]
  intro hc
  rw [hc] at h
  exact absurd h (by decide)

theorem head_takeWhile_not_digit (rest : Str) (hrest : ∀ c ∈ rest.head?, isDigit c = false) :
    ∀ c ∈ (rest.takeWhile (fun c => c != 0)).head?, isDigit c = false := by
  cases rest with
  | nil => intro c hc; cases hc
  | cons a as =>
      intro c hc
      rw [List.takeWhile_cons] at hc
      by_cases ha : (a != 0) = true
      · rw [if_pos ha] at hc
        exact hrest c hc
      · rw [if_neg ha] at hc
        cases hc

/-- On one or more digits with a value that fits an `int`, followed by bytes that do
not go on with a digit, `std::stoi` returns the value of the digits. -/
theorem stoi_digits (digits rest : Str) (hdigits : IsDigits digits)
    (hrest : ∀ c ∈ rest.head?, isDigit c = false) (hval : decimalValue digits ≤ 2 ^ 31 - 1) :
    stoi (digits ++ rest) = .ok ((decimalValue digits : Nat) : Int) := by
  have htake : (digits ++ rest).takeWhile (fun c => c != 0) =
      [] ++ [] ++ digits ++ rest.takeWhile (fun c => c != 0) := by
    rw [takeWhile_append_all _ digits rest (fun c hc => isDigit_ne_zero c (hdigits.2 c hc))]
    rfl
  have hst := strtol_numeral [] [] digits (rest.takeWhile (fun c => c != 0))
    (by intro c hc; cases hc) (Or.inl rfl) hdigits (head_takeWhile_not_digit rest hrest)
  have hpos : 0 < digits.length := List.length_pos.2 hdigits.1
  have hsv : signedValue [] digits = ((decimalValue digits : Nat) : Int) := by
    unfold signedValue
    rw [if_neg (by simp)]
  have hv0 : (0 : Int) ≤ ((decimalValue digits : Nat) : Int) := Int.ofNat_nonneg _
  have hv1 : ((decimalValue digits : Nat) : Int) ≤ 2 ^ 31 - 1 := by
    have h31 : (2 : Int) ^ 31 = 2147483648 := by norm_num
    have h31n : (2 : Nat) ^ 31 = 2147483648 := by norm_num
    rw [h31]
    rw [h31n] at hval
    omega
  obtain ⟨_, hc2, hc3, hc4⟩ := clamp_long ((decimalValue digits : Nat) : Int)
  unfold stoi
  simp only [htake, hst, hsv]
  rw [if_neg (by simp only [List.length_nil]; omega), if_neg, hc4 hv0 hv1]
  rw [hc2, hc3]
  have h31 : (2 : Int) ^ 31 = 2147483648 := by norm_num
  rw [h31] at hv1 ⊢
  omega

/-! ## The MCS file -/

theorem getlineLoop_piece (delim : UInt8) (piece rest : Str) (h : delim ∉ piece) :
    ∀ cur, getlineLoop delim (piece ++ delim :: rest) cur =
      (cur ++ piece) :: getlineLoop delim rest [] := by
  induction piece with
  | nil =>
      intro cur
      rw [List.nil_append, List.append_nil, getlineLoop, if_pos rfl]
  | cons c piece ih =>
      intro cur
      have hc : c ≠ delim := fun hc => h (by rw [hc]; exact List.mem_cons_self _ _)
      rw [List.cons_append, getlineLoop, if_neg hc,
        ih (fun hm => h (List.mem_cons_of_mem _ hm)) (cur ++ [c])]
      simp

theorem getlines_flatten (delim : UInt8) (pieces : List Str) (h : ∀ piece ∈ pieces, delim ∉ piece) :
    getlines delim ((pieces.map (fun piece => piece ++ [delim])).flatten) = pieces := by
  unfold getlines
  induction pieces with
  | nil => rfl
  | cons piece pieces ih =>
      rw [List.map_cons, List.flatten_cons, List.append_assoc, List.singleton_append,
        getlineLoop_piece delim piece _ (h piece (List.mem_cons_self _ _)) [],
        ih (fun q hq => h q (List.mem_cons_of_mem _ hq)), List.nil_append]

theorem printBitsLoop_chars (fuel : Nat) :
    ∀ n, ∀ ch ∈ printBitsLoop fuel n, ch = 48 ∨ ch = 49 := by
  induction fuel with
  | zero => intro n ch hch; cases hch
  | succ fuel ih =>
      intro n ch hch
      unfold printBitsLoop at hch
      rcases List.mem_cons.1 hch with h | h
      · rw [h]
        by_cases h0 : n &&& 1 = 0
        · rw [if_pos h0]; exact Or.inl rfl
        · rw [if_neg h0]; exact Or.inr rfl
      · by_cases h0 : n >>> 1 = 0
        · rw [if_pos h0] at h; cases h
        · rw [if_neg h0] at h; exact ih _ ch h

theorem printBitsLoop_value (fuel : Nat) :
    ∀ n, n < 2 ^ fuel → fuel ≤ 64 →
      (printBitsLoop fuel n).foldr (fun ch num => shl1 num ||| digitValue ch) 0 = n := by
  induction fuel with
  | zero =>
      intro n hn _
      have : n = 0 := by
        rw [pow_zero] at hn
        omega
      rw [this]
      rfl
  | succ fuel ih =>
      intro n hn hfuel
      have hhalf : n >>> 1 = n / 2 := by rw [Nat.shiftRight_eq_div_pow, pow_one]
      have hlt : n / 2 < 2 ^ fuel := by
        rw [pow_succ] at hn
        omega
      have h63 : n / 2 < 2 ^ 63 :=
        lt_of_lt_of_le hlt (Nat.pow_le_pow_right (by decide) (by omega))
      have hrest : (if n >>> 1 = 0 then [] else printBitsLoop fuel (n >>> 1)).foldr
          (fun ch num => shl1 num ||| digitValue ch) 0 = n / 2 := by
        by_cases h0 : n >>> 1 = 0
        · rw [if_pos h0, ← hhalf, h0]
          rfl
        · rw [if_neg h0, hhalf]
          exact ih (n / 2) hlt (by omega)
      unfold printBitsLoop
      rw [List.foldr_cons, hrest, shl1_small _ h63, Nat.and_one_is_mod]
      by_cases hb : n % 2 = 0
      · rw [if_pos hb]
        have : digitValue 48 = 0 := rfl
        rw [this, Nat.or_zero]
        omega
      · rw [if_neg hb]
        have : digitValue 49 = 1 := rfl
        rw [this, even_or_one _ (by omega)]
        omega

theorem parseBits_clean (after : Nat → Str)
    (hclean : ∀ column, ∀ c ∈ (after column).head?, isDigit c = false) (line : Str)
    (hline : ∀ ch ∈ line, ch = 48 ∨ ch = 49) :
    ∀ column num, parseBits after column line num =
      .ok (line.foldl (fun num ch => shl1 num ||| digitValue ch) num) := by
  induction line with
  | nil => intro column num; rfl
  | cons ch line ih =>
      intro column num
      have hch := hline ch (List.mem_cons_self _ _)
      have hstoi : stoi (ch :: after column) = .ok ((digitValue ch : Nat) : Int) := by
        have h := stoi_digits [ch] (after column)
          ⟨by simp, by
            intro d hd
            rw [List.mem_singleton] at hd
            rw [hd]
            rcases hch with h | h <;> rw [h] <;> decide⟩
          (hclean column)
          (by rcases hch with h | h <;> rw [h] <;> decide)
        have hv : decimalValue [ch] = digitValue ch := by
          unfold decimalValue
          simp
        rw [hv] at h
        exact h
      have hconv : intToU64 ((digitValue ch : Nat) : Int) = digitValue ch := by
        rcases hch with h | h <;> rw [h] <;> decide
      unfold parseBits
      rw [if_neg (by
        rintro ⟨h1, h2⟩
        rcases hch with h | h
        · exact h1 h
        · exact h2 h)]
      rw [hstoi]
      simp only
      rw [hconv, ih (fun c hc => hline c (List.mem_cons_of_mem _ hc)), List.foldl_cons]

theorem parseBits_printSequence (after : Nat → Str)
    (hclean : ∀ column, ∀ c ∈ (after column).head?, isDigit c = false) (n : Nat)
    (hn : n < 2 ^ 64) : parseBits after 0 (printSequence n) 0 = .ok n := by
  rw [parseBits_clean after hclean (printSequence n)
    (fun ch hch => printBitsLoop_chars UINT_TYPE_SIZE n ch (List.mem_reverse.1 hch))]
  unfold printSequence
  rw [List.foldl_reverse]
  exact congrArg Except.ok (printBitsLoop_value UINT_TYPE_SIZE n hn (le_refl _))

theorem loadLines_printed (after : Nat → Nat → Str)
    (hclean : ∀ row column, ∀ c ∈ (after row column).head?, isDigit c = false)
    (forms : List Form) (hforms : ∀ F ∈ forms, F.sequenceInt < 2 ^ 64) :
    ∀ row acc, loadLines after row (forms.map (fun form => printSequence form.sequenceInt)) acc =
      .ok (acc ++ forms) := by
  induction forms with
  | nil =>
      intro row acc
      rw [List.append_nil]
      rfl
  | cons F forms ih =>
      intro row acc
      rw [List.map_cons]
      unfold loadLines
      rw [parseBits_printSequence (after row) (hclean row) F.sequenceInt
        (hforms F (List.mem_cons_self _ _))]
      simp only
      rw [ih (fun G hG => hforms G (List.mem_cons_of_mem _ hG))]
      simp

/-- When the byte after the loop variable `ch` in memory never is a digit, loading the
text that `MCS::saveToFile` writes gives back the list of forms. -/
theorem loadFromFile_saveToFile (after : Nat → Nat → Str)
    (hclean : ∀ row column, ∀ c ∈ (after row column).head?, isDigit c = false)
    (mcs : MCS) (hforms : ∀ F ∈ mcs.mcsForms, F.sequenceInt < 2 ^ 64) :
    MCS.loadFromFile after mcs.saveToFile = .ok mcs := by
  unfold MCS.loadFromFile MCS.saveToFile
  have hmap : mcs.mcsForms.map (fun form => printSequence form.sequenceInt ++ [10]) =
      (mcs.mcsForms.map (fun form => printSequence form.sequenceInt)).map
        (fun piece => piece ++ [10]) := by
    rw [List.map_map]
    rfl
  rw [hmap, getlines_flatten 10 _ (by
    intro piece hpiece h10
    obtain ⟨F, _, hF⟩ := List.mem_map.1 hpiece
    rw [← hF] at h10
    rcases printBitsLoop_chars UINT_TYPE_SIZE F.sequenceInt 10 (List.mem_reverse.1 h10) with h | h
    · exact absurd h (by decide)
    · exact absurd h (by decide)),
    loadLines_printed after hclean mcs.mcsForms hforms 0 []]
  rfl

/-- C24 fails on the code: `MCS::loadFromFile` converts each character with
`std::stoi(&ch)`, which reads past the single `char` into the bytes that follow it in
memory.  For the list with the one form `1`, `saveToFile` writes the line `"1"`; when
the byte after `ch` is `'0'`, `std::stoi` reads the numeral `"10"` and the loaded list
holds the form with integer 10. -/
theorem loadFromFile_reads_past_char :
    (MCS.mk [Form.mk 1]).saveToFile = [49, 10] ∧
      stoi (49 :: [48]) = .ok 10 ∧
      MCS.loadFromFile (fun _ _ => [48]) (MCS.mk [Form.mk 1]).saveToFile =
        .ok (MCS.mk [Form.mk 10]) := by
  decide

/-- C26 fails on the code: for a file that consists of one empty line
`MCS::loadFromFile` throws nothing and returns an MCS with the form of integer 0 (the
loop over the characters of the line is not entered), whatever lies in memory; and
the file with the lines `"11"`, `""`, `"101"` loads as the forms 3, 0, 5. -/
theorem loadFromFile_accepts_empty_line :
    (∀ after, MCS.loadFromFile after [10] = .ok (MCS.mk [Form.mk 0])) ∧
      MCS.loadFromFile (fun _ _ => []) [49, 49, 10, 10, 49, 48, 49, 10] =
        .ok (MCS.mk [Form.mk 3, Form.mk 0, Form.mk 5]) := by
  refine ⟨fun after => rfl, by decide⟩

end KMismatch

namespace KMismatch

/-! ## The index file -/

theorem isDigit_ofNat (r : Nat) (hr : r < 10) :
    isDigit (UInt8.ofNat (48 + r)) = true ∧ digitValue (UInt8.ofNat (48 + r)) = r ∧
      UInt8.ofNat (48 + r) ≠ 59 ∧ UInt8.ofNat (48 + r) ≠ 10 := by
  interval_cases r <;> decide

theorem printDecimalLoop_chars (fuel : Nat) :
    ∀ n, ∀ ch ∈ printDecimalLoop fuel n, isDigit ch = true ∧ ch ≠ 59 ∧ ch ≠ 10 := by
  induction fuel with
  | zero => intro n ch hch; cases hch
  | succ fuel ih =>
      intro n ch hch
      unfold printDecimalLoop at hch
      rcases List.mem_cons.1 hch with h | h
      · obtain ⟨h1, _, h3, h4⟩ := isDigit_ofNat (n % 10) (Nat.mod_lt _ (by decide))
        rw [h]
        exact ⟨h1, h3, h4⟩
      · by_cases h0 : n / 10 = 0
        · rw [if_pos h0] at h; cases h
        · rw [if_neg h0] at h; exact ih _ ch h

theorem printDecimalLoop_value (fuel : Nat) :
    ∀ n, n < 10 ^ fuel →
      (printDecimalLoop fuel n).foldr (fun d acc => acc * 10 + digitValue d) 0 = n := by
  induction fuel with
  | zero =>
      intro n hn
      have : n = 0 := by
        rw [pow_zero] at hn
        omega
      rw [this]
      rfl
  | succ fuel ih =>
      intro n hn
      have hlt : n / 10 < 10 ^ fuel := by
        rw [pow_succ] at hn
        omega
      have hrest : (if n / 10 = 0 then [] else printDecimalLoop fuel (n / 10)).foldr
          (fun d acc => acc * 10 + digitValue d) 0 = n / 10 := by
        by_cases h0 : n / 10 = 0
        · rw [if_pos h0, h0]
          rfl
        · rw [if_neg h0]
          exact ih (n / 10) hlt
      unfold printDecimalLoop
      rw [List.foldr_cons, hrest, (isDigit_ofNat (n % 10) (Nat.mod_lt _ (by decide))).2.1]
      omega

theorem printSizeT_spec (pos : Nat) (hpos : pos < 2 ^ 31) :
    IsDigits (printSizeT pos) ∧ decimalValue (printSizeT pos) = pos ∧
      (59 : UInt8) ∉ printSizeT pos ∧ (10 : UInt8) ∉ printSizeT pos := by
  have hchars := printDecimalLoop_chars 20 pos
  refine ⟨⟨?_, ?_⟩, ?_, ?_, ?_⟩
  · unfold printSizeT printDecimalLoop
    simp
  · intro d hd
    exact (hchars d (List.mem_reverse.1 hd)).1
  · unfold decimalValue printSizeT
    rw [List.foldl_reverse]
    exact printDecimalLoop_value 20 pos (lt_trans hpos (by norm_num))
  · intro h
    exact (hchars 59 (List.mem_reverse.1 h)).2.1 rfl
  · intro h
    exact (hchars 10 (List.mem_reverse.1 h)).2.2 rfl

theorem intToU64_ofNat (n : Nat) (hn : n < 2 ^ 64) : intToU64 ((n : Nat) : Int) = n := by
  unfold intToU64
  have h : ((n : Nat) : Int) % 2 ^ 64 = (n : Int) := by
    apply Int.emod_eq_of_lt (Int.ofNat_nonneg _)
    exact_mod_cast hn
  rw [h]
  rfl

theorem loadValues (key : Str) (values : List Nat) (hvalues : ∀ p ∈ values, p < 2 ^ 31) :
    ∀ cache : PosMap,
      (values.map printSizeT).foldlM
          (fun (c : PosMap) (value : Str) =>
            match stoi value with
            | Except.error e => (Except.error e : Except Exn PosMap)
            | Except.ok v => Except.ok (mapUpdate c key (setInsert (intToU64 v))))
          cache =
        .ok (values.foldl (fun c p => mapUpdate c key (setInsert p)) cache) := by
  induction values with
  | nil => intro cache; rfl
  | cons p values ih =>
      intro cache
      have hp := hvalues p (List.mem_cons_self _ _)
      obtain ⟨hdig, hval, _, _⟩ := printSizeT_spec p hp
      have hstoi : stoi (printSizeT p) = .ok ((p : Nat) : Int) := by
        have h := stoi_digits (printSizeT p) [] hdig (by intro c hc; cases hc)
          (by rw [hval]; omega)
        rw [List.append_nil, hval] at h
        exact h
      rw [List.map_cons, List.foldlM_cons, hstoi]
      simp only
      rw [intToU64_ofNat p (lt_trans hp (by norm_num))]
      exact ih (fun q hq => hvalues q (List.mem_cons_of_mem _ hq)) _

theorem loadCacheLine_saved (cache : PosMap) (entry : Str × List Nat)
    (hkey : (59 : UInt8) ∉ entry.1) (hvalues : ∀ p ∈ entry.2, p < 2 ^ 31) :
    loadCacheLine cache
        (entry.1 ++ [59] ++ (entry.2.map (fun pos => printSizeT pos ++ [59])).flatten) =
      .ok (entry.2.foldl (fun c p => mapUpdate c entry.1 (setInsert p)) cache) := by
  have hline : entry.1 ++ [59] ++ (entry.2.map (fun pos => printSizeT pos ++ [59])).flatten =
      ((entry.1 :: entry.2.map printSizeT).map (fun piece => piece ++ [59])).flatten := by
    rw [List.map_cons, List.flatten_cons, List.map_map]
    rfl
  unfold loadCacheLine
  rw [hline, getlines_flatten 59 _ (by
    intro piece hpiece
    rcases List.mem_cons.1 hpiece with h | h
    · rw [h]; exact hkey
    · obtain ⟨p, hp, hpp⟩ := List.mem_map.1 h
      rw [← hpp]
      exact (printSizeT_spec p (hvalues p hp)).2.2.1)]
  exact loadValues entry.1 entry.2 hvalues cache

theorem mem_loadedValues (key : Str) (values : List Nat) :
    ∀ (cache : PosMap) (key' : Str),
      (∀ p, p ∈ mapFind (values.foldl (fun c p => mapUpdate c key (setInsert p)) cache) key' ↔
        p ∈ mapFind cache key' ∨ (key' = key ∧ p ∈ values)) ∧
      (key' ∈ (values.foldl (fun c p => mapUpdate c key (setInsert p)) cache).map Prod.fst ↔
        key' ∈ cache.map Prod.fst ∨ (key' = key ∧ values ≠ [])) := by
  induction values with
  | nil =>
      intro cache key'
      simp
  | cons q values ih =>
      intro cache key'
      rw [List.foldl_cons]
      obtain ⟨h1, h2⟩ := ih (mapUpdate cache key (setInsert q)) key'
      constructor
      · intro p
        rw [h1 p, mapFind_mapUpdate]
        by_cases hk : key' = key
        · rw [if_pos hk, mem_setInsert, hk]
          simp only [List.mem_cons, true_and]
          tauto
        · rw [if_neg hk]
          simp only [hk, false_and]
      · rw [h2, keys_mapUpdate]
        simp only [ne_eq, reduceCtorEq, not_false_eq_true, and_true]
        tauto

theorem loadCache_saved (entries : List (Str × List Nat))
    (hsep : ∀ e ∈ entries, (59 : UInt8) ∉ e.1 ∧ (10 : UInt8) ∉ e.1)
    (hpos : ∀ e ∈ entries, ∀ p ∈ e.2, p < 2 ^ 31) :
    ∀ cache : PosMap,
      ∃ loaded,
        (entries.map (fun entry =>
            entry.1 ++ [59] ++ (entry.2.map (fun pos => printSizeT pos ++ [59])).flatten)).foldlM
          loadCacheLine cache = .ok loaded ∧
        ∀ key,
          (∀ p, p ∈ mapFind loaded key ↔
            p ∈ mapFind cache key ∨ ∃ e ∈ entries, e.1 = key ∧ p ∈ e.2) ∧
          (key ∈ loaded.map Prod.fst ↔
            key ∈ cache.map Prod.fst ∨ ∃ e ∈ entries, e.1 = key ∧ e.2 ≠ []) := by
  induction entries with
  | nil =>
      intro cache
      exact ⟨cache, rfl, fun key => ⟨fun p => by simp, by simp⟩⟩
  | cons entry entries ih =>
      intro cache
      obtain ⟨loaded, hloaded, hspec⟩ :=
        ih (fun e he => hsep e (List.mem_cons_of_mem _ he))
          (fun e he => hpos e (List.mem_cons_of_mem _ he))
          (entry.2.foldl (fun c p => mapUpdate c entry.1 (setInsert p)) cache)
      refine ⟨loaded, ?_, ?_⟩
      · rw [List.map_cons, List.foldlM_cons,
          loadCacheLine_saved cache entry (hsep entry (List.mem_cons_self _ _)).1
            (hpos entry (List.mem_cons_self _ _))]
        exact hloaded
      · intro key
        obtain ⟨h1, h2⟩ := hspec key
        obtain ⟨g1, g2⟩ := mem_loadedValues entry.1 entry.2 cache key
        constructor
        · intro p
          rw [h1 p, g1 p]
          simp only [List.mem_cons, exists_eq_or_imp]
          constructor
          · rintro ((h | ⟨hk, hp⟩) | h)
            · exact Or.inl h
            · exact Or.inr (Or.inl ⟨hk.symm, hp⟩)
            · exact Or.inr (Or.inr h)
          · rintro (h | ⟨hk, hp⟩ | h)
            · exact Or.inl (Or.inl h)
            · exact Or.inl (Or.inr ⟨hk.symm, hp⟩)
            · exact Or.inr h
        · rw [h2, g2]
          simp only [List.mem_cons, exists_eq_or_imp]
          constructor
          · rintro ((h | ⟨hk, hp⟩) | h)
            · exact Or.inl h
            · exact Or.inr (Or.inl ⟨hk.symm, hp⟩)
            · exact Or.inr (Or.inr h)
          · rintro (h | ⟨hk, hp⟩ | h)
            · exact Or.inl (Or.inl h)
            · exact Or.inl (Or.inr ⟨hk.symm, hp⟩)
            · exact Or.inr h

theorem mapFind_ne_nil_iff (m : PosMap) (hm : KeysNodup m) (key : Str) :
    (∃ e ∈ m, e.1 = key ∧ e.2 ≠ []) ↔ mapFind m key ≠ [] := by
  constructor
  · rintro ⟨e, he, hk, hne⟩
    obtain ⟨p, ps, hps⟩ := List.exists_cons_of_ne_nil hne
    have hp : p ∈ mapFind m key :=
      (entry_iff_mapFind m hm key p).1 ⟨e, he, hk, by rw [hps]; exact List.mem_cons_self _ _⟩
    intro hnil
    rw [hnil] at hp
    cases hp
  · intro hne
    obtain ⟨p, ps, hps⟩ := List.exists_cons_of_ne_nil hne
    obtain ⟨e, he, hk, hp⟩ := (entry_iff_mapFind m hm key p).2
      (by rw [hps]; exact List.mem_cons_self _ _)
    exact ⟨e, he, hk, fun hnil => by rw [hnil] at hp; cases hp⟩

/-- C25, as amended: for every index whose keys are pairwise different and contain
neither `';'` nor a line feed and whose positions are all below `2 ^ 31`,
`loadCacheFromFile` applied to the text written by `saveCacheToFile` returns a map
that holds under every key the same set of positions as the index; its keys are the
keys of the index with a non-empty set (a key with an empty set, as `mcsSearch` creates
for a sampled string of a query that does not occur in the text, is not loaded), so
the loaded map equals the index when no set of the index is empty. -/
theorem cache_round_trip (cache : PosMap) (hkeys : KeysNodup cache)
    (hsep : ∀ e ∈ cache, (59 : UInt8) ∉ e.1 ∧ (10 : UInt8) ∉ e.1)
    (hpos : ∀ e ∈ cache, ∀ p ∈ e.2, p < 2 ^ 31) :
    ∃ loaded, loadCacheFromFile (saveCacheToFile cache) = .ok loaded ∧
      (∀ key p, p ∈ mapFind loaded key ↔ p ∈ mapFind cache key) ∧
      (∀ key, key ∈ loaded.map Prod.fst ↔ mapFind cache key ≠ []) ∧
      (NonEmptyVals cache → PosMap.Same loaded cache) := by
  have hlines : getlines 10 (saveCacheToFile cache) =
      cache.map (fun entry =>
        entry.1 ++ [59] ++ (entry.2.map (fun pos => printSizeT pos ++ [59])).flatten) := by
    unfold saveCacheToFile
    have hmap : cache.map (fun entry =>
          entry.1 ++ [59] ++ (entry.2.map (fun pos => printSizeT pos ++ [59])).flatten ++ [10]) =
        (cache.map (fun entry =>
          entry.1 ++ [59] ++ (entry.2.map (fun pos => printSizeT pos ++ [59])).flatten)).map
          (fun piece => piece ++ [10]) := by
      rw [List.map_map]
      rfl
    rw [hmap]
    apply getlines_flatten
    intro piece hpiece h10
    obtain ⟨e, he, hpe⟩ := List.mem_map.1 hpiece
    rw [← hpe] at h10
    rcases List.mem_append.1 h10 with h | h
    · rcases List.mem_append.1 h with h | h
      · exact (hsep e he).2 h
      · simp at h
    · obtain ⟨l, hl, h10l⟩ := List.mem_flatten.1 h
      obtain ⟨p, hp, hpl⟩ := List.mem_map.1 hl
      rw [← hpl] at h10l
      rcases List.mem_append.1 h10l with h | h
      · exact (printSizeT_spec p (hpos e he p hp)).2.2.2 h
      · simp at h
  obtain ⟨loaded, hloaded, hspec⟩ := loadCache_saved cache hsep hpos []
  have hmem : ∀ key p, p ∈ mapFind loaded key ↔ p ∈ mapFind cache key := by
    intro key p
    rw [(hspec key).1 p, ← entry_iff_mapFind cache hkeys key p]
    simp [mapFind]
  have hkey : ∀ key, key ∈ loaded.map Prod.fst ↔ mapFind cache key ≠ [] := by
    intro key
    rw [(hspec key).2, ← mapFind_ne_nil_iff cache hkeys key]
    simp
  refine ⟨loaded, ?_, hmem, hkey, ?_⟩
  · unfold loadCacheFromFile
    rw [hlines]
    exact hloaded
  · intro hne
    refine ⟨?_, hmem⟩
    intro key
    rw [hkey key, key_mem_iff_of_nonEmptyVals cache hne key]
    constructor
    · intro h
      obtain ⟨p, ps, hps⟩ := List.exists_cons_of_ne_nil h
      exact ⟨p, by rw [hps]; exact List.mem_cons_self _ _⟩
    · rintro ⟨p, hp⟩ hnil
      rw [hnil] at hp
      cases hp

theorem cache_round_trip_witness :
    ∃ loaded,
      loadCacheFromFile (saveCacheToFile [([65, 67], [0, 4, 8]), ([65, 95, 71], [12345])]) =
        .ok loaded ∧
      (∀ key p, p ∈ mapFind loaded key ↔
        p ∈ mapFind [([65, 67], [0, 4, 8]), ([65, 95, 71], [12345])] key) ∧
      (∀ key, key ∈ loaded.map Prod.fst ↔
        mapFind [([65, 67], [0, 4, 8]), ([65, 95, 71], [12345])] key ≠ []) ∧
      (NonEmptyVals [([65, 67], [0, 4, 8]), ([65, 95, 71], [12345])] →
        PosMap.Same loaded [([65, 67], [0, 4, 8]), ([65, 95, 71], [12345])]) :=
  cache_round_trip [([65, 67], [0, 4, 8]), ([65, 95, 71], [12345])]
    (by unfold KeysNodup; decide) (by decide) (by decide)

/-- C25, as stated, fails.  After `mcsSearch(1)` on the text `"ACGT"` with the query
`"AAGT"`, the index holds the keys `"AA"` and `"AG"` with empty sets; they are written
as the lines `AA;` and `AG;` and the loaded map does not have these keys.  And the
index with the key `"A;"` is not loaded at all: `std::stoi` throws on the piece after
the first `';'`. -/
theorem cache_round_trip_counterexample :
    KMismatchSearch.new [65, 67, 71, 84] [[65, 65, 71, 84]] 1 =
        .returned { text := [65, 67, 71, 84], queries := [[65, 65, 71, 84]], cache := [],
                    mcs := MCS.mk [Form.mk 3] } ∧
      KMismatchSearch.mcsSearchRun
          { text := [65, 67, 71, 84], queries := [[65, 65, 71, 84]], cache := [],
            mcs := MCS.mk [Form.mk 3] } false 1 =
        .ok ([([65, 67], [0]), ([67, 71], [1]), ([71, 84], [2]), ([65, 65], []), ([65, 71], [])],
          [([65, 65, 71, 84], [0])]) ∧
      loadCacheFromFile (saveCacheToFile
          [([65, 67], [0]), ([67, 71], [1]), ([71, 84], [2]), ([65, 65], []), ([65, 71], [])]) =
        .ok [([65, 67], [0]), ([67, 71], [1]), ([71, 84], [2])] ∧
      loadCacheFromFile (saveCacheToFile [([65, 59], [0])]) =
        .error (.invalid_argument "stoi") := by
  refine ⟨by decide, by decide, by decide, by decide⟩

end KMismatch

namespace KMismatch

/-! ## The list of candidate forms -/

theorem popcount_two_pow_add_one (j : Nat) (hj1 : 1 ≤ j) (hj : j ≤ 63) :
    popcount (2 ^ j + 1) = 2 := by
  have h1 : (1 : Nat) < 2 ^ j := Nat.one_lt_two_pow (by omega)
  have h := popcount_two_pow_add (j + 1) 1 (by omega) (by omega) (by simpa using h1)
  simp only [Nat.add_sub_cancel] at h
  rw [h]
  have hones : ∀ n, 1 ≤ n → onesBelow n 1 = 1 := by
    intro n hn
    induction n with
    | zero => omega
    | succ n ih =>
        by_cases hn0 : n = 0
        · subst hn0
          decide
        · rw [onesBelow_of_lt n 1 (Nat.one_lt_two_pow hn0)]
          exact ih (by omega)
  rw [hones j hj1]

/-- C33: for `L ≤ 63` and `L - k ≥ 2`, `Form::generateAllForms(L, k)` returns the list
of the `L - 1` forms with integers `2 ^ j + 1`, `j = 1, ..., L - 1`, in this order
(increasing); each has exactly two one-bits and a size between 2 and `L`; and the list
is the same for every such `k`. -/
theorem generateAllForms_increasing (L k : Nat) (hL : L ≤ 63) (hk : k + 2 ≤ L) :
    ∃ forms, Form.generateAllForms L k = .ok forms ∧
      forms = (List.range (L - 1)).map (fun t => Form.mk (2 ^ (t + 1) + 1)) ∧
      forms.length = L - 1 ∧
      List.Pairwise (fun F G : Form => F.sequenceInt < G.sequenceInt) forms ∧
      (∀ F ∈ forms, popcount F.sequenceInt = 2 ∧ 2 ≤ F.getSize ∧ F.getSize ≤ L) ∧
      ∀ k2, k2 + 2 ≤ L → Form.generateAllForms L k2 = .ok forms := by
  refine ⟨_, generateAllForms_eq_map L k (by omega) hk, rfl, by simp, ?_, ?_, ?_⟩
  · rw [List.pairwise_map]
    apply List.Pairwise.imp _ (List.pairwise_lt_range (L - 1))
    intro a b hab
    show 2 ^ (a + 1) + 1 < 2 ^ (b + 1) + 1
    have : 2 ^ (a + 1) < 2 ^ (b + 1) := Nat.pow_lt_pow_right (by decide) (by omega)
    omega
  · intro F hF
    obtain ⟨t, ht, hFt⟩ := List.mem_map.1 hF
    rw [List.mem_range] at ht
    rw [← hFt]
    have hlt : 2 ^ (t + 1) + 1 < 2 ^ 64 := by
      have h1 : 2 ^ (t + 1) ≤ 2 ^ 62 := Nat.pow_le_pow_right (by decide) (by omega)
      have h2 : (2 : Nat) ^ 62 + 1 < 2 ^ 64 := by norm_num
      omega
    refine ⟨popcount_two_pow_add_one (t + 1) (by omega) (by omega), ?_, ?_⟩
    · rw [form_getSize_eq_size _ hlt]
      show 2 ≤ Nat.size (2 ^ (t + 1) + 1)
      rw [size_two_pow_add_one (t + 1) (by omega)]
      omega
    · rw [form_getSize_eq_size _ hlt]
      show Nat.size (2 ^ (t + 1) + 1) ≤ L
      rw [size_two_pow_add_one (t + 1) (by omega)]
      omega
  · intro k2 hk2
    exact generateAllForms_eq_map L k2 (by omega) hk2

theorem generateAllForms_increasing_witness :
    ∃ forms, Form.generateAllForms 5 2 = .ok forms ∧
      forms = (List.range (5 - 1)).map (fun t => Form.mk (2 ^ (t + 1) + 1)) ∧
      forms.length = 5 - 1 ∧
      List.Pairwise (fun F G : Form => F.sequenceInt < G.sequenceInt) forms ∧
      (∀ F ∈ forms, popcount F.sequenceInt = 2 ∧ 2 ≤ F.getSize ∧ F.getSize ≤ 5) ∧
      ∀ k2, k2 + 2 ≤ 5 → Form.generateAllForms 5 k2 = .ok forms :=
  generateAllForms_increasing 5 2 (by decide) (by decide)

/-! ## Soundness of `mcsSearch` for any index -/

/-- C32: on the scalar path, for a text of fewer than `2 ^ 63` bytes, any MCS, any
cache and `k ≤ min |q|`, `mcsSearch(k)` returns a map in which every position `r`
reported for a string `q` belongs to a query `q` of the list with `r + |q| ≤ |T|` and
Hamming distance at most `k` between `T[r .. r + |q|]` and `q`; and for an index
candidate `pos` below the window offset `qPos ≤ |q|`, the wrapped difference
`pos - qPos` is not reported. -/
theorem mcsSearch_sound (s : KMismatchSearch) (avx2 : Bool) (k : Nat)
    (hpath : avx2 = false ∨ ∀ q ∈ s.queries, q.length < 32)
    (hT : s.text.length < 2 ^ 63) (hk : ∀ q ∈ s.queries, k ≤ q.length) :
    ∃ r, s.mcsSearch avx2 k = .ok r ∧
      (∀ q p, p ∈ mapFind r q → q ∈ s.queries ∧ p + q.length ≤ s.text.length ∧
        hamming (window s.text p q.length) q ≤ k) ∧
      ∀ q qPos pos, qPos ≤ q.length → pos < qPos → subU64 pos qPos ∉ mapFind r q := by
  obtain ⟨r, hr, _, hmem⟩ := mcsSearch_spec s avx2 k hpath hT hk
  have hsound : ∀ q p, p ∈ mapFind r q → q ∈ s.queries ∧ p + q.length ≤ s.text.length ∧
      hamming (window s.text p q.length) q ≤ k := by
    intro q p hp
    obtain ⟨hq, _, _, _, _, _, _, _, hbound, hcount⟩ := (hmem q p).1 hp
    exact ⟨hq, hbound, by rw [← mismatchCount_eq_hamming _ _ _ hbound]; exact hcount⟩
  refine ⟨r, hr, hsound, ?_⟩
  intro q qPos pos hq hlt hin
  obtain ⟨_, hbound, _⟩ := hsound q _ hin
  have h63 : (2 : Nat) ^ 63 = 9223372036854775808 := by norm_num
  have hmod : uintModulus = 18446744073709551616 := by unfold uintModulus; norm_num
  rw [h63] at hT
  unfold subU64 at hbound
  rw [hmod] at hbound
  have hq63 : q.length < 9223372036854775808 := by omega
  rw [Nat.mod_eq_of_lt (by omega)] at hbound
  omega

theorem mcsSearch_sound_witness :
    ∃ r, KMismatchSearch.mcsSearch
        { text := [65, 67, 71, 84, 65, 67], queries := [[71, 84, 65, 67]],
          cache := [([65, 67], [0, 7]), ([71, 84], [2])], mcs := MCS.mk [Form.mk 3] }
        false 1 = .ok r ∧
      (∀ q p, p ∈ mapFind r q → q ∈ [([71, 84, 65, 67] : Str)] ∧
        p + q.length ≤ ([65, 67, 71, 84, 65, 67] : Str).length ∧
        hamming (window [65, 67, 71, 84, 65, 67] p q.length) q ≤ 1) ∧
      ∀ q qPos pos, qPos ≤ q.length → pos < qPos → subU64 pos qPos ∉ mapFind r q :=
  mcsSearch_sound
    { text := [65, 67, 71, 84, 65, 67], queries := [[71, 84, 65, 67]],
      cache := [([65, 67], [0, 7]), ([71, 84], [2])], mcs := MCS.mk [Form.mk 3] }
    false 1 (Or.inl rfl) (by decide) (by decide)

end KMismatch

namespace KMismatch

/-! ## Rounds of the greedy cover -/

theorem round_removes (forms : List Form) (remaining : List Combination)
    (hne : remaining ≠ [])
    (hcov : ∀ c ∈ remaining, ∃ F ∈ forms, c.contains F = true) :
    1 ≤ countContaining remaining (bestFormToCombinationNumberPair forms remaining).1 ∧
      (remaining.filter (fun c =>
          !c.contains (bestFormToCombinationNumberPair forms remaining).1)).length <
        remaining.length := by
  obtain ⟨c, cs, hcs⟩ := List.exists_cons_of_ne_nil hne
  obtain ⟨F, hF, hcF⟩ := hcov c (by rw [hcs]; exact List.mem_cons_self _ _)
  have hpos : 0 < countContaining remaining
      (bestFormToCombinationNumberPair forms remaining).1 := by
    apply best_count_pos
    refine ⟨F, hF, ?_⟩
    unfold countContaining
    apply List.length_pos_of_mem (a := c)
    rw [List.mem_filter]
    exact ⟨by rw [hcs]; exact List.mem_cons_self _ _, hcF⟩
  refine ⟨hpos, ?_⟩
  unfold countContaining at hpos
  have hsum := filter_length_add remaining
    (fun combination =>
      combination.contains (bestFormToCombinationNumberPair forms remaining).1)
  omega

theorem coverLoop_rounds (forms : List Form) (fuel : Nat) :
    ∀ (combinations : List Combination) (acc mcsForms : List Form),
      (∀ c ∈ combinations, ∃ F ∈ forms, c.contains F = true) →
        coverLoop forms fuel combinations acc = some mcsForms →
          mcsForms.length ≤ acc.length + combinations.length := by
  induction fuel with
  | zero =>
      intro combinations acc mcsForms _ h
      cases combinations with
      | nil =>
          simp only [coverLoop, Option.some.injEq] at h
          rw [← h]
          omega
      | cons c cs => simp [coverLoop] at h
  | succ n ih =>
      intro combinations acc mcsForms hcov h
      cases combinations with
      | nil =>
          simp only [coverLoop, Option.some.injEq] at h
          rw [← h]
          omega
      | cons c cs =>
          simp only [coverLoop] at h
          have hlen := ih _ _ _
            (fun c' hc' => hcov c' (List.mem_filter.1 hc').1) h
          have hround := (round_removes forms (c :: cs) (by simp) hcov).2
          simp only [List.length_append, List.length_singleton] at hlen
          omega

theorem coverLoop_nodup (forms : List Form) (fuel : Nat) :
    ∀ (combinations : List Combination) (acc mcsForms : List Form),
      (∀ c ∈ combinations, ∃ F ∈ forms, c.contains F = true) →
        acc.Nodup → (∀ F ∈ acc, ∀ c ∈ combinations, c.contains F = false) →
          coverLoop forms fuel combinations acc = some mcsForms → mcsForms.Nodup := by
  induction fuel with
  | zero =>
      intro combinations acc mcsForms _ hnd _ h
      cases combinations with
      | nil =>
          simp only [coverLoop, Option.some.injEq] at h
          rw [← h]
          exact hnd
      | cons c cs => simp [coverLoop] at h
  | succ n ih =>
      intro combinations acc mcsForms hcov hnd hacc h
      cases combinations with
      | nil =>
          simp only [coverLoop, Option.some.injEq] at h
          rw [← h]
          exact hnd
      | cons c cs =>
          simp only [coverLoop] at h
          have hround := (round_removes forms (c :: cs) (by simp) hcov).1
          have hex : ∃ c' ∈ c :: cs,
              c'.contains (bestFormToCombinationNumberPair forms (c :: cs)).1 = true := by
            unfold countContaining at hround
            obtain ⟨c', hc'⟩ := List.exists_mem_of_length_pos hround
            rw [List.mem_filter] at hc'
            exact ⟨c', hc'.1, hc'.2⟩
          obtain ⟨c', hc'mem, hc'⟩ := hex
          have hnotin : (bestFormToCombinationNumberPair forms (c :: cs)).1 ∉ acc := by
            intro hin
            have := hacc _ hin c' hc'mem
            rw [hc'] at this
            cases this
          apply ih _ _ _ (fun c2 hc2 => hcov c2 (List.mem_filter.1 hc2).1) _ _ h
          · rw [List.nodup_append]
            refine ⟨hnd, List.nodup_singleton _, ?_⟩
            intro F hF1 hF2
            rw [List.mem_singleton] at hF2
            rw [hF2] at hF1
            exact hnotin hF1
          · intro F hF c2 hc2
            rw [List.mem_filter] at hc2
            rcases List.mem_append.1 hF with hF | hF
            · exact hacc F hF c2 hc2.1
            · rw [List.mem_singleton] at hF
              rw [hF]
              simpa using hc2.2

theorem build_loop (queries : List Str) (k : Nat) (hL : maxQueryLength queries ≤ 64)
    (hk : k + 2 ≤ maxQueryLength queries) :
    ∃ forms mcsForms,
      Form.generateAllForms (maxQueryLength queries) k = .ok forms ∧
      (∀ c ∈ Combination.generateAllCombinations (maxQueryLength queries) k,
        ∃ F ∈ forms, c.contains F = true) ∧
      coverLoop forms (Combination.generateAllCombinations (maxQueryLength queries) k).length
        (Combination.generateAllCombinations (maxQueryLength queries) k) [] = some mcsForms ∧
      MCS.buildMCSNaiveMultithreaded queries k = .returned (MCS.mk mcsForms) := by
  have hforms := generateAllForms_ok (maxQueryLength queries) k
    (lt_of_le_of_lt hL (by decide)) hk
  have hdepth : ¬ combinationsCallDepth (maxQueryLength queries) k > maxCallDepth := by
    rw [combinationsCallDepth_eq _ k (lt_of_le_of_lt hL (by decide)) (by omega)]
    unfold maxCallDepth
    omega
  have hcov := combination_contains_some_form _ k hL hk _ hforms
  obtain ⟨mcsForms, hloop⟩ := coverLoop_terminates
    (generateForms (maxQueryLength queries - 1) 0 (maxQueryLength queries - 2) 1)
    (Combination.generateAllCombinations (maxQueryLength queries) k).length
    (Combination.generateAllCombinations (maxQueryLength queries) k) [] hcov (le_refl _)
  refine ⟨_, mcsForms, hforms, hcov, hloop, ?_⟩
  rw [build_eq queries k (by omega) hdepth _ hforms, hloop]
  rfl

/-- C34: for a query list of maximum length `L ≤ 63` and `L - k ≥ 2`, in every round of
the loop of `buildMCSNaiveMultithreaded` (any non-empty list `remaining` of generated
combinations) the chosen form is contained in at least one remaining combination, so
the round leaves fewer combinations; and the call returns an MCS with at most
`C(L - 1, k)` forms, one form being appended per round. -/
theorem greedy_cover_terminates (queries : List Str) (k : Nat)
    (hL : maxQueryLength queries ≤ 63) (hk : k + 2 ≤ maxQueryLength queries) :
    ∃ forms mcs, Form.generateAllForms (maxQueryLength queries) k = .ok forms ∧
      (∀ remaining : List Combination, remaining ≠ [] →
        (∀ c ∈ remaining,
          c ∈ Combination.generateAllCombinations (maxQueryLength queries) k) →
        1 ≤ countContaining remaining (bestFormToCombinationNumberPair forms remaining).1 ∧
          (remaining.filter (fun c =>
            !c.contains (bestFormToCombinationNumberPair forms remaining).1)).length <
              remaining.length) ∧
      MCS.buildMCSNaiveMultithreaded queries k = .returned mcs ∧
      mcs.mcsForms.length ≤ Nat.choose (maxQueryLength queries - 1) k := by
  obtain ⟨forms, mcsForms, hforms, hcov, hloop, hbuild⟩ := build_loop queries k (by omega) hk
  refine ⟨forms, MCS.mk mcsForms, hforms, ?_, hbuild, ?_⟩
  · intro remaining hne hsub
    exact round_removes forms remaining hne (fun c hc => hcov c (hsub c hc))
  · have hlen := coverLoop_rounds forms _ _ [] mcsForms hcov hloop
    have hcount : (Combination.generateAllCombinations (maxQueryLength queries) k).length =
        Nat.choose (maxQueryLength queries - 1) k := by
      rw [generateAllCombinations_eq _ k (by omega) (by omega),
        generateCombinations_length _ (maxQueryLength queries - k - 1) k 1 (by omega)]
      rw [show maxQueryLength queries - k - 1 + k = maxQueryLength queries - 1 by omega,
        show maxQueryLength queries - k - 1 = maxQueryLength queries - 1 - k by omega]
      exact Nat.choose_symm (by omega)
    rw [hcount] at hlen
    simpa using hlen

theorem greedy_cover_terminates_witness :
    ∃ forms mcs, Form.generateAllForms (maxQueryLength [[65, 67, 71, 84, 65]]) 2 = .ok forms ∧
      (∀ remaining : List Combination, remaining ≠ [] →
        (∀ c ∈ remaining,
          c ∈ Combination.generateAllCombinations (maxQueryLength [[65, 67, 71, 84, 65]]) 2) →
        1 ≤ countContaining remaining (bestFormToCombinationNumberPair forms remaining).1 ∧
          (remaining.filter (fun c =>
            !c.contains (bestFormToCombinationNumberPair forms remaining).1)).length <
              remaining.length) ∧
      MCS.buildMCSNaiveMultithreaded [[65, 67, 71, 84, 65]] 2 = .returned mcs ∧
      mcs.mcsForms.length ≤ Nat.choose (maxQueryLength [[65, 67, 71, 84, 65]] - 1) 2 :=
  greedy_cover_terminates [[65, 67, 71, 84, 65]] 2 (by decide) (by decide)

/-! ## The shape of a built MCS -/

/-- C35, as amended: for a query list of maximum length `L ≤ 64` and `L - k ≥ 2`,
`buildMCSNaiveMultithreaded` returns an MCS whose forms are pairwise distinct; each
is `2 ^ j + 1` for some `1 ≤ j ≤ L - 1`, so it has bit 0 and its top bit set, exactly
two one-bits and a size between 2 and `L`; the MCS has at most `L - 1` forms and no
two of them have the same size. -/
theorem built_mcs_shape (queries : List Str) (k : Nat) (hL : maxQueryLength queries ≤ 64)
    (hk : k + 2 ≤ maxQueryLength queries) :
    ∃ mcs, MCS.buildMCSNaiveMultithreaded queries k = .returned mcs ∧
      mcs.mcsForms.Nodup ∧
      (∀ F ∈ mcs.mcsForms, ∃ j, 1 ≤ j ∧ j < maxQueryLength queries ∧
        F.sequenceInt = 2 ^ j + 1 ∧ F.sequenceInt.testBit 0 = true ∧
        F.sequenceInt.testBit (F.getSize - 1) = true ∧ popcount F.sequenceInt = 2 ∧
        F.getSize = j + 1) ∧
      mcs.mcsForms.length ≤ maxQueryLength queries - 1 ∧
      (mcs.mcsForms.map Form.getSize).Nodup := by
  obtain ⟨forms, mcsForms, hforms, hcov, hloop, hbuild⟩ := build_loop queries k hL hk
  have hne : forms ≠ [] := (generateAllForms_shape _ k forms hforms).1
  have hmap := generateAllForms_eq_map (maxQueryLength queries) k hL hk
  rw [hforms] at hmap
  have hformsEq : forms = (List.range (maxQueryLength queries - 1)).map
      (fun t => Form.mk (2 ^ (t + 1) + 1)) := Except.ok.inj hmap
  have hsub : ∀ F ∈ mcsForms, F ∈ forms := by
    intro F hF
    rcases (coverLoop_sound forms hne _ _ [] mcsForms hloop).2.2 F hF with h | h
    · cases h
    · exact h
  have hnd : mcsForms.Nodup :=
    coverLoop_nodup forms _ _ [] mcsForms hcov List.nodup_nil
      (fun F hF => by cases hF) hloop
  have hshape : ∀ F ∈ mcsForms, ∃ j, 1 ≤ j ∧ j < maxQueryLength queries ∧
      F.sequenceInt = 2 ^ j + 1 ∧ F.sequenceInt.testBit 0 = true ∧
      F.sequenceInt.testBit (F.getSize - 1) = true ∧ popcount F.sequenceInt = 2 ∧
      F.getSize = j + 1 := by
    intro F hF
    have hFf := hsub F hF
    rw [hformsEq] at hFf
    obtain ⟨t, ht, hFt⟩ := List.mem_map.1 hFf
    rw [List.mem_range] at ht
    have hlt : 2 ^ (t + 1) + 1 < 2 ^ 64 := by
      have h1 : 2 ^ (t + 1) ≤ 2 ^ 63 := Nat.pow_le_pow_right (by decide) (by omega)
      have h2 : (2 : Nat) ^ 63 + 1 < 2 ^ 64 := by norm_num
      omega
    have hsize : F.getSize = t + 1 + 1 := by
      rw [← hFt, form_getSize_eq_size _ hlt]
      exact size_two_pow_add_one (t + 1) (by omega)
    refine ⟨t + 1, by omega, by omega, by rw [← hFt], ?_, ?_, ?_, hsize⟩
    · rw [← hFt]
      exact (testBit_two_pow_add_one (t + 1) 0 (by omega)).2 (Or.inl rfl)
    · rw [hsize, ← hFt]
      exact (testBit_two_pow_add_one (t + 1) (t + 1 + 1 - 1) (by omega)).2 (Or.inr (by omega))
    · rw [← hFt]
      exact popcount_two_pow_add_one (t + 1) (by omega) (by omega)
  refine ⟨MCS.mk mcsForms, hbuild, hnd, hshape, ?_, ?_⟩
  · have hle := (List.subperm_of_subset hnd hsub).length_le
    rw [hformsEq, List.length_map, List.length_range] at hle
    exact hle
  · apply List.Nodup.map_on _ hnd
    intro F hF G hG hFG
    obtain ⟨j, _, _, hFj, _, _, _, hFs⟩ := hshape F hF
    obtain ⟨i, _, _, hGi, _, _, _, hGs⟩ := hshape G hG
    have hji : j = i := by omega
    cases F with
    | mk f =>
        cases G with
        | mk g =>
            simp only at hFj hGi
            rw [hFj, hGi, hji]

theorem built_mcs_shape_witness :
    ∃ mcs, MCS.buildMCSNaiveMultithreaded [[65, 67, 71, 84, 65]] 2 = .returned mcs ∧
      mcs.mcsForms.Nodup ∧
      (∀ F ∈ mcs.mcsForms, ∃ j, 1 ≤ j ∧ j < maxQueryLength [[65, 67, 71, 84, 65]] ∧
        F.sequenceInt = 2 ^ j + 1 ∧ F.sequenceInt.testBit 0 = true ∧
        F.sequenceInt.testBit (F.getSize - 1) = true ∧ popcount F.sequenceInt = 2 ∧
        F.getSize = j + 1) ∧
      mcs.mcsForms.length ≤ maxQueryLength [[65, 67, 71, 84, 65]] - 1 ∧
      (mcs.mcsForms.map Form.getSize).Nodup :=
  built_mcs_shape [[65, 67, 71, 84, 65]] 2 (by decide) (by decide)

set_option maxRecDepth 100000 in
/-- C35, as stated, fails: for one query of length 65 and `k = 1` (`L - k = 64`), the
candidate forms are computed in 64-bit words, the last of them is the form with
integer 1, every combination contains it, and on the tie of the counts the smaller
integer wins: the MCS returned is the single form 1, which has one one-bit and
size 1. -/
theorem built_mcs_shape_counterexample :
    maxQueryLength [List.replicate 65 65] = 65 ∧
      MCS.buildMCSNaiveMultithreaded [List.replicate 65 65] 1 =
        .returned (MCS.mk [Form.mk 1]) ∧
      popcount (Form.mk 1).sequenceInt = 1 ∧ (Form.mk 1).getSize = 1 := by
  refine ⟨by decide, by decide, by decide, by decide⟩

end KMismatch

namespace KMismatch

/-! ## `cutRightZeros` -/

theorem cutRightZerosLoop_spec (fuel : Nat) :
    ∀ n, n ≠ 0 → n < 2 ^ fuel →
      ∃ m d, cutRightZerosLoop fuel n = some m ∧ m % 2 = 1 ∧ n = m * 2 ^ d := by
  induction fuel with
  | zero =>
      intro n hn0 hn
      rw [pow_zero] at hn
      omega
  | succ fuel ih =>
      intro n hn0 hn
      rw [cutRightZerosLoop, Nat.and_one_is_mod]
      by_cases heven : n % 2 = 0
      · rw [if_pos heven]
        have hhalf : n >>> 1 = n / 2 := by rw [Nat.shiftRight_eq_div_pow, pow_one]
        rw [hhalf]
        obtain ⟨m, d, hm, hodd, hmd⟩ := ih (n / 2) (by omega) (by rw [pow_succ] at hn; omega)
        refine ⟨m, d + 1, hm, hodd, ?_⟩
        rw [pow_succ, ← Nat.mul_assoc, ← hmd]
        omega
      · rw [if_neg heven]
        exact ⟨n, 0, rfl, by omega, by simp⟩

theorem cutRightZeros_spec (n : Nat) (hn0 : n ≠ 0) (hn : n < 2 ^ 64) :
    ∃ m d, cutRightZeros n = some m ∧ m % 2 = 1 ∧ n = m * 2 ^ d :=
  cutRightZerosLoop_spec 64 n hn0 hn

theorem odd_mul_two_pow_inj (a b : Nat) (ha : a % 2 = 1) (hb : b % 2 = 1) :
    ∀ d e, a * 2 ^ d = b * 2 ^ e → a = b := by
  intro d
  induction d with
  | zero =>
      intro e h
      cases e with
      | zero => simpa using h
      | succ e =>
          rw [pow_zero, Nat.mul_one, pow_succ, ← Nat.mul_assoc] at h
          omega
  | succ d ih =>
      intro e h
      cases e with
      | zero =>
          rw [pow_zero, Nat.mul_one, pow_succ, ← Nat.mul_assoc] at h
          omega
      | succ e =>
          rw [pow_succ, pow_succ, ← Nat.mul_assoc, ← Nat.mul_assoc] at h
          exact ih e (by omega)

/-! ## Counting one-bits -/

theorem onesBelow_shift (n : Nat) :
    ∀ x, onesBelow (n + 1) x = (if x.testBit 0 = true then 1 else 0) + onesBelow n (x >>> 1) := by
  induction n with
  | zero =>
      intro x
      rw [onesBelow_succ]
      have h0 : ∀ y, onesBelow 0 y = 0 := fun y => rfl
      rw [h0, h0]
      omega
  | succ n ih =>
      intro x
      rw [onesBelow_succ, ih x, onesBelow_succ n (x >>> 1), Nat.testBit_shiftRight,
        Nat.add_comm 1 n, Nat.add_assoc]

theorem popcount_shift_succ (T i : Nat) (hT : T < 2 ^ 64) :
    popcount (T >>> i) =
      (if T.testBit i = true then 1 else 0) + popcount (T >>> (i + 1)) := by
  have hy : T >>> i < 2 ^ 64 := by
    rw [Nat.shiftRight_eq_div_pow]
    exact lt_of_le_of_lt (Nat.div_le_self _ _) hT
  have h1 : popcount (T >>> i) = onesBelow 64 (T >>> i) := rfl
  have h2 : popcount (T >>> (i + 1)) = onesBelow 64 (T >>> (i + 1)) := rfl
  have hlt : T >>> (i + 1) < 2 ^ 63 := by
    rw [Nat.shiftRight_add, Nat.shiftRight_eq_div_pow (T >>> i) 1, pow_one]
    have h64 : (2 : Nat) ^ 64 = 2 ^ 63 * 2 := by rw [← pow_succ]
    omega
  rw [h1, h2, onesBelow_shift 63 (T >>> i), onesBelow_of_lt 63 _ hlt, Nat.testBit_shiftRight,
    Nat.add_zero, Nat.shiftRight_add]

theorem popcount_eq_zero (x : Nat) (hx : x < 2 ^ 64) (h : popcount x = 0) : x = 0 := by
  by_contra hne
  obtain ⟨i, hi⟩ := Nat.ne_zero_implies_bit_true hne
  have hi64 : i < 64 := by
    by_contra hge
    have h1 := Nat.testBit_implies_ge hi
    have h2 : 2 ^ 64 ≤ 2 ^ i := Nat.pow_le_pow_right (by decide) (by omega)
    omega
  have hpos : 0 < popcount x := by
    unfold popcount
    apply List.length_pos_of_mem (a := i)
    rw [List.mem_filter]
    exact ⟨List.mem_range.2 hi64, hi⟩
  omega

theorem popcount_mul_two_pow (F : Nat) :
    ∀ d, F * 2 ^ d < 2 ^ 64 → popcount (F * 2 ^ d) = popcount F := by
  intro d
  induction d with
  | zero => intro _; simp
  | succ d ih =>
      intro h
      have hlt : F * 2 ^ d < 2 ^ 64 := by
        rw [pow_succ, ← Nat.mul_assoc] at h
        omega
      have hs := popcount_shift_succ (F * 2 ^ (d + 1)) 0 h
      have hbit : (F * 2 ^ (d + 1)).testBit 0 = false := by
        rw [Nat.testBit_zero, pow_succ, ← Nat.mul_assoc]
        simp
      have hshift : (F * 2 ^ (d + 1)) >>> (0 + 1) = F * 2 ^ d := by
        rw [Nat.shiftRight_eq_div_pow, pow_succ, ← Nat.mul_assoc]
        simp
      have h0 : (F * 2 ^ (d + 1)) >>> 0 = F * 2 ^ (d + 1) := rfl
      rw [hbit, hshift, h0] at hs
      rw [hs, ih hlt]
      simp

theorem or_two_pow_of_lt (f i : Nat) (hf : f < 2 ^ i) : f ||| 2 ^ i = f + 2 ^ i := by
  apply Nat.eq_of_testBit_eq
  intro j
  rw [Nat.testBit_or, Nat.testBit_two_pow, Nat.add_comm]
  rcases Nat.lt_trichotomy j i with hj | hj | hj
  · rw [Nat.testBit_two_pow_add_gt hj]
    have : ¬ i = j := by omega
    simp [this]
  · subst hj
    rw [Nat.testBit_two_pow_add_eq, Nat.testBit_lt_two_pow hf]
    simp
  · have h1 : f < 2 ^ j := lt_trans hf (Nat.pow_lt_pow_right (by decide) hj)
    have h2 : 2 ^ i + f < 2 ^ j := by
      have : 2 ^ (i + 1) ≤ 2 ^ j := Nat.pow_le_pow_right (by decide) hj
      rw [pow_succ] at this
      omega
    rw [Nat.testBit_lt_two_pow h1, Nat.testBit_lt_two_pow h2]
    have : ¬ i = j := by omega
    simp [this]

theorem and_two_pow_ne_zero (c i : Nat) : c &&& 2 ^ i ≠ 0 ↔ c.testBit i = true := by
  rw [Nat.and_two_pow]
  cases c.testBit i
  · simp
  · simp

theorem mod_two_pow_succ_of_testBit (T i : Nat) :
    T % 2 ^ (i + 1) = T % 2 ^ i + (if T.testBit i = true then 2 ^ i else 0) := by
  rw [Nat.mod_pow_succ, Nat.testBit_to_div_mod]
  by_cases h : T / 2 ^ i % 2 = 1
  · rw [h]; simp
  · have h0 : T / 2 ^ i % 2 = 0 := by omega
    rw [h0]; simp

/-! ## `Combination::getAllForms` -/

theorem level_split (c T i f r : Nat) (hT : T < 2 ^ 64) (hf : f < 2 ^ i) :
    (T % 2 ^ i = f ∧ (∀ j, i ≤ j → T.testBit j = true → c.testBit j = true) ∧
        popcount (T >>> i) = r) ↔
      (c.testBit i = true ∧ 1 ≤ r ∧ T % 2 ^ (i + 1) = f + 2 ^ i ∧
          (∀ j, i + 1 ≤ j → T.testBit j = true → c.testBit j = true) ∧
          popcount (T >>> (i + 1)) = r - 1) ∨
        (T % 2 ^ (i + 1) = f ∧
          (∀ j, i + 1 ≤ j → T.testBit j = true → c.testBit j = true) ∧
          popcount (T >>> (i + 1)) = r) := by
  have hmod := mod_two_pow_succ_of_testBit T i
  have hpop := popcount_shift_succ T i hT
  have hlt : T % 2 ^ i < 2 ^ i := Nat.mod_lt _ (Nat.pos_pow_of_pos i (by decide))
  constructor
  · rintro ⟨h1, h2, h3⟩
    by_cases hb : T.testBit i = true
    · left
      rw [if_pos hb] at hmod hpop
      exact ⟨h2 i (le_refl _) hb, by omega, by omega, fun j hj => h2 j (by omega), by omega⟩
    · right
      rw [if_neg hb] at hmod hpop
      exact ⟨by omega, fun j hj => h2 j (by omega), by omega⟩
  · rintro (⟨hc, hr, h1, h2, h3⟩ | ⟨h1, h2, h3⟩)
    · by_cases hb : T.testBit i = true
      · rw [if_pos hb] at hmod hpop
        refine ⟨by omega, ?_, by omega⟩
        intro j hj hbit
        rcases Nat.eq_or_lt_of_le hj with h | h
        · rw [← h]; exact hc
        · exact h2 j h hbit
      · rw [if_neg hb] at hmod
        omega
    · by_cases hb : T.testBit i = true
      · rw [if_pos hb] at hmod
        omega
      · rw [if_neg hb] at hmod hpop
        refine ⟨by omega, ?_, by omega⟩
        intro j hj hbit
        rcases Nat.eq_or_lt_of_le hj with h | h
        · rw [← h] at hbit; exact absurd hbit hb
        · exact h2 j h hbit

theorem generateInnerForms_spec (c : Nat) (fuel : Nat) :
    ∀ i r f, i ≤ 63 → 64 ≤ i + fuel → f < 2 ^ i → (r = 0 → f ≠ 0) →
      ∃ l, generateInnerForms c fuel r (2 ^ i) f = some l ∧
        ∀ F : Form, F ∈ l ↔
          ∃ T d, T < 2 ^ 64 ∧
            (T % 2 ^ i = f ∧ (∀ j, i ≤ j → T.testBit j = true → c.testBit j = true) ∧
              popcount (T >>> i) = r) ∧
            F.sequenceInt % 2 = 1 ∧ T = F.sequenceInt * 2 ^ d := by
  induction fuel with
  | zero =>
      intro i r f hi hfuel
      omega
  | succ fuel ih =>
      intro i r f hi hfuel hf hr
      have hpi : 2 ^ i ≤ 2 ^ 63 := Nat.pow_le_pow_right (by decide) hi
      have h6364 : (2 : Nat) ^ 64 = 2 ^ 63 * 2 := by rw [← pow_succ]
      have hf64 : f < 2 ^ 64 := by omega
      rw [generateInnerForms]
      by_cases hr0 : r = 0
      · rw [if_pos hr0]
        obtain ⟨m, d0, hm, hodd, hmd⟩ := cutRightZeros_spec f (hr hr0) hf64
        rw [hm]
        refine ⟨[Form.mk m], rfl, ?_⟩
        intro F
        rw [List.mem_singleton]
        constructor
        · intro hF
          rw [hF]
          refine ⟨f, d0, hf64, ⟨Nat.mod_eq_of_lt hf, ?_, ?_⟩, hodd, hmd⟩
          · intro j hj hbit
            have : f < 2 ^ j := lt_of_lt_of_le hf (Nat.pow_le_pow_right (by decide) hj)
            rw [Nat.testBit_lt_two_pow this] at hbit
            cases hbit
          · rw [Nat.shiftRight_eq_div_pow, Nat.div_eq_of_lt hf, hr0]
            rfl
        · rintro ⟨T, d, hT, ⟨hmod, _, hpop⟩, hFodd, hTF⟩
          have hshift : T >>> i < 2 ^ 64 := by
            rw [Nat.shiftRight_eq_div_pow]
            exact lt_of_le_of_lt (Nat.div_le_self _ _) hT
          rw [hr0] at hpop
          have hzero := popcount_eq_zero _ hshift hpop
          rw [Nat.shiftRight_eq_div_pow] at hzero
          have hTlt : T < 2 ^ i := by
            by_contra hge
            have : 0 < T / 2 ^ i :=
              Nat.div_pos (by omega) (Nat.pos_pow_of_pos i (by decide))
            omega
          rw [Nat.mod_eq_of_lt hTlt] at hmod
          have hFm : F.sequenceInt = m :=
            odd_mul_two_pow_inj _ _ hFodd hodd d d0 (by rw [← hTF, hmod, hmd])
          cases F with
          | mk n => simp only at hFm; rw [hFm]
      · rw [if_neg hr0]
        by_cases h63 : i = 63
        · subst h63
          rw [if_pos ((msbSet_iff (2 ^ 63) (by norm_num)).2 (le_refl _))]
          have hor := or_two_pow_of_lt f 63 hf
          by_cases hcond : c &&& 2 ^ 63 ≠ 0 ∧ r = 1
          · rw [if_pos hcond, hor]
            obtain ⟨m, d0, hm, hodd, hmd⟩ := cutRightZeros_spec (f + 2 ^ 63) (by omega) (by omega)
            rw [hm]
            refine ⟨[Form.mk m], rfl, ?_⟩
            intro F
            rw [List.mem_singleton]
            have hdiv : (f + 2 ^ 63) / 2 ^ 63 = 1 := by
              rw [Nat.add_div_right _ (Nat.pos_pow_of_pos 63 (by decide)), Nat.div_eq_of_lt hf]
            constructor
            · intro hF
              rw [hF]
              refine ⟨f + 2 ^ 63, d0, by omega, ⟨?_, ?_, ?_⟩, hodd, hmd⟩
              · rw [Nat.add_mod_right, Nat.mod_eq_of_lt hf]
              · intro j hj hbit
                rcases Nat.eq_or_lt_of_le hj with h | h
                · rw [← h]; exact (and_two_pow_ne_zero c 63).1 hcond.1
                · have : f + 2 ^ 63 < 2 ^ j :=
                    lt_of_lt_of_le (by omega) (Nat.pow_le_pow_right (by decide) h)
                  rw [Nat.testBit_lt_two_pow this] at hbit
                  cases hbit
              · rw [Nat.shiftRight_eq_div_pow, hdiv, hcond.2]
                rfl
            · rintro ⟨T, d, hT, ⟨hmod, _, hpop⟩, hFodd, hTF⟩
              have hT2 : T / 2 ^ 63 < 2 := by
                rw [Nat.div_lt_iff_lt_mul (Nat.pos_pow_of_pos 63 (by decide))]
                omega
              rw [Nat.shiftRight_eq_div_pow, hcond.2] at hpop
              have hT1 : T / 2 ^ 63 = 1 := by
                by_contra hne
                have h0 : T / 2 ^ 63 = 0 := by omega
                rw [h0] at hpop
                exact absurd hpop (by decide)
              have hTeq : T = f + 2 ^ 63 := by
                have := Nat.div_add_mod T (2 ^ 63)
                rw [hT1, hmod] at this
                omega
              have hFm : F.sequenceInt = m :=
                odd_mul_two_pow_inj _ _ hFodd hodd d d0 (by rw [← hTF, hTeq, hmd])
              cases F with
              | mk n => simp only at hFm; rw [hFm]
          · rw [if_neg hcond]
            refine ⟨[], rfl, ?_⟩
            intro F
            constructor
            · intro hF; cases hF
            · rintro ⟨T, d, hT, ⟨hmod, hsub, hpop⟩, _, _⟩
              exfalso
              have hT2 : T / 2 ^ 63 < 2 := by
                rw [Nat.div_lt_iff_lt_mul (Nat.pos_pow_of_pos 63 (by decide))]
                omega
              rw [Nat.shiftRight_eq_div_pow] at hpop
              by_cases h0 : T / 2 ^ 63 = 0
              · rw [h0] at hpop
                have : popcount 0 = 0 := rfl
                omega
              · have h1 : T / 2 ^ 63 = 1 := by omega
                rw [h1] at hpop
                have hp1 : popcount 1 = 1 := by decide
                have hbit : T.testBit 63 = true := by
                  rw [Nat.testBit_to_div_mod, h1]
                  rfl
                exact hcond ⟨(and_two_pow_ne_zero c 63).2 (hsub 63 (le_refl _) hbit), by omega⟩
        · have hi62 : i < 63 := by omega
          have hp62 : 2 ^ i < 2 ^ 63 := Nat.pow_lt_pow_right (by decide) hi62
          have hmsb : ¬ msbSet (2 ^ i) = true := by
            rw [msbSet_iff (2 ^ i) (by omega)]
            omega
          have hshl : shl1 (2 ^ i) = 2 ^ (i + 1) := by
            rw [shl1_small _ hp62, pow_succ, Nat.mul_comm]
          have hsucc : (2 : Nat) ^ (i + 1) = 2 ^ i * 2 := pow_succ 2 i
          rw [if_neg hmsb, hshl]
          obtain ⟨l2, hl2, hmem2⟩ := ih (i + 1) r f (by omega) (by omega) (by omega)
            (fun h => absurd h hr0)
          rw [hl2]
          have hkey : ∀ (l1 : List Form),
              (∀ F : Form, F ∈ l1 ↔
                ∃ T d, T < 2 ^ 64 ∧
                  (c.testBit i = true ∧ 1 ≤ r ∧ T % 2 ^ (i + 1) = f + 2 ^ i ∧
                    (∀ j, i + 1 ≤ j → T.testBit j = true → c.testBit j = true) ∧
                    popcount (T >>> (i + 1)) = r - 1) ∧
                  F.sequenceInt % 2 = 1 ∧ T = F.sequenceInt * 2 ^ d) →
              ∀ F : Form, F ∈ l1 ++ l2 ↔
                ∃ T d, T < 2 ^ 64 ∧
                  (T % 2 ^ i = f ∧ (∀ j, i ≤ j → T.testBit j = true → c.testBit j = true) ∧
                    popcount (T >>> i) = r) ∧
                  F.sequenceInt % 2 = 1 ∧ T = F.sequenceInt * 2 ^ d := by
            intro l1 hl1 F
            rw [List.mem_append, hl1 F, hmem2 F]
            constructor
            · rintro (⟨T, d, hT, h, hodd, hTF⟩ | ⟨T, d, hT, h, hodd, hTF⟩)
              · exact ⟨T, d, hT, (level_split c T i f r hT hf).2 (Or.inl h), hodd, hTF⟩
              · exact ⟨T, d, hT, (level_split c T i f r hT hf).2 (Or.inr h), hodd, hTF⟩
            · rintro ⟨T, d, hT, h, hodd, hTF⟩
              rcases (level_split c T i f r hT hf).1 h with h | h
              · exact Or.inl ⟨T, d, hT, h, hodd, hTF⟩
              · exact Or.inr ⟨T, d, hT, h, hodd, hTF⟩
          by_cases hci : c &&& 2 ^ i ≠ 0
          · rw [if_pos hci, or_two_pow_of_lt f i hf]
            have hcbit := (and_two_pow_ne_zero c i).1 hci
            obtain ⟨l1, hl1, hmem1⟩ := ih (i + 1) (r - 1) (f + 2 ^ i) (by omega) (by omega)
              (by omega) (fun _ => by omega)
            rw [hl1]
            refine ⟨l1 ++ l2, rfl, hkey l1 ?_⟩
            intro F
            rw [hmem1 F]
            constructor
            · rintro ⟨T, d, hT, ⟨h1, h2, h3⟩, hodd, hTF⟩
              exact ⟨T, d, hT, ⟨hcbit, by omega, h1, h2, h3⟩, hodd, hTF⟩
            · rintro ⟨T, d, hT, ⟨_, _, h1, h2, h3⟩, hodd, hTF⟩
              exact ⟨T, d, hT, ⟨h1, h2, h3⟩, hodd, hTF⟩
          · rw [if_neg hci]
            refine ⟨[] ++ l2, rfl, hkey [] ?_⟩
            intro F
            constructor
            · intro hF; cases hF
            · rintro ⟨T, d, hT, ⟨hcbit, _⟩, _, _⟩
              exact absurd ((and_two_pow_ne_zero c i).2 hcbit) hci

theorem mem_foldl_formSetInsert (inserted : List Form) :
    ∀ set : List Form, set.Nodup →
      (inserted.foldl formSetInsert set).Nodup ∧
        ∀ F, F ∈ inserted.foldl formSetInsert set ↔ F ∈ set ∨ F ∈ inserted := by
  induction inserted with
  | nil =>
      intro set hnd
      exact ⟨hnd, fun F => by simp⟩
  | cons G inserted ih =>
      intro set hnd
      rw [List.foldl_cons]
      have hstep : (formSetInsert set G).Nodup ∧
          ∀ F, F ∈ formSetInsert set G ↔ F ∈ set ∨ F = G := by
        unfold formSetInsert
        by_cases hG : G ∈ set
        · rw [if_pos hG]
          refine ⟨hnd, fun F => ⟨Or.inl, ?_⟩⟩
          rintro (h | h)
          · exact h
          · rw [h]; exact hG
        · rw [if_neg hG]
          refine ⟨?_, fun F => by simp⟩
          rw [List.nodup_append]
          refine ⟨hnd, List.nodup_singleton _, ?_⟩
          intro F hF1 hF2
          rw [List.mem_singleton] at hF2
          rw [hF2] at hF1
          exact hG hF1
      obtain ⟨hnd2, hmem2⟩ := ih (formSetInsert set G) hstep.1
      refine ⟨hnd2, fun F => ?_⟩
      rw [hmem2 F, hstep.2 F, List.mem_cons]
      tauto

/-- C31: for every combination `c` (a 64-bit word) and every `m ≥ 1`,
`Combination::getAllForms(m)` returns, and the set it returns holds exactly the forms
`F` (64-bit words) with bit 0 set and exactly `m` one-bits for which `c.contains(F)` is
true. -/
theorem getAllForms_spec (c : Combination) (m : Nat) (hc : c.sequenceInt < 2 ^ 64)
    (hm : 1 ≤ m) :
    ∃ forms, c.getAllForms m = some forms ∧ forms.Nodup ∧
      ∀ F : Form, F ∈ forms ↔
        F.sequenceInt < 2 ^ 64 ∧ F.sequenceInt.testBit 0 = true ∧
          popcount F.sequenceInt = m ∧ c.contains F = true := by
  obtain ⟨l, hl, hmem⟩ := generateInnerForms_spec c.sequenceInt 64 0 m 0 (by omega) (by omega)
    (by simp) (fun h => by omega)
  obtain ⟨hnd, hfold⟩ := mem_foldl_formSetInsert l [] List.nodup_nil
  refine ⟨l.foldl formSetInsert [], ?_, hnd, ?_⟩
  · unfold Combination.getAllForms
    have h1 : (2 : Nat) ^ 0 = 1 := rfl
    rw [h1] at hl
    show (generateInnerForms c.sequenceInt 64 m 1 0).map _ = _
    rw [hl]
    rfl
  · intro F
    rw [hfold F, hmem F]
    simp only [List.not_mem_nil, false_or]
    constructor
    · rintro ⟨T, d, hT, ⟨_, hsub, hpop⟩, hodd, hTF⟩
      have hF0 : F.sequenceInt ≠ 0 := by
        intro h
        rw [h] at hodd
        omega
      have hFle : F.sequenceInt ≤ T := by
        rw [hTF]
        exact Nat.le_mul_of_pos_right _ (Nat.pos_pow_of_pos d (by decide))
      have hF64 : F.sequenceInt < 2 ^ 64 := lt_of_le_of_lt hFle hT
      have hpopF : popcount F.sequenceInt = m := by
        rw [← popcount_mul_two_pow F.sequenceInt d (by rw [← hTF]; exact hT), ← hTF]
        exact hpop
      refine ⟨hF64, Nat.mod_two_eq_one_iff_testBit_zero.1 hodd, hpopF, ?_⟩
      rw [contains_iff_shift64 c F hc hF64 hF0]
      refine ⟨d, ?_, ?_⟩
      · have hsize := Nat.size_shiftLeft hF0 d
        rw [Nat.shiftLeft_eq, ← hTF] at hsize
        have := (Nat.size_le (m := T) (n := 64)).2 hT
        omega
      · intro j hj
        rw [Nat.shiftLeft_eq, ← hTF] at hj
        exact hsub j (Nat.zero_le _) hj
    · rintro ⟨hF64, hbit, hpop, hcon⟩
      have hodd : F.sequenceInt % 2 = 1 := Nat.mod_two_eq_one_iff_testBit_zero.2 hbit
      have hF0 : F.sequenceInt ≠ 0 := by
        intro h
        rw [h] at hodd
        omega
      obtain ⟨d, hd, hsub⟩ := (contains_iff_shift64 c F hc hF64 hF0).1 hcon
      have hT : F.sequenceInt * 2 ^ d < 2 ^ 64 := by
        have hsize := Nat.size_shiftLeft hF0 d
        rw [Nat.shiftLeft_eq] at hsize
        apply (Nat.size_le (m := F.sequenceInt * 2 ^ d) (n := 64)).1
        omega
      refine ⟨F.sequenceInt * 2 ^ d, d, hT, ⟨Nat.mod_one _, ?_, ?_⟩, hodd, rfl⟩
      · intro j _ hj
        apply hsub j
        rw [Nat.shiftLeft_eq]
        exact hj
      · show popcount (F.sequenceInt * 2 ^ d) = m
        rw [popcount_mul_two_pow F.sequenceInt d hT]
        exact hpop

theorem getAllForms_spec_witness :
    ∃ forms, (Combination.mk 0b1011).getAllForms 2 = some forms ∧ forms.Nodup ∧
      ∀ F : Form, F ∈ forms ↔
        F.sequenceInt < 2 ^ 64 ∧ F.sequenceInt.testBit 0 = true ∧
          popcount F.sequenceInt = 2 ∧ (Combination.mk 0b1011).contains F = true :=
  getAllForms_spec (Combination.mk 0b1011) 2 (by decide) (by decide)

end KMismatch
